import Mathlib

/-!
# Verification of the CAPTCHA image generator

A shallow embedding of `internal/captcha/image.go` (`ImageCaptcha.Generate`).

Conventions of the embedding.

* Go `int` is modelled by `Int`.  Every quantity of `Generate` is bounded by a small
  multiple of the canvas size and of the code length, and the canvas is allocated in
  memory, so 64-bit wrap-around does not occur; no `% 2^64` is inserted.
* Go integer division `a / b` truncates toward zero: `Int.tdiv`.
* `float64` arithmetic is modelled by an ordered field `α` with a floor function, and the
  library functions `math.Sin`, `math.Cos` and the constant `math.Pi` are passed as
  arguments.  Taking `α = ℝ` with `Real.sin`, `Real.cos`, `Real.pi` gives the statements
  "over exact real arithmetic"; taking `α = ℚ` makes every definition executable.
  The conversion `int(v)` of a float truncates toward zero (`goInt`).
* `math/rand` is modelled by the raw values it returns: `rand.Intn(k)` on the raw value
  `r` is `r % k`, so every outcome in `[0, k)` is covered and no other.
* A canvas stores 8-bit RGBA pixels; a colour handed to `Set` (the configured background
  among them) is modelled by the `color.RGBA` value the library converts it to.
* The code is taken to be ASCII (alphanumeric), so that `len(code)` is the number of
  glyphs and the loop index `i` of `for i, ch := range code` is `0, 1, ..., len(code)-1`.
-/

namespace Captcha

/-! ## Constants of `Generate` -/

/-- Cell width `charWidth := 35`. -/
def charWidth : Int := 35

/-- Cell height `charHeight := 45`. -/
def charHeight : Int := 45

/-- Go integer division (truncation toward zero). -/
def goDiv (a b : Int) : Int := Int.tdiv a b

/-- Conversion `int(v)` of a floating-point value: the fraction is discarded. -/
def goInt {α : Type} [LinearOrderedField α] [FloorRing α] (v : α) : Int :=
  if 0 ≤ v then Int.floor v else Int.ceil v

/-- The computation `int(diagonal * math.Sin(maxRotationRad))` of lines 64-69, with
`maxRotationRad = 20 * math.Pi / 180` and `diagonal = math.Sqrt(35*35 + 45*45)`, over the
number type `α` with the library functions passed as arguments. -/
def maxRotationOffsetOf {α : Type} [LinearOrderedField α] [FloorRing α]
    (sqrt sin : α → α) (pi : α) : Int :=
  let maxRotation : α := 20
  let maxRotationRad := maxRotation * pi / 180
  let diagonal := sqrt (((charWidth * charWidth + charHeight * charHeight : Int) : α))
  goInt (diagonal * sin maxRotationRad)

/-- The value of `maxRotationOffset` in `Generate`: `diagonal ≈ 57.0088`,
`sin 20° ≈ 0.34202`, the product is `≈ 19.498` and `int` truncates it to `19`. -/
def maxRotationOffset : Int := 19

/-! ## Layout (lines 71-119) -/

/-- The values the layout hands to the glyph loop. -/
structure Layout where
  startX : Int
  baseCharSpacing : Int
  maxSpacingVariation : Int
  centerY : Int
  deriving Repr, DecidableEq

/-- The expression `len(code)*charWidth + (len(code)-1)*(baseCharSpacing+maxSpacingVariation)`. -/
def maxTotalWidth (n : Nat) (baseCharSpacing maxSpacingVariation : Int) : Int :=
  (n : Int) * charWidth + ((n : Int) - 1) * (baseCharSpacing + maxSpacingVariation)

/-- The expression `totalTextWidth + 2*maxRotationOffset`. -/
def totalWidthWithRotation (n : Nat) (baseCharSpacing maxSpacingVariation : Int) : Int :=
  maxTotalWidth n baseCharSpacing maxSpacingVariation + 2 * maxRotationOffset

/-- The statement `startX := (width - total) / 2` followed by the clamp to the minimum
margin `maxRotationOffset + 10`. -/
def centeredStartX (width total : Int) : Int :=
  let startX := goDiv (width - total) 2
  if startX < maxRotationOffset + 10 then maxRotationOffset + 10 else startX

/-- Lines 73-107: the spacing profile and `startX`; the result is
`(startX, baseCharSpacing, maxSpacingVariation)`. -/
def horizontalLayout (n : Nat) (width : Int) : Int × Int × Int :=
  let baseCharSpacing : Int := 25
  let maxSpacingVariation : Int := 5
  let total := totalWidthWithRotation n baseCharSpacing maxSpacingVariation
  let startX := centeredStartX width total
  if startX + total > width - 10 then
    let startX := width - total - 10
    if startX < maxRotationOffset + 10 then
      let baseCharSpacing : Int := 20
      let maxSpacingVariation : Int := 3
      let total := totalWidthWithRotation n baseCharSpacing maxSpacingVariation
      (centeredStartX width total, baseCharSpacing, maxSpacingVariation)
    else
      (startX, baseCharSpacing, maxSpacingVariation)
  else
    (startX, baseCharSpacing, maxSpacingVariation)

/-- The bound `minY := charHeight/2 + maxRotationOffset`. -/
def minY : Int := goDiv charHeight 2 + maxRotationOffset

/-- The bound `maxY := height - charHeight/2 - maxRotationOffset`. -/
def maxY (height : Int) : Int := height - goDiv charHeight 2 - maxRotationOffset

/-- Lines 110-119: `centerY := height / 2` and the two-sided clamp. -/
def centerY (height : Int) : Int :=
  let centerY := goDiv height 2
  if centerY < minY then minY
  else if centerY > maxY height then maxY height
  else centerY

/-- The layout of `Generate` for a code of `n` glyphs on a `width × height` canvas. -/
def layout (n : Nat) (width height : Int) : Layout :=
  let h := horizontalLayout n width
  { startX := h.1, baseCharSpacing := h.2.1, maxSpacingVariation := h.2.2,
    centerY := centerY height }

/-! ## Random source -/

/-- The result of `rand.Intn(k)` when the generator's raw value is `r`. -/
def intn (r : Nat) (k : Int) : Int := (r : Int) % k

/-- The draws `Generate` makes for one glyph, in program order: `rand.Float64()` for the
angle, the raw value behind `rand.Intn(11)` for the vertical jitter and the raw value
behind `rand.Intn(2*maxSpacingVariation+1)` for the spacing of the next glyph. -/
structure GlyphDraw (α : Type) where
  u : α
  jitterRaw : Nat
  spacingRaw : Nat

/-! ## Spacing state of the glyph loop (lines 109, 149, 187-199) -/

/-- The two variables the glyph loop carries from one iteration to the next. -/
structure SpacingState where
  charSpacing : Int
  maxSpacingVariation : Int
  deriving Repr, DecidableEq

/-- The statement `posX := startX + maxRotationOffset + i*charSpacing`. -/
def glyphPosX (L : Layout) (i : Nat) (charSpacing : Int) : Int :=
  L.startX + maxRotationOffset + (i : Int) * charSpacing

/-- The spacing redrawn after glyph `i`: `baseCharSpacing + spacingVariation`. -/
def redrawnSpacing (L : Layout) (st : SpacingState) (r : Nat) : Int :=
  let spacingVariation := intn r (2 * st.maxSpacingVariation + 1) - st.maxSpacingVariation
  L.baseCharSpacing + spacingVariation

/-- The look-ahead check of lines 192-194 after glyph `i`, in the state `st` the glyph was
placed with and for the raw spacing draw `r`. -/
def lookAheadOverflow (L : Layout) (n : Nat) (width : Int) (i : Nat) (st : SpacingState)
    (r : Nat) : Bool :=
  let posX := glyphPosX L i st.charSpacing
  let charSpacing := redrawnSpacing L st r
  if (i : Int) < (n : Int) - 1 then
    let nextPosX := posX + charWidth + charSpacing
    decide (nextPosX + charWidth + maxRotationOffset > width - 10)
  else false

/-- Lines 187-199: the update of `charSpacing` and `maxSpacingVariation` at the end of
iteration `i`. -/
def spacingStep (L : Layout) (n : Nat) (width : Int) (i : Nat) (st : SpacingState)
    (r : Nat) : SpacingState :=
  let posX := glyphPosX L i st.charSpacing
  let spacingVariation := intn r (2 * st.maxSpacingVariation + 1) - st.maxSpacingVariation
  let charSpacing := L.baseCharSpacing + spacingVariation
  if (i : Int) < (n : Int) - 1 then
    let nextPosX := posX + charWidth + charSpacing
    if nextPosX + charWidth + maxRotationOffset > width - 10 then
      { charSpacing := 15, maxSpacingVariation := 2 }
    else
      { charSpacing := charSpacing, maxSpacingVariation := st.maxSpacingVariation }
  else
    { charSpacing := charSpacing, maxSpacingVariation := st.maxSpacingVariation }

/-- The spacing state at the start of iteration `i` of the glyph loop; `spacingRaw k` is
the raw spacing draw made at the end of iteration `k`. -/
def spacingAt (L : Layout) (n : Nat) (width : Int) (spacingRaw : Nat → Nat) :
    Nat → SpacingState
  | 0 => { charSpacing := L.baseCharSpacing, maxSpacingVariation := L.maxSpacingVariation }
  | i + 1 => spacingStep L n width i (spacingAt L n width spacingRaw i) (spacingRaw i)

/-- The horizontal base position `posX` of glyph `i` in `Generate`. -/
def posXAt (n : Nat) (width height : Int) (spacingRaw : Nat → Nat) (i : Nat) : Int :=
  let L := layout n width height
  glyphPosX L i (spacingAt L n width spacingRaw i).charSpacing

/-- The look-ahead check after glyph `i` in `Generate` finds an overflow. -/
def lookAheadFires (n : Nat) (width height : Int) (spacingRaw : Nat → Nat) (i : Nat) : Bool :=
  let L := layout n width height
  lookAheadOverflow L n width i (spacingAt L n width spacingRaw i) (spacingRaw i)

/-! ## Canvas (`image.RGBA` with rectangle `(0,0)-(width,height)`) -/

/-- An 8-bit RGBA colour (`color.RGBA`); pixels of an `image.RGBA` are stored in this form. -/
structure RGBA where
  r : Nat
  g : Nat
  b : Nat
  a : Nat
  deriving Repr, DecidableEq

/-- The zero colour, the content of a fresh `image.NewRGBA` and the value of `At` outside
the rectangle. -/
def RGBA.zero : RGBA := { r := 0, g := 0, b := 0, a := 0 }

/-- The method `color.RGBA.RGBA()`: each 8-bit channel `v` becomes the 16-bit `v | v<<8`. -/
def RGBA.rgba (c : RGBA) : Nat × Nat × Nat × Nat :=
  (c.r ||| (c.r <<< 8), c.g ||| (c.g <<< 8), c.b ||| (c.b <<< 8), c.a ||| (c.a <<< 8))

/-- The conversion `uint8(v)`. -/
def uint8 (v : Nat) : Nat := v % 256

/-- A pixel buffer; `pix` is read and written only inside the rectangle. -/
structure Canvas where
  width : Int
  height : Int
  pix : Int → Int → RGBA

/-- The test `Point{x, y}.In(Rect)`. -/
def Canvas.inBounds (img : Canvas) (x y : Int) : Prop :=
  0 ≤ x ∧ x < img.width ∧ 0 ≤ y ∧ y < img.height

instance (img : Canvas) (x y : Int) : Decidable (img.inBounds x y) := by
  unfold Canvas.inBounds
  infer_instance

/-- The call `image.NewRGBA(image.Rect(0, 0, width, height))`. -/
def newRGBA (width height : Int) : Canvas :=
  { width := width, height := height, pix := fun _ _ => RGBA.zero }

/-- The method `(*image.RGBA).Set`: a no-op outside the rectangle. -/
def Canvas.Set (img : Canvas) (x y : Int) (c : RGBA) : Canvas :=
  if img.inBounds x y then
    { img with pix := fun a b => if a = x ∧ b = y then c else img.pix a b }
  else img

/-- The method `(*image.RGBA).At`: the zero colour outside the rectangle. -/
def Canvas.At (img : Canvas) (x y : Int) : RGBA :=
  if img.inBounds x y then img.pix x y else RGBA.zero

/-- A counting loop `for i := 0; i < n; i++ { s = body(i, s) }`. -/
def forRange {σ : Type} (n : Nat) (body : Int → σ → σ) (s : σ) : σ :=
  (List.range n).foldl (fun s i => body (i : Int) s) s

/-- Lines 49-56: the fresh canvas filled with the background colour. -/
def backgroundCanvas (width height : Int) (bg : RGBA) : Canvas :=
  forRange width.toNat (fun x img =>
    forRange height.toNat (fun y img => img.Set x y bg) img) (newRGBA width height)

/-! ## Glyph compositor (lines 121-185) -/

/-- Lines 142: `angle := (rand.Float64()*40 - 20) * math.Pi / 180`. -/
def glyphAngle {α : Type} [LinearOrderedField α] (pi u : α) : α :=
  (u * 40 - 20) * pi / 180

/-- Line 145: `verticalOffset := rand.Intn(11) - 5`. -/
def verticalOffset (jitterRaw : Nat) : Int := intn jitterRaw 11 - 5

/-- Lines 159-168: the destination `(destX, destY)` of the cell pixel `(x, y)` for a glyph
at `(posX, posY)` rotated by `angle`. -/
def glyphDest {α : Type} [LinearOrderedField α] [FloorRing α] (cos sin : α → α)
    (angle : α) (posX posY x y : Int) : Int × Int :=
  let relX : α := ((x - goDiv charWidth 2 : Int) : α)
  let relY : α := ((y - goDiv charHeight 2 : Int) : α)
  let rotX := relX * cos angle - relY * sin angle
  let rotY := relX * sin angle + relY * cos angle
  let destX := goInt rotX + posX + goDiv charWidth 2
  let destY := goInt rotY + posY
  (destX, destY)

/-- Lines 156-183 for one cell pixel of colour `src` whose destination is `dest`: the
write `img.Set(destX, destY, colour)` that is issued, if any. -/
def glyphPixelWrite (width height : Int) (src : RGBA) (dest : Int × Int) :
    Option (Int × Int × RGBA) :=
  let (r, g, b, a) := src.rgba
  let destX := dest.1
  let destY := dest.2
  if a > 0 then
    if destX ≥ 0 ∧ destX < width ∧ destY ≥ 0 ∧ destY < height then
      if destX ≥ 2 ∧ destX < width - 2 ∧ destY ≥ 2 ∧ destY < height - 2 then
        some (destX, destY,
          { r := uint8 (r >>> 8), g := uint8 (g >>> 8), b := uint8 (b >>> 8),
            a := uint8 (a >>> 8) })
      else none
    else none
  else none

/-- The effect on the canvas of the write issued for one cell pixel. -/
def applyWrite (img : Canvas) : Option (Int × Int × RGBA) → Canvas
  | none => img
  | some (x, y, c) => img.Set x y c

/-- Lines 153-185: the two loops over the cell `charImg` of one glyph. -/
def drawGlyph {α : Type} [LinearOrderedField α] [FloorRing α] (cos sin : α → α)
    (width height : Int) (charImg : Int → Int → RGBA) (angle : α) (posX posY : Int)
    (img : Canvas) : Canvas :=
  forRange charWidth.toNat (fun x img =>
    forRange charHeight.toNat (fun y img =>
      applyWrite img
        (glyphPixelWrite width height (charImg x y)
          (glyphDest cos sin angle posX posY x y))) img) img

/-- One iteration of the loop `for i, ch := range code`: glyph `i`, whose rasterised cell
is `charImg`, is composited and the spacing state is updated. -/
def glyphIter {α : Type} [LinearOrderedField α] [FloorRing α] (cos sin : α → α) (pi : α)
    (L : Layout) (n : Nat) (width height : Int) (charImg : Int → Int → RGBA)
    (d : GlyphDraw α) (i : Nat) (s : Canvas × SpacingState) : Canvas × SpacingState :=
  let angle := glyphAngle pi d.u
  let posX := glyphPosX L i s.2.charSpacing
  let posY := L.centerY + verticalOffset d.jitterRaw
  (drawGlyph cos sin width height charImg angle posX posY s.1,
    spacingStep L n width i s.2 d.spacingRaw)

/-- The canvas and the spacing state after the first `k` iterations of the glyph loop,
started on the canvas `img`; `glyphs i` is the rasterised cell of glyph `i` and
`draws i` are the random draws of iteration `i`. -/
def glyphLoop {α : Type} [LinearOrderedField α] [FloorRing α] (cos sin : α → α) (pi : α)
    (n : Nat) (width height : Int) (glyphs : Nat → Int → Int → RGBA)
    (draws : Nat → GlyphDraw α) (img : Canvas) : Nat → Canvas × SpacingState
  | 0 =>
    (img, { charSpacing := (layout n width height).baseCharSpacing,
            maxSpacingVariation := (layout n width height).maxSpacingVariation })
  | k + 1 =>
    glyphIter cos sin pi (layout n width height) n width height (glyphs k) (draws k) k
      (glyphLoop cos sin pi n width height glyphs draws img k)

/-- The canvas after all `n` glyphs of the code have been composited. -/
def composeGlyphs {α : Type} [LinearOrderedField α] [FloorRing α] (cos sin : α → α)
    (pi : α) (n : Nat) (width height : Int) (glyphs : Nat → Int → Int → RGBA)
    (draws : Nat → GlyphDraw α) (img : Canvas) : Canvas :=
  (glyphLoop cos sin pi n width height glyphs draws img n).1

/-- The 2-pixel border band of a `width × height` canvas. -/
def inBorderBand (width height x y : Int) : Prop :=
  x < 2 ∨ x ≥ width - 2 ∨ y < 2 ∨ y ≥ height - 2

/-! ## Wave distortion (lines 260-291) -/

/-- Lines 264-266: `offset1 + offset2` for column `x`. -/
def waveOffsetV {α : Type} [LinearOrderedField α] [FloorRing α] (sin : α → α)
    (x : Int) : Int :=
  let offset1 := goInt (3 * sin ((x : α) * 0.08))
  let offset2 := goInt (2 * sin ((x : α) * 0.15 + 1.5))
  offset1 + offset2

/-- Line 282: `horizOffset` for row `y`. -/
def waveOffsetH {α : Type} [LinearOrderedField α] [FloorRing α] (sin : α → α)
    (y : Int) : Int :=
  goInt (2 * sin ((y : α) * 0.1))

/-- Lines 261-276: the vertical pass with column offsets `v`, reading `img` and writing a
fresh canvas. -/
def verticalPass (v : Int → Int) (width height : Int) (bg : RGBA) (img : Canvas) : Canvas :=
  forRange width.toNat (fun x distorted =>
    let offset := v x
    forRange height.toNat (fun y distorted =>
      let srcY := y + offset
      if srcY ≥ 0 ∧ srcY < height then distorted.Set x y (img.At x srcY)
      else distorted.Set x y bg) distorted) (newRGBA width height)

/-- Lines 279-291: the horizontal pass with row offsets `h`, reading `distorted` and
writing a fresh canvas. -/
def horizontalPass (h : Int → Int) (width height : Int) (bg : RGBA) (distorted : Canvas) :
    Canvas :=
  forRange height.toNat (fun y finalImage =>
    let horizOffset := h y
    forRange width.toNat (fun x finalImage =>
      let srcX := x + horizOffset
      if srcX ≥ 0 ∧ srcX < width then finalImage.Set x y (distorted.At srcX y)
      else finalImage.Set x y bg) finalImage) (newRGBA width height)

/-- Lines 260-291: both passes, vertical first. -/
def waveDistort (v h : Int → Int) (width height : Int) (bg : RGBA) (img : Canvas) : Canvas :=
  horizontalPass h width height bg (verticalPass v width height bg img)

/-- The closed-form sample of the claim for the output pixel `(x, y)`: the pixel of `P` at
`(x + h y, y + v (x + h y))` when both coordinates are in range, the background otherwise. -/
def waveSample (v h : Int → Int) (width height : Int) (bg : RGBA) (P : Canvas)
    (x y : Int) : RGBA :=
  if 0 ≤ x + h y ∧ x + h y < width ∧ 0 ≤ y + v (x + h y) ∧ y + v (x + h y) < height then
    P.At (x + h y) (y + v (x + h y))
  else bg

/-- The vertical offset as the specification words it (§4.5):
`offset(x) = round(3·sin(0.08x) + 2·sin(0.15x + 1.5))`, the sum rounded once. -/
def specWaveOffsetV {α : Type} [LinearOrderedField α] [FloorRing α] (sin : α → α)
    (x : Int) : Int :=
  round (3 * sin (0.08 * (x : α)) + 2 * sin (0.15 * (x : α) + 1.5))

/-- The horizontal offset as the specification words it (§4.5):
`offset(y) = round(2·sin(0.1y))`. -/
def specWaveOffsetH {α : Type} [LinearOrderedField α] [FloorRing α] (sin : α → α)
    (y : Int) : Int :=
  round (2 * sin (0.1 * (y : α)))

/-- The integer `m` is the value `v` with its fraction discarded: `m` lies between `0` and
`v` and differs from `v` by less than one. -/
def IsTruncationOf {α : Type} [LinearOrderedField α] (m : Int) (v : α) : Prop :=
  |(m : α)| ≤ |v| ∧ |v| < |(m : α)| + 1 ∧ 0 ≤ (m : α) * v

/-! ## Noise lines: the line walk (lines 228-257) -/

/-- The helper `abs` of the source. -/
def abs (x : Int) : Int := if x < 0 then -x else x

/-- The variables the line loop updates: the current point `(x1, y1)` and `err`. -/
structure LineState where
  x1 : Int
  y1 : Int
  err : Int
  deriving Repr, DecidableEq

/-- The values fixed before the line loop: the target `(x2, y2)`, `dx`, `dy`, `sx`, `sy`. -/
structure LineParams where
  x2 : Int
  y2 : Int
  dx : Int
  dy : Int
  sx : Int
  sy : Int
  deriving Repr, DecidableEq

/-- Lines 229-238: `dx`, `dy`, `sx`, `sy` for the segment from `(x1, y1)` to `(x2, y2)`. -/
def lineParams (x1 y1 x2 y2 : Int) : LineParams :=
  { x2 := x2, y2 := y2,
    dx := abs (x2 - x1), dy := abs (y2 - y1),
    sx := if x1 < x2 then 1 else -1,
    sy := if y1 < y2 then 1 else -1 }

/-- Line 239: the state at loop entry, `err := dx - dy`. -/
def lineStart (x1 y1 x2 y2 : Int) : LineState :=
  { x1 := x1, y1 := y1, err := (lineParams x1 y1 x2 y2).dx - (lineParams x1 y1 x2 y2).dy }

/-- Lines 248-256: one pass through the part of the loop body after the `break` test. -/
def lineStep (p : LineParams) (s : LineState) : LineState :=
  let e2 := 2 * s.err
  let s1 : LineState :=
    if e2 > -p.dy then { s with err := s.err - p.dy, x1 := s.x1 + p.sx } else s
  if e2 < p.dx then { s1 with err := s1.err + p.dx, y1 := s1.y1 + p.sy } else s1

/-- Lines 241-257: the loop `for { ... }`.  Each pass first hands the current point to
`visit` (in the source: the bounds check and `img.Set`), then tests the `break` condition.
The loop of the source has no bound; `fuel` bounds the number of passes, and the result is
`none` when the fuel is used up before the `break` is reached. -/
def lineLoop {σ : Type} (visit : Int → Int → σ → σ) (p : LineParams) :
    Nat → LineState → σ → Option σ
  | 0, _, _ => none
  | fuel + 1, s, acc =>
    let acc := visit s.x1 s.y1 acc
    if s.x1 = p.x2 ∧ s.y1 = p.y2 then some acc
    else lineLoop visit p fuel (lineStep p s) acc

/-- The points handed to the loop body by the walk from `(x1, y1)` to `(x2, y2)`, in
order. -/
def lineVisited (fuel : Nat) (x1 y1 x2 y2 : Int) : Option (List (Int × Int)) :=
  lineLoop (fun x y acc => acc ++ [(x, y)]) (lineParams x1 y1 x2 y2) fuel
    (lineStart x1 y1 x2 y2) []

/-- Lines 242-244: the bounds check and `img.Set(x1, y1, lineColor)`. -/
def linePlot (width height : Int) (lineColor : RGBA) (x1 y1 : Int) (img : Canvas) : Canvas :=
  if x1 ≥ 0 ∧ x1 < width ∧ y1 ≥ 0 ∧ y1 < height then img.Set x1 y1 lineColor else img

/-- Lines 229-257: one noise line drawn on the canvas. -/
def drawLine (fuel : Nat) (width height : Int) (lineColor : RGBA) (x1 y1 x2 y2 : Int)
    (img : Canvas) : Option Canvas :=
  lineLoop (linePlot width height lineColor) (lineParams x1 y1 x2 y2) fuel
    (lineStart x1 y1 x2 y2) img

/-- The state of the line loop after `k` passes through lines 248-256. -/
def lineIter (p : LineParams) (k : Nat) (s : LineState) : LineState :=
  (lineStep p)^[k] s

/-- The points of the states `s, lineStep s, ..., lineStep^r s`. -/
def lineTrace (p : LineParams) : Nat → LineState → List (Int × Int)
  | 0, s => [(s.x1, s.y1)]
  | r + 1, s => (s.x1, s.y1) :: lineTrace p r (lineStep p s)

/-- The invariant of the line loop after `k` steps of the walk from `(x0, y0)`: `kx` steps
were taken along x and `ky` along y, `err` is `dx - dy + d` for the cross product
`d = dx*ky - dy*kx`, the major axis has advanced at every step and `d` stays within half
the major extent. -/
def LineInv (x0 y0 : Int) (p : LineParams) (k : Nat) (s : LineState) : Prop :=
  ∃ kx ky d : Int,
    0 ≤ kx ∧ 0 ≤ ky ∧ kx ≤ k ∧ ky ≤ k ∧
    s.x1 = x0 + p.sx * kx ∧ s.y1 = y0 + p.sy * ky ∧
    d = p.dx * ky - p.dy * kx ∧ s.err = p.dx - p.dy + d ∧
    (p.dy < p.dx → kx = k ∧ -p.dx ≤ 2 * d ∧ 2 * d < p.dx) ∧
    (p.dx < p.dy → ky = k ∧ -p.dy < 2 * d ∧ 2 * d ≤ p.dy) ∧
    (p.dx = p.dy → kx = k ∧ ky = k ∧ d = 0)

/-! ## Noise dots and lines (lines 202-258) -/

/-- The call `rand.Intn(k)` with its precondition: it panics (`none`) unless `0 < k`. -/
def intnChecked (r : Nat) (k : Int) : Option Int :=
  if 0 < k then some (intn r k) else none

/-- The raw random values behind one noise dot, in program order. -/
structure DotDraw where
  xRaw : Nat
  yRaw : Nat
  rRaw : Nat
  gRaw : Nat
  bRaw : Nat

/-- The raw random values behind one noise line, in program order. -/
structure LineDraw where
  x1Raw : Nat
  y1Raw : Nat
  x2Raw : Nat
  y2Raw : Nat
  rRaw : Nat
  gRaw : Nat
  bRaw : Nat
  aRaw : Nat

/-- The endpoints and the colour of one noise line. -/
structure NoiseLine where
  x1 : Int
  y1 : Int
  x2 : Int
  y2 : Int
  lineColor : RGBA
  deriving Repr, DecidableEq

/-- Lines 204-211: the position and the colour of one noise dot. -/
def dotPixel (width height : Int) (d : DotDraw) : Option (Int × Int × RGBA) := do
  let x ← intnChecked d.xRaw width
  let y ← intnChecked d.yRaw height
  let r ← intnChecked d.rRaw 256
  let g ← intnChecked d.gRaw 256
  let b ← intnChecked d.bRaw 256
  pure (x, y, { r := uint8 r.toNat, g := uint8 g.toNat, b := uint8 b.toNat, a := 255 })

/-- Lines 203-212: the loop that draws the 100 noise dots. -/
def addDots (width height : Int) (dots : Nat → DotDraw) (img : Canvas) : Option Canvas :=
  forRange 100 (fun i acc => do
    let img ← acc
    let d ← dotPixel width height (dots i.toNat)
    pure (img.Set d.1 d.2.1 d.2.2)) (some img)

/-- Lines 216-226: the endpoints and the colour of one noise line. -/
def noiseLine (width height : Int) (d : LineDraw) : Option NoiseLine := do
  let x1 ← intnChecked d.x1Raw width
  let y1 ← intnChecked d.y1Raw height
  let x2 ← intnChecked d.x2Raw width
  let y2 ← intnChecked d.y2Raw height
  let r ← intnChecked d.rRaw 256
  let g ← intnChecked d.gRaw 256
  let b ← intnChecked d.bRaw 256
  let a ← intnChecked d.aRaw 100
  pure { x1 := x1, y1 := y1, x2 := x2, y2 := y2,
         lineColor := { r := uint8 r.toNat, g := uint8 g.toNat, b := uint8 b.toNat,
                        a := uint8 (a + 100).toNat } }

/-- Lines 215-258: the loop that draws the 5 noise lines; each line walk is given `fuel`
passes. -/
def addLines (fuel : Nat) (width height : Int) (lines : Nat → LineDraw) (img : Canvas) :
    Option Canvas :=
  forRange 5 (fun i acc => do
    let img ← acc
    let l ← noiseLine width height (lines i.toNat)
    drawLine fuel width height l.lineColor l.x1 l.y1 l.x2 l.y2 img) (some img)

/-! ## `Generate` (lines 45-301) -/

/-- All random draws of one call of `Generate`. -/
structure Draws (α : Type) where
  glyph : Nat → GlyphDraw α
  dot : Nat → DotDraw
  line : Nat → LineDraw

/-- The glyph loop with the preconditions of its two `rand.Intn` calls: `none` when a
bound passed to `rand.Intn` is not positive. -/
def glyphLoopChecked {α : Type} [LinearOrderedField α] [FloorRing α] (cos sin : α → α)
    (pi : α) (n : Nat) (width height : Int) (glyphs : Nat → Int → Int → RGBA)
    (draws : Nat → GlyphDraw α) (img : Canvas) : Nat → Option (Canvas × SpacingState)
  | 0 =>
    some (img, { charSpacing := (layout n width height).baseCharSpacing,
                 maxSpacingVariation := (layout n width height).maxSpacingVariation })
  | k + 1 => do
    let s ← glyphLoopChecked cos sin pi n width height glyphs draws img k
    let _ ← intnChecked (draws k).jitterRaw 11
    let _ ← intnChecked (draws k).spacingRaw (2 * s.2.maxSpacingVariation + 1)
    pure (glyphIter cos sin pi (layout n width height) n width height (glyphs k) (draws k) k s)

/-- The canvas of `Generate` just before the wave distortion: background, glyphs, dots,
lines.  The result is `none` when a `rand.Intn` precondition fails or a line walk does not
end within `fuel` passes. -/
def preDistortion {α : Type} [LinearOrderedField α] [FloorRing α] (cos sin : α → α)
    (pi : α) (width height : Int) (bg : RGBA) (n : Nat) (glyphs : Nat → Int → Int → RGBA)
    (draws : Draws α) (fuel : Nat) : Option Canvas := do
  let img := backgroundCanvas width height bg
  let s ← glyphLoopChecked cos sin pi n width height glyphs draws.glyph img n
  let img ← addDots width height draws.dot s.1
  addLines fuel width height draws.line img

/-- The method `Generate` for a code of `n` glyphs with rasterised cells `glyphs`, on a
`width x height` canvas with background `bg`; `encode` is `png.Encode` followed by
`buf.Bytes()`.  The outer `none` stands for a panic or a loop that does not end within
`fuel` passes; `Except.error` is the return `nil, err` and `Except.ok` the return
`buf.Bytes(), nil`. -/
def Generate {α β ε : Type} [LinearOrderedField α] [FloorRing α] (cos sin : α → α)
    (pi : α) (encode : Canvas → Except ε β) (width height : Int) (bg : RGBA) (n : Nat)
    (glyphs : Nat → Int → Int → RGBA) (draws : Draws α) (fuel : Nat) :
    Option (Except ε β) := do
  let img ← preDistortion cos sin pi width height bg n glyphs draws fuel
  let finalImage :=
    waveDistort (waveOffsetV sin) (waveOffsetH sin) width height bg img
  match encode finalImage with
  | Except.error err => pure (Except.error err)
  | Except.ok buf => pure (Except.ok buf)

/-- The dot that `dotPixel` yields when every `rand.Intn` precondition holds. -/
def dotValue (width height : Int) (d : DotDraw) : Int × Int × RGBA :=
  (intn d.xRaw width, intn d.yRaw height,
    { r := uint8 (intn d.rRaw 256).toNat, g := uint8 (intn d.gRaw 256).toNat,
      b := uint8 (intn d.bRaw 256).toNat, a := 255 })

/-- The line that `noiseLine` yields when every `rand.Intn` precondition holds. -/
def lineValue (width height : Int) (d : LineDraw) : NoiseLine :=
  { x1 := intn d.x1Raw width, y1 := intn d.y1Raw height,
    x2 := intn d.x2Raw width, y2 := intn d.y2Raw height,
    lineColor := { r := uint8 (intn d.rRaw 256).toNat, g := uint8 (intn d.gRaw 256).toNat,
                   b := uint8 (intn d.bRaw 256).toNat,
                   a := uint8 (intn d.aRaw 100 + 100).toNat } }

/-- The canvas left by one complete walk of the noise line `l`: the bounds check and
`img.Set` applied at every point of the walk, in order. -/
def lineCanvas (width height : Int) (l : NoiseLine) (img : Canvas) : Canvas :=
  (lineTrace (lineParams l.x1 l.y1 l.x2 l.y2) (max |l.x2 - l.x1| |l.y2 - l.y1|).toNat
    (lineStart l.x1 l.y1 l.x2 l.y2)).foldl
    (fun acc q => linePlot width height l.lineColor q.1 q.2 acc) img

/-- The maximum rotation offset as the specification words it (§4.2 step 1):
`ceil(sqrt(cell_w² + cell_h²) * sin(20°))`. -/
def specMaxRotationOffset {α : Type} [LinearOrderedField α] [FloorRing α]
    (sqrt sin : α → α) (pi : α) : Int :=
  Int.ceil (sqrt (((charWidth ^ 2 + charHeight ^ 2 : Int) : α)) * sin (20 * pi / 180))

/-! ## Coordinates passed to `Set` and `At` on the `width x height` canvases

The lists below record, phase by phase and in program order, the coordinates at which
`Generate` calls `Set` or `At` on `img`, `distorted` and `finalImage`.  (The glyph cell
`charImg` is a separate 35x45 buffer, read at its own coordinates `0 ≤ x < 35`,
`0 ≤ y < 45`.) -/

/-- Lines 52-56: the calls `img.Set(x, y, backgroundColor)`. -/
def backgroundAccesses (width height : Int) : List (Int × Int) :=
  forRange width.toNat (fun x acc =>
    forRange height.toNat (fun y acc => acc ++ [(x, y)]) acc) []

/-- Lines 153-185 for one glyph: the calls `img.Set(destX, destY, ...)` that are issued. -/
def glyphAccesses {α : Type} [LinearOrderedField α] [FloorRing α] (cos sin : α → α)
    (width height : Int) (charImg : Int → Int → RGBA) (angle : α) (posX posY : Int) :
    List (Int × Int) :=
  forRange charWidth.toNat (fun x acc =>
    forRange charHeight.toNat (fun y acc =>
      match glyphPixelWrite width height (charImg x y)
          (glyphDest cos sin angle posX posY x y) with
      | some w => acc ++ [(w.1, w.2.1)]
      | none => acc) acc) []

/-- Lines 121-200: the `Set` calls of the first `k` iterations of the glyph loop. -/
def composeAccesses {α : Type} [LinearOrderedField α] [FloorRing α] (cos sin : α → α)
    (pi : α) (n : Nat) (width height : Int) (glyphs : Nat → Int → Int → RGBA)
    (draws : Nat → GlyphDraw α) : Nat → List (Int × Int)
  | 0 => []
  | k + 1 =>
    composeAccesses cos sin pi n width height glyphs draws k ++
      glyphAccesses cos sin width height (glyphs k) (glyphAngle pi (draws k).u)
        (glyphPosX (layout n width height) k
          (spacingAt (layout n width height) n width (fun i => (draws i).spacingRaw)
            k).charSpacing)
        ((layout n width height).centerY + verticalOffset (draws k).jitterRaw)

/-- Lines 203-212: the calls `img.Set(x, y, ...)` of the 100 noise dots; `none` when a
`rand.Intn` precondition fails. -/
def dotAccesses (width height : Int) (dots : Nat → DotDraw) : Option (List (Int × Int)) :=
  forRange 100 (fun i acc => do
    let a ← acc
    let d ← dotPixel width height (dots i.toNat)
    pure (a ++ [(d.1, d.2.1)])) (some [])

/-- Lines 242-244 on the list of accesses: the point is recorded when the bounds check
lets `img.Set(x1, y1, lineColor)` through. -/
def linePlotAccess (width height : Int) (x1 y1 : Int) (acc : List (Int × Int)) :
    List (Int × Int) :=
  if x1 ≥ 0 ∧ x1 < width ∧ y1 ≥ 0 ∧ y1 < height then acc ++ [(x1, y1)] else acc

/-- Lines 215-258: the `Set` calls of the 5 noise lines; `none` when a `rand.Intn`
precondition fails or a walk does not end within `fuel` passes. -/
def lineAccesses (fuel : Nat) (width height : Int) (lines : Nat → LineDraw) :
    Option (List (Int × Int)) :=
  forRange 5 (fun i acc => do
    let a ← acc
    let l ← noiseLine width height (lines i.toNat)
    lineLoop (linePlotAccess width height) (lineParams l.x1 l.y1 l.x2 l.y2) fuel
      (lineStart l.x1 l.y1 l.x2 l.y2) a) (some [])

/-- Lines 262-276: the calls `img.At(x, srcY)` and `distorted.Set(x, y, ...)` of the
vertical pass. -/
def verticalPassAccesses (v : Int → Int) (width height : Int) : List (Int × Int) :=
  forRange width.toNat (fun x acc =>
    let offset := v x
    forRange height.toNat (fun y acc =>
      let srcY := y + offset
      if srcY ≥ 0 ∧ srcY < height then acc ++ [(x, srcY), (x, y)]
      else acc ++ [(x, y)]) acc) []

/-- Lines 280-291: the calls `distorted.At(srcX, y)` and `finalImage.Set(x, y, ...)` of the
horizontal pass. -/
def horizontalPassAccesses (h : Int → Int) (width height : Int) : List (Int × Int) :=
  forRange height.toNat (fun y acc =>
    let horizOffset := h y
    forRange width.toNat (fun x acc =>
      let srcX := x + horizOffset
      if srcX ≥ 0 ∧ srcX < width then acc ++ [(srcX, y), (x, y)]
      else acc ++ [(x, y)]) acc) []

/-- Lines 126-130 and 153-156: the calls `charImg.Set(x, y, color.Transparent)` and
`charImg.At(x, y)` on the 35x45 cell of one glyph. -/
def cellAccesses : List (Int × Int) :=
  forRange charWidth.toNat (fun x acc =>
    forRange charHeight.toNat (fun y acc => acc ++ [(x, y)]) acc) []

/-- All coordinates passed to `Set` and `At` on the `width x height` canvases by one call
of `Generate`, in program order. -/
def generateAccesses {α : Type} [LinearOrderedField α] [FloorRing α] (cos sin : α → α)
    (pi : α) (width height : Int) (n : Nat) (glyphs : Nat → Int → Int → RGBA)
    (draws : Draws α) (fuel : Nat) : Option (List (Int × Int)) := do
  let dots ← dotAccesses width height draws.dot
  let lines ← lineAccesses fuel width height draws.line
  pure (backgroundAccesses width height ++
    composeAccesses cos sin pi n width height glyphs draws.glyph n ++
    dots ++ lines ++
    verticalPassAccesses (waveOffsetV sin) width height ++
    horizontalPassAccesses (waveOffsetH sin) width height)

/-! ## Helper lemmas -/

theorem goDiv_two (a : Int) :
    goDiv a 2 = if 0 ≤ a then a / 2 else -((-a) / 2) := by
  unfold goDiv
  split
  · rename_i h
    exact Int.tdiv_eq_ediv h (by decide)
  · rename_i h
    have h1 : (0 : Int) ≤ -a := by omega
    have h2 := Int.tdiv_eq_ediv h1 (show (0 : Int) ≤ 2 by decide)
    rw [← h2, Int.neg_tdiv, neg_neg]

theorem goDiv_charHeight : goDiv charHeight 2 = 22 := by decide

theorem minY_eq : minY = 41 := by decide

/-! ### Loops -/

theorem forRange_succ {σ : Type} (n : Nat) (body : Int → σ → σ) (s : σ) :
    forRange (n + 1) body s = body (n : Int) (forRange n body s) := by
  simp [forRange, List.range_succ, List.foldl_append]

theorem forRange_zero {σ : Type} (body : Int → σ → σ) (s : σ) :
    forRange 0 body s = s := by
  simp [forRange]

theorem forRange_invariant {σ : Type} (P : σ → Prop) (n : Nat) (body : Int → σ → σ) (s : σ)
    (h0 : P s) (hstep : ∀ (i : Nat) (t : σ), i < n → P t → P (body (i : Int) t)) :
    P (forRange n body s) := by
  induction n with
  | zero => rwa [forRange_zero]
  | succ k ih =>
    rw [forRange_succ]
    exact hstep k _ (Nat.lt_succ_self k)
      (ih (fun i t hi ht => hstep i t (Nat.lt_succ_of_lt hi) ht))

theorem rgba16_alpha_pos (a : Nat) : a ||| (a <<< 8) > 0 ↔ a > 0 := by
  constructor
  · intro h
    by_contra h0
    have : a = 0 := by omega
    subst this
    simp at h
  · intro h
    have hne : a ≠ 0 := by omega
    obtain ⟨i, hi⟩ := Nat.ne_zero_implies_bit_true hne
    have hbit : (a ||| (a <<< 8)).testBit i = true := by
      rw [Nat.testBit_or, hi]
      rfl
    by_contra h0
    have hz : a ||| (a <<< 8) = 0 := by omega
    rw [hz, Nat.zero_testBit] at hbit
    exact Bool.false_ne_true hbit

theorem Set_pix_of_ne (img : Canvas) (x y : Int) (c : RGBA) (a b : Int)
    (h : ¬ (a = x ∧ b = y)) : (img.Set x y c).pix a b = img.pix a b := by
  unfold Canvas.Set
  split
  · simp [h]
  · rfl

theorem glyphPixelWrite_eq_some_iff (width height : Int) (src : RGBA) (dest : Int × Int) :
    (∃ c, glyphPixelWrite width height src dest = some (dest.1, dest.2, c)) ↔
      (src.a > 0 ∧ 2 ≤ dest.1 ∧ dest.1 < width - 2 ∧ 2 ≤ dest.2 ∧ dest.2 < height - 2) := by
  unfold glyphPixelWrite RGBA.rgba
  simp only [rgba16_alpha_pos]
  split_ifs with h1 h2 h3
  · simp only [Option.some.injEq, Prod.mk.injEq, true_and, exists_eq']
    constructor
    · intro _
      exact ⟨h1, h3.1, h3.2.1, h3.2.2.1, h3.2.2.2⟩
    · intro _
      trivial
  · simp only [exists_false, false_iff]
    rintro ⟨_, h⟩
    exact h3 h
  · simp only [exists_false, false_iff]
    rintro ⟨_, h⟩
    exact h2 (by omega)
  · simp only [exists_false, false_iff]
    rintro ⟨h, _⟩
    exact h1 h

theorem glyphPixelWrite_eq_none (width height : Int) (src : RGBA) (dest : Int × Int)
    (h : ¬ (src.a > 0 ∧ 2 ≤ dest.1 ∧ dest.1 < width - 2 ∧ 2 ≤ dest.2 ∧ dest.2 < height - 2)) :
    glyphPixelWrite width height src dest = none := by
  unfold glyphPixelWrite RGBA.rgba
  simp only [rgba16_alpha_pos]
  split_ifs with h1 h2 h3
  · exact absurd ⟨h1, h3.1, h3.2.1, h3.2.2.1, h3.2.2.2⟩ h
  · rfl
  · rfl
  · rfl

theorem glyphPixelWrite_some_dest (width height : Int) (src : RGBA) (dest : Int × Int)
    (w : Int × Int × RGBA) (h : glyphPixelWrite width height src dest = some w) :
    w.1 = dest.1 ∧ w.2.1 = dest.2 ∧
      2 ≤ dest.1 ∧ dest.1 < width - 2 ∧ 2 ≤ dest.2 ∧ dest.2 < height - 2 := by
  unfold glyphPixelWrite RGBA.rgba at h
  simp only [rgba16_alpha_pos] at h
  split_ifs at h with h1 h2 h3
  simp only [Option.some.injEq] at h
  subst h
  exact ⟨rfl, rfl, h3.1, h3.2.1, h3.2.2.1, h3.2.2.2⟩

theorem applyWrite_pix_band (width height : Int) (src : RGBA) (dest : Int × Int)
    (img : Canvas) (x y : Int) (hb : inBorderBand width height x y) :
    (applyWrite img (glyphPixelWrite width height src dest)).pix x y = img.pix x y := by
  cases hw : glyphPixelWrite width height src dest with
  | none => rfl
  | some w =>
    obtain ⟨h1, h2, h3⟩ := glyphPixelWrite_some_dest width height src dest w hw
    obtain ⟨wx, wy, wc⟩ := w
    simp only [applyWrite]
    apply Set_pix_of_ne
    simp only at h1 h2
    unfold inBorderBand at hb
    omega

theorem drawGlyph_pix_band {α : Type} [LinearOrderedField α] [FloorRing α] (cos sin : α → α)
    (width height : Int) (charImg : Int → Int → RGBA) (angle : α) (posX posY : Int)
    (img : Canvas) (x y : Int) (hb : inBorderBand width height x y) :
    (drawGlyph cos sin width height charImg angle posX posY img).pix x y = img.pix x y := by
  unfold drawGlyph
  refine forRange_invariant (fun d : Canvas => d.pix x y = img.pix x y) _ _ _ rfl ?_
  intro i t _ ht
  refine forRange_invariant (fun d : Canvas => d.pix x y = img.pix x y) _ _ _ ht ?_
  intro j t2 _ ht2
  show (applyWrite t2 _).pix x y = img.pix x y
  rw [applyWrite_pix_band width height _ _ _ x y hb]
  exact ht2

theorem glyphLoop_pix_band {α : Type} [LinearOrderedField α] [FloorRing α] (cos sin : α → α)
    (pi : α) (n : Nat) (width height : Int) (glyphs : Nat → Int → Int → RGBA)
    (draws : Nat → GlyphDraw α) (img : Canvas) (x y : Int)
    (hb : inBorderBand width height x y) (k : Nat) :
    (glyphLoop cos sin pi n width height glyphs draws img k).1.pix x y = img.pix x y := by
  induction k with
  | zero => rfl
  | succ k ih =>
    simp only [glyphLoop, glyphIter]
    rw [drawGlyph_pix_band cos sin width height _ _ _ _ _ x y hb]
    exact ih

/-! ### Filling loops -/

theorem Set_width (img : Canvas) (x y : Int) (c : RGBA) : (img.Set x y c).width = img.width := by
  unfold Canvas.Set
  split <;> rfl

theorem Set_height (img : Canvas) (x y : Int) (c : RGBA) :
    (img.Set x y c).height = img.height := by
  unfold Canvas.Set
  split <;> rfl

theorem Set_pix_inBounds (img : Canvas) (x y : Int) (c : RGBA) (h : img.inBounds x y)
    (a b : Int) : (img.Set x y c).pix a b = if a = x ∧ b = y then c else img.pix a b := by
  unfold Canvas.Set
  rw [if_pos h]

/-- A loop over the rows `0..m-1` of column `x` that sets each pixel `(x, j)` to `g j`. -/
theorem forRange_fill_column (body : Int → Canvas → Canvas) (x : Int) (g : Int → RGBA)
    (hbody : ∀ j d, body j d = d.Set x j (g j)) (d : Canvas)
    (hx : 0 ≤ x ∧ x < d.width) (m : Nat) (hm : (m : Int) ≤ d.height) :
    (forRange m body d).width = d.width ∧ (forRange m body d).height = d.height ∧
      ∀ a b, (forRange m body d).pix a b
        = if a = x ∧ 0 ≤ b ∧ b < (m : Int) then g b else d.pix a b := by
  induction m with
  | zero =>
    rw [forRange_zero]
    refine ⟨rfl, rfl, fun a b => ?_⟩
    rw [if_neg]
    push_cast
    omega
  | succ k ih =>
    obtain ⟨hw, hh, hp⟩ := ih (by push_cast at hm; omega)
    rw [forRange_succ, hbody]
    refine ⟨by rw [Set_width, hw], by rw [Set_height, hh], fun a b => ?_⟩
    have hin : (forRange k body d).inBounds x k := by
      unfold Canvas.inBounds
      rw [hw, hh]
      push_cast at hm
      omega
    rw [Set_pix_inBounds _ _ _ _ hin, hp]
    push_cast
    by_cases h1 : a = x ∧ b = (k : Int)
    · rw [if_pos h1, if_pos (by omega), h1.2]
    · rw [if_neg h1]
      by_cases h2 : a = x ∧ 0 ≤ b ∧ b < (k : Int)
      · rw [if_pos h2, if_pos (by omega)]
      · rw [if_neg h2, if_neg (by omega)]

/-- A loop over the columns `0..m-1` of row `y` that sets each pixel `(i, y)` to `g i`. -/
theorem forRange_fill_row (body : Int → Canvas → Canvas) (y : Int) (g : Int → RGBA)
    (hbody : ∀ i d, body i d = d.Set i y (g i)) (d : Canvas)
    (hy : 0 ≤ y ∧ y < d.height) (m : Nat) (hm : (m : Int) ≤ d.width) :
    (forRange m body d).width = d.width ∧ (forRange m body d).height = d.height ∧
      ∀ a b, (forRange m body d).pix a b
        = if b = y ∧ 0 ≤ a ∧ a < (m : Int) then g a else d.pix a b := by
  induction m with
  | zero =>
    rw [forRange_zero]
    refine ⟨rfl, rfl, fun a b => ?_⟩
    rw [if_neg]
    push_cast
    omega
  | succ k ih =>
    obtain ⟨hw, hh, hp⟩ := ih (by push_cast at hm; omega)
    rw [forRange_succ, hbody]
    refine ⟨by rw [Set_width, hw], by rw [Set_height, hh], fun a b => ?_⟩
    have hin : (forRange k body d).inBounds k y := by
      unfold Canvas.inBounds
      rw [hw, hh]
      push_cast at hm
      omega
    rw [Set_pix_inBounds _ _ _ _ hin, hp]
    push_cast
    by_cases h1 : a = (k : Int) ∧ b = y
    · rw [if_pos h1, if_pos (by omega), h1.1]
    · rw [if_neg h1]
      by_cases h2 : b = y ∧ 0 ≤ a ∧ a < (k : Int)
      · rw [if_pos h2, if_pos (by omega)]
      · rw [if_neg h2, if_neg (by omega)]

/-- Column-major filling: `for x { for y { d.Set(x, y, g x y) } }`. -/
theorem forRange_fill_colMajor (body : Int → Int → Canvas → Canvas) (g : Int → Int → RGBA)
    (hbody : ∀ i j d, body i j d = d.Set i j (g i j)) (d : Canvas) (m : Nat)
    (hm : (m : Int) ≤ d.height) (n : Nat) (hn : (n : Int) ≤ d.width) :
    (forRange n (fun x d => forRange m (body x) d) d).width = d.width ∧
    (forRange n (fun x d => forRange m (body x) d) d).height = d.height ∧
      ∀ a b, (forRange n (fun x d => forRange m (body x) d) d).pix a b
        = if 0 ≤ a ∧ a < (n : Int) ∧ 0 ≤ b ∧ b < (m : Int) then g a b else d.pix a b := by
  induction n with
  | zero =>
    rw [forRange_zero]
    refine ⟨rfl, rfl, fun a b => ?_⟩
    rw [if_neg]
    push_cast
    omega
  | succ k ih =>
    obtain ⟨hw, hh, hp⟩ := ih (by push_cast at hn; omega)
    rw [forRange_succ]
    obtain ⟨hw2, hh2, hp2⟩ := forRange_fill_column (body k) k (g k) (hbody k)
      (forRange k (fun x d => forRange m (body x) d) d)
      (by rw [hw]; push_cast at hn; omega) m (by rw [hh]; exact hm)
    refine ⟨by rw [hw2, hw], by rw [hh2, hh], fun a b => ?_⟩
    rw [hp2, hp]
    push_cast
    by_cases h1 : a = (k : Int) ∧ 0 ≤ b ∧ b < (m : Int)
    · rw [if_pos h1, if_pos (by omega), h1.1]
    · rw [if_neg h1]
      by_cases h2 : 0 ≤ a ∧ a < (k : Int) ∧ 0 ≤ b ∧ b < (m : Int)
      · rw [if_pos h2, if_pos (by omega)]
      · rw [if_neg h2, if_neg (by omega)]

/-- Row-major filling: `for y { for x { d.Set(x, y, g x y) } }`. -/
theorem forRange_fill_rowMajor (body : Int → Int → Canvas → Canvas) (g : Int → Int → RGBA)
    (hbody : ∀ j i d, body j i d = d.Set i j (g i j)) (d : Canvas) (m : Nat)
    (hm : (m : Int) ≤ d.width) (n : Nat) (hn : (n : Int) ≤ d.height) :
    (forRange n (fun y d => forRange m (body y) d) d).width = d.width ∧
    (forRange n (fun y d => forRange m (body y) d) d).height = d.height ∧
      ∀ a b, (forRange n (fun y d => forRange m (body y) d) d).pix a b
        = if 0 ≤ a ∧ a < (m : Int) ∧ 0 ≤ b ∧ b < (n : Int) then g a b else d.pix a b := by
  induction n with
  | zero =>
    rw [forRange_zero]
    refine ⟨rfl, rfl, fun a b => ?_⟩
    rw [if_neg]
    push_cast
    omega
  | succ k ih =>
    obtain ⟨hw, hh, hp⟩ := ih (by push_cast at hn; omega)
    rw [forRange_succ]
    obtain ⟨hw2, hh2, hp2⟩ := forRange_fill_row (body k) k (fun i => g i k) (hbody k)
      (forRange k (fun y d => forRange m (body y) d) d)
      (by rw [hh]; push_cast at hn; omega) m (by rw [hw]; exact hm)
    refine ⟨by rw [hw2, hw], by rw [hh2, hh], fun a b => ?_⟩
    rw [hp2, hp]
    push_cast
    by_cases h1 : b = (k : Int) ∧ 0 ≤ a ∧ a < (m : Int)
    · rw [if_pos h1, if_pos (by omega), h1.1]
    · rw [if_neg h1]
      by_cases h2 : 0 ≤ a ∧ a < (m : Int) ∧ 0 ≤ b ∧ b < (k : Int)
      · rw [if_pos h2, if_pos (by omega)]
      · rw [if_neg h2, if_neg (by omega)]

/-! ### Wave passes -/

theorem verticalPass_spec (v : Int → Int) (width height : Int) (bg : RGBA) (img : Canvas)
    (hw : 0 ≤ width) (hh : 0 ≤ height) :
    (verticalPass v width height bg img).width = width ∧
    (verticalPass v width height bg img).height = height ∧
      ∀ a b, 0 ≤ a → a < width → 0 ≤ b → b < height →
        (verticalPass v width height bg img).pix a b
          = if 0 ≤ b + v a ∧ b + v a < height then img.At a (b + v a) else bg := by
  have key := forRange_fill_colMajor
    (fun x y distorted =>
      if y + v x ≥ 0 ∧ y + v x < height then distorted.Set x y (img.At x (y + v x))
      else distorted.Set x y bg)
    (fun x y => if 0 ≤ y + v x ∧ y + v x < height then img.At x (y + v x) else bg)
    (by intro i j d; simp only [ge_iff_le]; split <;> rfl)
    (newRGBA width height) height.toNat (by simp [newRGBA, hh])
    width.toNat (by simp [newRGBA, hw])
  obtain ⟨k1, k2, k3⟩ := key
  refine ⟨k1, k2, fun a b ha ha' hb hb' => ?_⟩
  have := k3 a b
  rw [if_pos (by rw [Int.toNat_of_nonneg hw, Int.toNat_of_nonneg hh]; omega)] at this
  exact this

theorem horizontalPass_spec (h : Int → Int) (width height : Int) (bg : RGBA)
    (distorted : Canvas) (hw : 0 ≤ width) (hh : 0 ≤ height) :
    (horizontalPass h width height bg distorted).width = width ∧
    (horizontalPass h width height bg distorted).height = height ∧
      ∀ a b, 0 ≤ a → a < width → 0 ≤ b → b < height →
        (horizontalPass h width height bg distorted).pix a b
          = if 0 ≤ a + h b ∧ a + h b < width then distorted.At (a + h b) b else bg := by
  have key := forRange_fill_rowMajor
    (fun y x finalImage =>
      if x + h y ≥ 0 ∧ x + h y < width then finalImage.Set x y (distorted.At (x + h y) y)
      else finalImage.Set x y bg)
    (fun x y => if 0 ≤ x + h y ∧ x + h y < width then distorted.At (x + h y) y else bg)
    (by intro i j d; simp only [ge_iff_le]; split <;> rfl)
    (newRGBA width height) width.toNat (by simp [newRGBA, hw])
    height.toNat (by simp [newRGBA, hh])
  obtain ⟨k1, k2, k3⟩ := key
  refine ⟨k1, k2, fun a b ha ha' hb hb' => ?_⟩
  have := k3 a b
  rw [if_pos (by rw [Int.toNat_of_nonneg hw, Int.toNat_of_nonneg hh]; omega)] at this
  exact this

theorem At_of_inBounds (img : Canvas) (x y : Int) (h : 0 ≤ x ∧ x < img.width ∧ 0 ≤ y ∧ y < img.height) :
    img.At x y = img.pix x y := by
  have h2 : img.inBounds x y := h
  unfold Canvas.At
  rw [if_pos h2]

/-! ### Truncation and the sine -/

theorem goInt_isTruncationOf {α : Type} [LinearOrderedField α] [FloorRing α] (v : α) :
    IsTruncationOf (goInt v) v := by
  unfold IsTruncationOf goInt
  split
  · rename_i h
    have h1 : (0 : α) ≤ (Int.floor v : α) := by exact_mod_cast Int.floor_nonneg.mpr h
    have h2 := Int.floor_le v
    have h3 := Int.lt_floor_add_one v
    rw [abs_of_nonneg h1, abs_of_nonneg h]
    exact ⟨h2, h3, mul_nonneg h1 h⟩
  · rename_i h
    have hv : v ≤ 0 := le_of_lt (not_le.mp h)
    have h1 : (Int.ceil v : α) ≤ 0 := by exact_mod_cast Int.ceil_le.mpr (by simpa using hv)
    have h2 := Int.le_ceil v
    have h3 := Int.ceil_lt_add_one v
    rw [abs_of_nonpos h1, abs_of_nonpos hv]
    refine ⟨by linarith, by linarith, mul_nonneg_of_nonpos_of_nonpos h1 hv⟩

theorem goInt_eq_of_nonneg {α : Type} [LinearOrderedField α] [FloorRing α] (v : α) (m : Int)
    (h0 : 0 ≤ v) (h1 : (m : α) ≤ v) (h2 : v < (m : α) + 1) : goInt v = m := by
  unfold goInt
  rw [if_pos h0]
  exact Int.floor_eq_iff.mpr ⟨h1, h2⟩

theorem goInt_abs_le {α : Type} [LinearOrderedField α] [FloorRing α] (v : α) (k : Nat)
    (h : |v| ≤ (k : α)) : |goInt v| ≤ (k : Int) := by
  have ht := (goInt_isTruncationOf v).1
  have : |((goInt v : Int) : α)| ≤ (k : α) := le_trans ht h
  have h2 : ((|goInt v| : Int) : α) ≤ ((k : Int) : α) := by
    push_cast
    exact this
  exact_mod_cast h2

theorem sin_three_halves_bounds : (3 / 4 : ℝ) ≤ Real.sin 1.5 ∧ Real.sin 1.5 < 1 := by
  have hpi1 := Real.pi_gt_d2
  have hpi2 := Real.pi_lt_d2
  have hrw : Real.sin 1.5 = Real.cos (Real.pi / 2 - 1.5) := by
    rw [← Real.sin_pi_div_two_sub]
    congr 1
    ring
  rw [hrw]
  constructor
  · have h := Real.one_sub_sq_div_two_le_cos (x := Real.pi / 2 - 1.5)
    have hy1 : 0 ≤ Real.pi / 2 - 1.5 := by norm_num at hpi1 ⊢; linarith
    have hy2 : Real.pi / 2 - 1.5 ≤ 1 / 10 := by norm_num at hpi2 ⊢; linarith
    have hsq : (Real.pi / 2 - 1.5) ^ 2 ≤ 1 / 100 := by nlinarith
    linarith
  · have h := Real.cos_lt_cos_of_nonneg_of_le_pi_div_two (x := 0) (y := Real.pi / 2 - 1.5)
      le_rfl (by norm_num) (by norm_num at hpi1 ⊢; linarith)
    rwa [Real.cos_zero] at h

theorem sin_half_bounds : (1 / 4 : ℝ) ≤ Real.sin 0.5 ∧ Real.sin 0.5 < 1 / 2 := by
  constructor
  · have h := Real.sin_gt_sub_cube (x := 0.5) (by norm_num) (by norm_num)
    norm_num at h ⊢
    linarith
  · have h := Real.sin_lt (x := 0.5) (by norm_num)
    norm_num at h ⊢
    linarith

theorem waveOffsetV_zero : waveOffsetV Real.sin 0 = 1 := by
  obtain ⟨h1, h2⟩ := sin_three_halves_bounds
  unfold waveOffsetV
  simp only [Int.cast_zero, zero_mul, Real.sin_zero, mul_zero, zero_add]
  have ha : goInt (0 : ℝ) = 0 := goInt_eq_of_nonneg 0 0 le_rfl (by simp) (by simp)
  have hb : goInt (2 * Real.sin 1.5) = 1 :=
    goInt_eq_of_nonneg _ 1 (by linarith) (by push_cast; linarith) (by push_cast; linarith)
  rw [ha, hb]
  rfl

theorem specWaveOffsetV_zero : specWaveOffsetV Real.sin 0 = 2 := by
  obtain ⟨h1, h2⟩ := sin_three_halves_bounds
  unfold specWaveOffsetV
  simp only [Int.cast_zero, mul_zero, Real.sin_zero, zero_add]
  rw [round_eq, Int.floor_eq_iff]
  constructor
  · push_cast; linarith
  · push_cast; linarith

theorem waveOffsetH_five : waveOffsetH Real.sin 5 = 0 := by
  obtain ⟨h1, h2⟩ := sin_half_bounds
  unfold waveOffsetH
  have e : ((5 : Int) : ℝ) * 0.1 = 0.5 := by norm_num
  rw [e]
  exact goInt_eq_of_nonneg _ 0 (by linarith) (by push_cast; linarith) (by push_cast; linarith)

theorem specWaveOffsetH_five : specWaveOffsetH Real.sin 5 = 1 := by
  obtain ⟨h1, h2⟩ := sin_half_bounds
  unfold specWaveOffsetH
  have e : (0.1 : ℝ) * ((5 : Int) : ℝ) = 0.5 := by norm_num
  rw [e, round_eq, Int.floor_eq_iff]
  constructor
  · push_cast; linarith
  · push_cast; linarith

theorem eq_goInt_of_isTruncationOf {α : Type} [LinearOrderedField α] [FloorRing α] (m : Int)
    (v : α) (h : IsTruncationOf m v) : m = goInt v := by
  obtain ⟨h1, h2, h3⟩ := h
  unfold goInt
  split
  · rename_i hv
    have hm : (0 : α) ≤ (m : α) := by
      by_contra hneg
      have hlt : (m : α) < 0 := not_le.mp hneg
      rcases eq_or_lt_of_le hv with h0 | hpos
      · rw [← h0, abs_zero] at h1
        have := abs_nonneg (m : α)
        have hz : |(m : α)| = 0 := le_antisymm h1 this
        rw [abs_eq_zero] at hz
        rw [hz] at hlt
        exact lt_irrefl _ hlt
      · have := mul_neg_of_neg_of_pos hlt hpos
        exact absurd h3 (not_le.mpr this)
    rw [abs_of_nonneg hm, abs_of_nonneg hv] at h1 h2
    exact (Int.floor_eq_iff.mpr ⟨h1, h2⟩).symm
  · rename_i hv
    have hv : v < 0 := not_le.mp hv
    have hm : (m : α) ≤ 0 := by
      by_contra hpos
      have hpos : 0 < (m : α) := not_le.mp hpos
      have := mul_neg_of_pos_of_neg hpos hv
      exact absurd h3 (not_le.mpr this)
    rw [abs_of_nonpos hm, abs_of_neg hv] at h1 h2
    exact (Int.ceil_eq_iff.mpr ⟨by linarith, by linarith⟩).symm

theorem sqrt_3250_bounds : (57 : ℝ) < Real.sqrt 3250 ∧ Real.sqrt 3250 < 57.01 := by
  constructor
  · rw [Real.lt_sqrt (by norm_num)]
    norm_num
  · rw [Real.sqrt_lt' (by norm_num)]
    norm_num

theorem sin_twenty_degrees_bounds :
    (1 / 3 : ℝ) < Real.sin (20 * Real.pi / 180) ∧ Real.sin (20 * Real.pi / 180) < 0.35 := by
  have hpi1 := Real.pi_gt_d2
  have hpi2 := Real.pi_lt_d2
  have hx1 : (0.3488 : ℝ) < 20 * Real.pi / 180 := by norm_num at hpi1 ⊢; linarith
  have hx2 : 20 * Real.pi / 180 < (0.35 : ℝ) := by norm_num at hpi2 ⊢; linarith
  constructor
  · have h := Real.sin_gt_sub_cube (x := 20 * Real.pi / 180) (by linarith) (by linarith)
    have hc : (20 * Real.pi / 180) ^ 3 < (0.35 : ℝ) ^ 3 :=
      pow_lt_pow_left₀ hx2 (by linarith) (by norm_num)
    norm_num at hc hx1 h ⊢
    linarith
  · have h := Real.sin_lt (x := 20 * Real.pi / 180) (by linarith)
    linarith

/-- The constant `maxRotationOffset = 19` is the value of the source expression over exact
real arithmetic. -/
theorem maxRotationOffsetOf_real :
    maxRotationOffsetOf Real.sqrt Real.sin Real.pi = maxRotationOffset := by
  obtain ⟨s1, s2⟩ := sqrt_3250_bounds
  obtain ⟨t1, t2⟩ := sin_twenty_degrees_bounds
  unfold maxRotationOffsetOf maxRotationOffset
  have e : (((charWidth * charWidth + charHeight * charHeight : Int) : ℝ)) = 3250 := by
    unfold charWidth charHeight
    norm_num
  simp only [e]
  apply goInt_eq_of_nonneg
  · exact mul_nonneg (by linarith) (by linarith)
  · push_cast
    nlinarith
  · push_cast
    nlinarith

/-! ### Rotation bounds -/

theorem goInt_ge_of_lt {α : Type} [LinearOrderedField α] [FloorRing α] (v : α) (m : Int)
    (hm : m ≤ 0) (h : (m : α) - 1 < v) : m ≤ goInt v := by
  unfold goInt
  split
  · rename_i hv
    exact le_trans hm (Int.floor_nonneg.mpr hv)
  · have h1 := Int.le_ceil v
    have h2 : ((m - 1 : Int) : α) < ((Int.ceil v : Int) : α) := by
      push_cast
      linarith
    have h3 : m - 1 < Int.ceil v := by exact_mod_cast h2
    omega

theorem glyphAngle_abs_le (u : ℝ) (h0 : 0 ≤ u) (h1 : u < 1) :
    |glyphAngle Real.pi u| ≤ 0.35 := by
  have hpi1 := Real.pi_gt_d2
  have hpi2 := Real.pi_lt_d2
  unfold glyphAngle
  rw [abs_le]
  constructor
  · have : -(20 : ℝ) * Real.pi ≤ (u * 40 - 20) * Real.pi := by
      apply mul_le_mul_of_nonneg_right _ (by linarith)
      linarith
    norm_num at hpi2 ⊢
    linarith
  · have : (u * 40 - 20) * Real.pi ≤ (20 : ℝ) * Real.pi := by
      apply mul_le_mul_of_nonneg_right _ (by linarith)
      linarith
    norm_num at hpi2 ⊢
    linarith

theorem goDiv_charWidth : goDiv charWidth 2 = 17 := by decide

/-- For an angle of at most `0.35` radians in absolute value, every cell pixel lands at most
7 columns to the left of the glyph's base position. -/
theorem glyphDest_fst_ge (θ : ℝ) (hθ : |θ| ≤ 0.35) (posX posY x y : Int)
    (hx : 0 ≤ x ∧ x < 35) (hy : 0 ≤ y ∧ y < 45) :
    posX - 7 ≤ (glyphDest Real.cos Real.sin θ posX posY x y).1 := by
  unfold glyphDest
  simp only [goDiv_charWidth, goDiv_charHeight]
  have ha : |((x - 17 : Int) : ℝ)| ≤ 17 := by
    rw [abs_le]
    constructor
    · have : ((-17 : Int) : ℝ) ≤ ((x - 17 : Int) : ℝ) := by exact_mod_cast (by omega : (-17 : Int) ≤ x - 17)
      simpa using this
    · have : ((x - 17 : Int) : ℝ) ≤ ((17 : Int) : ℝ) := by exact_mod_cast (by omega : x - 17 ≤ (17 : Int))
      simpa using this
  have hb : |((y - 22 : Int) : ℝ)| ≤ 22 := by
    rw [abs_le]
    constructor
    · have : ((-22 : Int) : ℝ) ≤ ((y - 22 : Int) : ℝ) := by exact_mod_cast (by omega : (-22 : Int) ≤ y - 22)
      simpa using this
    · have : ((y - 22 : Int) : ℝ) ≤ ((22 : Int) : ℝ) := by exact_mod_cast (by omega : y - 22 ≤ (22 : Int))
      simpa using this
  have hc : |Real.cos θ| ≤ 1 := Real.abs_cos_le_one θ
  have hs : |Real.sin θ| ≤ 0.35 := le_trans Real.abs_sin_le_abs hθ
  have h1 : |((x - 17 : Int) : ℝ) * Real.cos θ| ≤ 17 := by
    rw [abs_mul]
    calc |((x - 17 : Int) : ℝ)| * |Real.cos θ| ≤ 17 * 1 :=
          mul_le_mul ha hc (abs_nonneg _) (by norm_num)
      _ = 17 := by norm_num
  have h2 : |((y - 22 : Int) : ℝ) * Real.sin θ| ≤ 7.7 := by
    rw [abs_mul]
    calc |((y - 22 : Int) : ℝ)| * |Real.sin θ| ≤ 22 * 0.35 :=
          mul_le_mul hb hs (abs_nonneg _) (by norm_num)
      _ = 7.7 := by norm_num
  have h3 := neg_abs_le (((x - 17 : Int) : ℝ) * Real.cos θ)
  have h4 := le_abs_self (((y - 22 : Int) : ℝ) * Real.sin θ)
  have h5 : (-24 : Int) ≤ goInt (((x - 17 : Int) : ℝ) * Real.cos θ
      - ((y - 22 : Int) : ℝ) * Real.sin θ) := by
    apply goInt_ge_of_lt _ _ (by decide)
    push_cast at h1 h2 h3 h4 ⊢
    norm_num at h1 h2 ⊢
    linarith
  omega

theorem posXAt_minimal_image (spacingRaw : Nat → Nat) : posXAt 1 40 25 spacingRaw 0 = 48 := by
  have h : (layout 1 40 25).startX + maxRotationOffset + ((0 : Nat) : Int)
      * (layout 1 40 25).baseCharSpacing = 48 := by decide
  exact h

theorem drawGlyph_minimal_image (charImg : Int → Int → RGBA) (θ : ℝ) (hθ : |θ| ≤ 0.35)
    (posY : Int) (img : Canvas) :
    drawGlyph Real.cos Real.sin 40 25 charImg θ 48 posY img = img := by
  unfold drawGlyph
  refine forRange_invariant (fun d : Canvas => d = img) _ _ _ rfl ?_
  intro i t hi ht
  refine forRange_invariant (fun d : Canvas => d = img) _ _ _ ht ?_
  intro j t2 hj ht2
  have hi2 : (i : Int) < 35 := by
    have : charWidth.toNat = 35 := by decide
    omega
  have hj2 : (j : Int) < 45 := by
    have : charHeight.toNat = 45 := by decide
    omega
  have hd := glyphDest_fst_ge θ hθ 48 posY i j ⟨by omega, hi2⟩ ⟨by omega, hj2⟩
  show applyWrite t2 _ = img
  rw [glyphPixelWrite_eq_none 40 25 _ _ (by omega)]
  exact ht2

/-! ### Colour of a compositor write -/

theorem uint8_rgba16_shift (v : Nat) (h : v < 256) : uint8 ((v ||| (v <<< 8)) >>> 8) = v := by
  have e : v ||| (v <<< 8) = 2 ^ 8 * v + v := by
    rw [Nat.or_comm, Nat.shiftLeft_eq, Nat.mul_comm]
    exact (Nat.mul_add_lt_is_or (by simpa using h) v).symm
  unfold uint8
  rw [e, Nat.shiftRight_eq_div_pow]
  have hd : (2 ^ 8 * v + v) / 2 ^ 8 = v := by
    rw [Nat.mul_add_div (by norm_num), Nat.div_eq_of_lt (by simpa using h)]
    rfl
  rw [hd]
  exact Nat.mod_eq_of_lt h

theorem glyphPixelWrite_colour (width height : Int) (src : RGBA) (dest : Int × Int)
    (w : Int × Int × RGBA) (h : glyphPixelWrite width height src dest = some w)
    (hr : src.r < 256) (hg : src.g < 256) (hb : src.b < 256) (ha : src.a < 256) :
    w.2.2 = src := by
  unfold glyphPixelWrite RGBA.rgba at h
  simp only [rgba16_alpha_pos] at h
  split_ifs at h with h1 h2 h3
  simp only [Option.some.injEq] at h
  subst h
  simp only [uint8_rgba16_shift _ hr, uint8_rgba16_shift _ hg, uint8_rgba16_shift _ hb,
    uint8_rgba16_shift _ ha]

/-! ### The line walk -/

theorem abs_eq_abs (x : Int) : abs x = |x| := by
  unfold abs
  split
  · rw [abs_of_neg (by assumption)]
  · rw [abs_of_nonneg (by omega)]

theorem lineParams_facts (x1 y1 x2 y2 : Int) :
    0 ≤ (lineParams x1 y1 x2 y2).dx ∧ 0 ≤ (lineParams x1 y1 x2 y2).dy ∧
    ((lineParams x1 y1 x2 y2).sx = 1 ∨ (lineParams x1 y1 x2 y2).sx = -1) ∧
    ((lineParams x1 y1 x2 y2).sy = 1 ∨ (lineParams x1 y1 x2 y2).sy = -1) ∧
    (lineParams x1 y1 x2 y2).sx * (lineParams x1 y1 x2 y2).dx = x2 - x1 ∧
    (lineParams x1 y1 x2 y2).sy * (lineParams x1 y1 x2 y2).dy = y2 - y1 ∧
    (lineParams x1 y1 x2 y2).x2 = x2 ∧ (lineParams x1 y1 x2 y2).y2 = y2 := by
  simp only [lineParams, abs]
  refine ⟨?_, ?_, ?_, ?_, ?_, ?_, trivial, trivial⟩
  · split <;> omega
  · split <;> omega
  · split <;> simp
  · split <;> simp
  · split_ifs <;> omega
  · split_ifs <;> omega

theorem lineIter_zero (p : LineParams) (s : LineState) : lineIter p 0 s = s := rfl

theorem lineIter_succ (p : LineParams) (k : Nat) (s : LineState) :
    lineIter p (k + 1) s = lineStep p (lineIter p k s) := by
  unfold lineIter
  exact Function.iterate_succ_apply' _ _ _

theorem lineIter_succ_start (p : LineParams) (k : Nat) (s : LineState) :
    lineIter p (k + 1) s = lineIter p k (lineStep p s) := by
  unfold lineIter
  exact Function.iterate_succ_apply _ _ _

theorem LineInv_start (x1 y1 x2 y2 : Int) :
    LineInv x1 y1 (lineParams x1 y1 x2 y2) 0 (lineStart x1 y1 x2 y2) := by
  obtain ⟨hdx, hdy, -, -, -, -, -, -⟩ := lineParams_facts x1 y1 x2 y2
  refine ⟨0, 0, 0, le_rfl, le_rfl, by simp, by simp, by simp [lineStart], by simp [lineStart],
    by simp, by simp [lineStart], ?_, ?_, ?_⟩
  · intro h
    refine ⟨by simp, by omega, by omega⟩
  · intro h
    refine ⟨by simp, by omega, by omega⟩
  · intro _
    exact ⟨by simp, by simp, rfl⟩

theorem LineInv_step (x0 y0 : Int) (p : LineParams) (hdx : 0 ≤ p.dx) (hdy : 0 ≤ p.dy)
    (hpos : 0 < p.dx ∨ 0 < p.dy) (k : Nat) (s : LineState) (h : LineInv x0 y0 p k s) :
    LineInv x0 y0 p (k + 1) (lineStep p s) := by
  obtain ⟨kx, ky, d, hkx, hky, hkxk, hkyk, hx, hy, hd, herr, hA, hB, hC⟩ := h
  have e1 : p.sx * (kx + 1) = p.sx * kx + p.sx := by ring
  have e2 : p.sy * (ky + 1) = p.sy * ky + p.sy := by ring
  have e3 : p.dx * (ky + 1) = p.dx * ky + p.dx := by ring
  have e4 : p.dy * (kx + 1) = p.dy * kx + p.dy := by ring
  unfold lineStep
  by_cases c1 : 2 * s.err > -p.dy <;> by_cases c2 : 2 * s.err < p.dx
  · simp only [c1, c2, if_true]
    refine ⟨kx + 1, ky + 1, d - p.dy + p.dx, by omega, by omega, by push_cast; omega,
      by push_cast; omega, ?_, ?_, ?_, ?_, ?_, ?_, ?_⟩
    · show s.x1 + p.sx = _
      omega
    · show s.y1 + p.sy = _
      omega
    · omega
    · show s.err - p.dy + p.dx = _
      omega
    · intro h
      have := hA h
      push_cast
      omega
    · intro h
      have := hB h
      push_cast
      omega
    · intro h
      have := hC h
      push_cast
      omega
  · simp only [c1, c2, if_true, if_false]
    refine ⟨kx + 1, ky, d - p.dy, by omega, by omega, by push_cast; omega,
      by push_cast; omega, ?_, ?_, ?_, ?_, ?_, ?_, ?_⟩
    · show s.x1 + p.sx = _
      omega
    · show s.y1 = _
      omega
    · omega
    · show s.err - p.dy = _
      omega
    · intro h
      have := hA h
      push_cast
      omega
    · intro h
      have := hB h
      push_cast
      omega
    · intro h
      have := hC h
      push_cast
      omega
  · simp only [c1, c2, if_true, if_false]
    refine ⟨kx, ky + 1, d + p.dx, by omega, by omega, by push_cast; omega,
      by push_cast; omega, ?_, ?_, ?_, ?_, ?_, ?_, ?_⟩
    · show s.x1 = _
      omega
    · show s.y1 + p.sy = _
      omega
    · omega
    · show s.err + p.dx = _
      omega
    · intro h
      have := hA h
      push_cast
      omega
    · intro h
      have := hB h
      push_cast
      omega
    · intro h
      have := hC h
      push_cast
      omega
  · exfalso
    rcases lt_trichotomy p.dx p.dy with h | h | h
    · have := hB h
      omega
    · have := hC h
      omega
    · have := hA h
      omega

theorem LineInv_iter (x1 y1 x2 y2 : Int) (k : Nat)
    (hpos : 0 < (lineParams x1 y1 x2 y2).dx ∨ 0 < (lineParams x1 y1 x2 y2).dy) :
    LineInv x1 y1 (lineParams x1 y1 x2 y2) k
      (lineIter (lineParams x1 y1 x2 y2) k (lineStart x1 y1 x2 y2)) := by
  obtain ⟨hdx, hdy, -, -, -, -, -, -⟩ := lineParams_facts x1 y1 x2 y2
  induction k with
  | zero => exact LineInv_start x1 y1 x2 y2
  | succ k ih =>
    rw [lineIter_succ]
    exact LineInv_step x1 y1 _ hdx hdy hpos k _ ih
theorem eq_zero_of_two_mul_small (a t : Int) (ha : 0 < a) (h1 : -a ≤ 2 * (a * t))
    (h2 : 2 * (a * t) ≤ a) : t = 0 := by
  by_contra hne
  rcases lt_or_gt_of_ne hne with h | h
  · have h3 : a * t ≤ a * (-1) := Int.mul_le_mul_of_nonneg_left (by omega) (le_of_lt ha)
    omega
  · have h3 : a * 1 ≤ a * t := Int.mul_le_mul_of_nonneg_left (by omega) (le_of_lt ha)
    omega

/-- After `k ≤ max dx dy` steps the walk has taken `kx ≤ dx` steps along x and `ky ≤ dy`
steps along y, one of them `k`; it stays within half the major extent of the ideal
segment and is at the target exactly when `k = max dx dy`. -/
theorem lineIter_counts (x1 y1 x2 y2 : Int) (k : Nat)
    (hk : (k : Int) ≤ max (lineParams x1 y1 x2 y2).dx (lineParams x1 y1 x2 y2).dy) :
    ∃ kx ky : Int,
      0 ≤ kx ∧ kx ≤ (lineParams x1 y1 x2 y2).dx ∧ 0 ≤ ky ∧ ky ≤ (lineParams x1 y1 x2 y2).dy ∧
      (lineIter (lineParams x1 y1 x2 y2) k (lineStart x1 y1 x2 y2)).x1
        = x1 + (lineParams x1 y1 x2 y2).sx * kx ∧
      (lineIter (lineParams x1 y1 x2 y2) k (lineStart x1 y1 x2 y2)).y1
        = y1 + (lineParams x1 y1 x2 y2).sy * ky ∧
      2 * |(lineParams x1 y1 x2 y2).dx * ky - (lineParams x1 y1 x2 y2).dy * kx|
        ≤ max (lineParams x1 y1 x2 y2).dx (lineParams x1 y1 x2 y2).dy ∧
      ((kx = (lineParams x1 y1 x2 y2).dx ∧ ky = (lineParams x1 y1 x2 y2).dy) ↔
        (k : Int) = max (lineParams x1 y1 x2 y2).dx (lineParams x1 y1 x2 y2).dy) ∧
      max kx ky = (k : Int) := by
  obtain ⟨hdx, hdy, -, -, -, -, -, -⟩ := lineParams_facts x1 y1 x2 y2
  generalize hp : lineParams x1 y1 x2 y2 = p at *
  by_cases hdeg : p.dx = 0 ∧ p.dy = 0
  · have hk0 : k = 0 := by
      rw [hdeg.1, hdeg.2] at hk
      simp at hk
      exact hk
    subst hk0
    refine ⟨0, 0, le_rfl, hdx, le_rfl, hdy, by simp [lineIter_zero, lineStart],
      by simp [lineIter_zero, lineStart], ?_, ?_, by simp⟩
    · simp [hdeg.1, hdeg.2]
    · simp [hdeg.1, hdeg.2]
  · have hpos : 0 < p.dx ∨ 0 < p.dy := by omega
    have hinv := LineInv_iter x1 y1 x2 y2 k (by rw [hp]; exact hpos)
    rw [hp] at hinv
    obtain ⟨kx, ky, d, hkx, hky, hkxk, hkyk, hx, hy, hd, herr, hA, hB, hC⟩ := hinv
    rcases lt_trichotomy p.dx p.dy with h | h | h
    · obtain ⟨b1, b2, b3⟩ := hB h
      rw [max_eq_right (le_of_lt h)] at hk ⊢
      have hkx' : kx ≤ p.dx := by
        by_contra hc
        have m1 : p.dy * (p.dx + 1) ≤ p.dy * kx :=
          Int.mul_le_mul_of_nonneg_left (by omega) hdy
        have m2 : p.dx * ky ≤ p.dx * p.dy := Int.mul_le_mul_of_nonneg_left (by omega) hdx
        have m3 : p.dy * (p.dx + 1) = p.dx * p.dy + p.dy := by ring
        omega
      refine ⟨kx, ky, hkx, hkx', hky, by omega, hx, hy, ?_, ?_, by omega⟩
      · rw [← hd]
        rcases abs_cases d with ⟨e, _⟩ | ⟨e, _⟩ <;> rw [e] <;> omega
      · constructor
        · rintro ⟨_, e⟩
          omega
        · intro e
          have hky' : ky = p.dy := by omega
          refine ⟨?_, hky'⟩
          have m3 : d = p.dy * (p.dx - kx) := by rw [hd, hky']; ring
          have := eq_zero_of_two_mul_small p.dy (p.dx - kx) (by omega) (by rw [← m3]; omega)
            (by rw [← m3]; omega)
          omega
    · obtain ⟨c1, c2, c3⟩ := hC h
      rw [max_eq_left (le_of_eq h.symm)] at hk ⊢
      refine ⟨kx, ky, hkx, by omega, hky, by omega, hx, hy, ?_, ?_, by omega⟩
      · rw [← hd, c3]
        simp
        exact hdx
      · constructor
        · rintro ⟨e, _⟩
          omega
        · intro e
          omega
    · obtain ⟨a1, a2, a3⟩ := hA h
      rw [max_eq_left (le_of_lt h)] at hk ⊢
      have hky' : ky ≤ p.dy := by
        by_contra hc
        have m1 : p.dx * (p.dy + 1) ≤ p.dx * ky :=
          Int.mul_le_mul_of_nonneg_left (by omega) hdx
        have m2 : p.dy * kx ≤ p.dy * p.dx := Int.mul_le_mul_of_nonneg_left (by omega) hdy
        have m3 : p.dx * (p.dy + 1) = p.dy * p.dx + p.dx := by ring
        omega
      refine ⟨kx, ky, hkx, by omega, hky, hky', hx, hy, ?_, ?_, by omega⟩
      · rw [← hd]
        rcases abs_cases d with ⟨e, _⟩ | ⟨e, _⟩ <;> rw [e] <;> omega
      · constructor
        · rintro ⟨e, _⟩
          omega
        · intro e
          have hkx' : kx = p.dx := by omega
          refine ⟨hkx', ?_⟩
          have m3 : d = p.dx * (ky - p.dy) := by rw [hd, hkx']; ring
          have := eq_zero_of_two_mul_small p.dx (ky - p.dy) (by omega) (by rw [← m3]; omega)
            (by rw [← m3]; omega)
          omega
theorem length_lineTrace (p : LineParams) (r : Nat) (s : LineState) :
    (lineTrace p r s).length = r + 1 := by
  induction r generalizing s with
  | zero => rfl
  | succ r ih => simp [lineTrace, ih]

theorem mem_lineTrace (p : LineParams) (r : Nat) (s : LineState) (q : Int × Int) :
    q ∈ lineTrace p r s ↔
      ∃ j : Nat, j ≤ r ∧ q = ((lineIter p j s).x1, (lineIter p j s).y1) := by
  induction r generalizing s with
  | zero =>
    simp only [lineTrace, List.mem_singleton]
    constructor
    · intro h
      exact ⟨0, le_rfl, h⟩
    · rintro ⟨j, hj, h⟩
      have : j = 0 := by omega
      subst this
      exact h
  | succ r ih =>
    simp only [lineTrace, List.mem_cons, ih]
    constructor
    · rintro (h | ⟨j, hj, h⟩)
      · exact ⟨0, by omega, h⟩
      · exact ⟨j + 1, by omega, by rw [lineIter_succ_start]; exact h⟩
    · rintro ⟨j, hj, h⟩
      cases j with
      | zero => exact Or.inl h
      | succ j => exact Or.inr ⟨j, by omega, by rw [lineIter_succ_start] at h; exact h⟩

/-- The loop run with `fuel` passes, when the target is reached after exactly `r` steps. -/
theorem lineLoop_eq_of_reach {σ : Type} (visit : Int → Int → σ → σ) (p : LineParams)
    (r : Nat) : ∀ (s : LineState) (acc : σ) (fuel : Nat),
    (∀ j : Nat, j < r → ¬ ((lineIter p j s).x1 = p.x2 ∧ (lineIter p j s).y1 = p.y2)) →
    ((lineIter p r s).x1 = p.x2 ∧ (lineIter p r s).y1 = p.y2) →
    lineLoop visit p fuel s acc
      = if r < fuel then some ((lineTrace p r s).foldl (fun a q => visit q.1 q.2 a) acc)
        else none := by
  induction r with
  | zero =>
    intro s acc fuel _ ht
    cases fuel with
    | zero => rfl
    | succ fuel =>
      rw [lineIter_zero] at ht
      simp only [lineLoop, ht, and_self, if_true, lineTrace, List.foldl_cons, List.foldl_nil,
        Nat.zero_lt_succ]
  | succ r ih =>
    intro s acc fuel hn ht
    cases fuel with
    | zero => rfl
    | succ fuel =>
      have h0 := hn 0 (Nat.zero_lt_succ r)
      rw [lineIter_zero] at h0
      have hrec := ih (lineStep p s) (visit s.x1 s.y1 acc) fuel
        (fun j hj => by
          have := hn (j + 1) (by omega)
          rwa [lineIter_succ_start] at this)
        (by rwa [lineIter_succ_start] at ht)
      simp only [lineLoop, h0, if_false, hrec, lineTrace, List.foldl_cons]
      by_cases hf : r < fuel
      · rw [if_pos hf, if_pos (by omega)]
      · rw [if_neg hf, if_neg (by omega)]

theorem foldl_append_singleton (l init : List (Int × Int)) :
    l.foldl (fun a q => a ++ [(q.1, q.2)]) init = init ++ l := by
  induction l generalizing init with
  | nil => simp
  | cons q l ih => simp [ih]

theorem lineIter_target_iff (x1 y1 x2 y2 : Int) (k : Nat)
    (hk : (k : Int) ≤ max (lineParams x1 y1 x2 y2).dx (lineParams x1 y1 x2 y2).dy) :
    ((lineIter (lineParams x1 y1 x2 y2) k (lineStart x1 y1 x2 y2)).x1
        = (lineParams x1 y1 x2 y2).x2 ∧
      (lineIter (lineParams x1 y1 x2 y2) k (lineStart x1 y1 x2 y2)).y1
        = (lineParams x1 y1 x2 y2).y2) ↔
    (k : Int) = max (lineParams x1 y1 x2 y2).dx (lineParams x1 y1 x2 y2).dy := by
  obtain ⟨kx, ky, h1, h2, h3, h4, hx, hy, -, hiff, -⟩ := lineIter_counts x1 y1 x2 y2 k hk
  obtain ⟨hdx, hdy, hsx, hsy, ex, ey, e2x, e2y⟩ := lineParams_facts x1 y1 x2 y2
  rw [← hiff, hx, hy, e2x, e2y]
  generalize lineParams x1 y1 x2 y2 = p at *
  rcases hsx with e | e <;> rcases hsy with f | f <;> rw [e] at ex ⊢ <;> rw [f] at ey ⊢ <;>
    constructor <;> rintro ⟨a, b⟩ <;> constructor <;> omega

/-- The number of steps of the walk: `max dx dy`. -/
theorem lineLoop_result {σ : Type} (visit : Int → Int → σ → σ) (x1 y1 x2 y2 : Int)
    (acc : σ) (fuel : Nat) :
    lineLoop visit (lineParams x1 y1 x2 y2) fuel (lineStart x1 y1 x2 y2) acc
      = if (max |x2 - x1| |y2 - y1|).toNat < fuel then
          some ((lineTrace (lineParams x1 y1 x2 y2) (max |x2 - x1| |y2 - y1|).toNat
            (lineStart x1 y1 x2 y2)).foldl (fun a q => visit q.1 q.2 a) acc)
        else none := by
  have hm : max |x2 - x1| |y2 - y1|
      = max (lineParams x1 y1 x2 y2).dx (lineParams x1 y1 x2 y2).dy := by
    simp [lineParams, abs_eq_abs]
  have hnn : 0 ≤ max |x2 - x1| |y2 - y1| := le_max_of_le_left (abs_nonneg _)
  apply lineLoop_eq_of_reach
  · intro j hj
    rw [lineIter_target_iff x1 y1 x2 y2 j (by rw [← hm]; omega)]
    rw [← hm]
    omega
  · rw [lineIter_target_iff x1 y1 x2 y2 _ (by rw [← hm]; omega)]
    rw [← hm]
    omega
theorem lineParams_max (x1 y1 x2 y2 : Int) :
    max (lineParams x1 y1 x2 y2).dx (lineParams x1 y1 x2 y2).dy
      = max |x2 - x1| |y2 - y1| := by
  simp [lineParams, abs_eq_abs]

theorem toNat_max_abs_cast (x1 y1 x2 y2 : Int) :
    (((max |x2 - x1| |y2 - y1|).toNat : Nat) : Int) = max |x2 - x1| |y2 - y1| :=
  Int.toNat_of_nonneg (le_max_of_le_left (abs_nonneg _))

/-- Every point of the walk lies in the bounding box of the two endpoints and within half
the major extent of the ideal segment. -/
theorem lineTrace_point (x1 y1 x2 y2 : Int) (q : Int × Int)
    (hq : q ∈ lineTrace (lineParams x1 y1 x2 y2) (max |x2 - x1| |y2 - y1|).toNat
      (lineStart x1 y1 x2 y2)) :
    min x1 x2 ≤ q.1 ∧ q.1 ≤ max x1 x2 ∧ min y1 y2 ≤ q.2 ∧ q.2 ≤ max y1 y2 ∧
      2 * |(x2 - x1) * (q.2 - y1) - (y2 - y1) * (q.1 - x1)| ≤ max |x2 - x1| |y2 - y1| := by
  obtain ⟨j, hj, rfl⟩ := (mem_lineTrace _ _ _ _).mp hq
  have hcast := toNat_max_abs_cast x1 y1 x2 y2
  have hjm : (j : Int) ≤ max (lineParams x1 y1 x2 y2).dx (lineParams x1 y1 x2 y2).dy := by
    rw [lineParams_max]
    omega
  obtain ⟨kx, ky, h1, h2, h3, h4, hx, hy, hcross, -, -⟩ := lineIter_counts x1 y1 x2 y2 j hjm
  obtain ⟨hdx, hdy, hsx, hsy, ex, ey, -, -⟩ := lineParams_facts x1 y1 x2 y2
  rw [lineParams_max] at hcross
  simp only
  rw [hx, hy]
  generalize lineParams x1 y1 x2 y2 = p at *
  have hc : (x2 - x1) * (y1 + p.sy * ky - y1) - (y2 - y1) * (x1 + p.sx * kx - x1)
      = p.sx * p.sy * (p.dx * ky - p.dy * kx) := by
    rw [← ex, ← ey]
    ring
  rw [hc]
  have hs : |p.sx * p.sy * (p.dx * ky - p.dy * kx)| = |p.dx * ky - p.dy * kx| := by
    rcases hsx with e | e <;> rcases hsy with f | f <;> rw [e, f] <;> simp <;>
      exact abs_sub_comm _ _
  rw [hs]
  refine ⟨?_, ?_, ?_, ?_, hcross⟩
  · rcases hsx with e | e <;> rw [e] at ex ⊢ <;> omega
  · rcases hsx with e | e <;> rw [e] at ex ⊢ <;> omega
  · rcases hsy with f | f <;> rw [f] at ey ⊢ <;> omega
  · rcases hsy with f | f <;> rw [f] at ey ⊢ <;> omega

theorem lineTrace_endpoints (x1 y1 x2 y2 : Int) :
    (x1, y1) ∈ lineTrace (lineParams x1 y1 x2 y2) (max |x2 - x1| |y2 - y1|).toNat
      (lineStart x1 y1 x2 y2) ∧
    (x2, y2) ∈ lineTrace (lineParams x1 y1 x2 y2) (max |x2 - x1| |y2 - y1|).toNat
      (lineStart x1 y1 x2 y2) := by
  have hcast := toNat_max_abs_cast x1 y1 x2 y2
  constructor
  · exact (mem_lineTrace _ _ _ _).mpr ⟨0, Nat.zero_le _, rfl⟩
  · refine (mem_lineTrace _ _ _ _).mpr ⟨_, le_rfl, ?_⟩
    have h := (lineIter_target_iff x1 y1 x2 y2 (max |x2 - x1| |y2 - y1|).toNat
      (by rw [lineParams_max]; omega)).mpr (by rw [lineParams_max]; omega)
    obtain ⟨-, -, -, -, -, -, e2x, e2y⟩ := lineParams_facts x1 y1 x2 y2
    rw [e2x, e2y] at h
    rw [h.1, h.2]

/-- The walk along a row visits every column between the two ends. -/
theorem lineTrace_horizontal_mem (a b y : Int) (q : Int × Int) :
    q ∈ lineTrace (lineParams a y b y) (max |b - a| |y - y|).toNat (lineStart a y b y) ↔
      (q.2 = y ∧ min a b ≤ q.1 ∧ q.1 ≤ max a b) := by
  constructor
  · intro hq
    obtain ⟨h1, h2, h3, h4, -⟩ := lineTrace_point a y b y q hq
    simp only [min_self, max_self] at h3 h4
    exact ⟨by omega, h1, h2⟩
  · rintro ⟨hy, hlo, hhi⟩
    have hcast := toNat_max_abs_cast a y b y
    obtain ⟨hdx, hdy, hsx, hsy, ex, ey, -, -⟩ := lineParams_facts a y b y
    have hmax := lineParams_max a y b y
    have hdy0 : (lineParams a y b y).dy = 0 := by simp [lineParams, abs]
    -- the number of steps needed to reach column `q.1`
    have hsteps : ((|q.1 - a|).toNat : Int) = |q.1 - a| := Int.toNat_of_nonneg (abs_nonneg _)
    have hle : |q.1 - a| ≤ |b - a| := by
      rcases abs_cases (q.1 - a) with ⟨e, _⟩ | ⟨e, _⟩ <;>
        rcases abs_cases (b - a) with ⟨f, _⟩ | ⟨f, _⟩ <;> rw [e, f] <;> omega
    have hmm : max |b - a| |y - y| = |b - a| := by simp
    refine (mem_lineTrace _ _ _ _).mpr ⟨(|q.1 - a|).toNat, ?_, ?_⟩
    · rw [hmm]
      omega
    · obtain ⟨kx, ky, k1, k2, k3, k4, hx, hy', -, -, hk⟩ := lineIter_counts a y b y
        (|q.1 - a|).toNat (by rw [hmax, hmm]; omega)
      rw [hx, hy']
      have hky : ky = 0 := by omega
      have hkx : kx = |q.1 - a| := by
        rw [hky] at hk
        rw [max_eq_left k1] at hk
        omega
      rw [hky, hkx]
      generalize lineParams a y b y = p at *
      have hdxe : p.dx = |b - a| := by
        rw [hdy0] at hmax
        rw [← hmm, ← hmax]
        exact (max_eq_left hdx).symm
      ext
      · simp only
        rcases hsx with e | e <;> rw [e] at ex ⊢ <;>
          rcases abs_cases (q.1 - a) with ⟨f, _⟩ | ⟨f, _⟩ <;> rw [f] <;>
          rcases abs_cases (b - a) with ⟨g, _⟩ | ⟨g, _⟩ <;> rw [hdxe, g] at ex <;> omega
      · simp only [mul_zero, add_zero]
        exact hy

theorem foldl_linePlot (width height : Int) (c : RGBA) (l : List (Int × Int)) :
    ∀ img : Canvas, img.width = width → img.height = height →
      (l.foldl (fun a q => linePlot width height c q.1 q.2 a) img).width = width ∧
      (l.foldl (fun a q => linePlot width height c q.1 q.2 a) img).height = height ∧
      ∀ x y, (l.foldl (fun a q => linePlot width height c q.1 q.2 a) img).pix x y
        = if (x, y) ∈ l ∧ 0 ≤ x ∧ x < width ∧ 0 ≤ y ∧ y < height then c
          else img.pix x y := by
  induction l with
  | nil =>
    intro img hw hh
    exact ⟨hw, hh, fun x y => by simp⟩
  | cons q l ih =>
    intro img hw hh
    simp only [List.foldl_cons]
    have hdim : (linePlot width height c q.1 q.2 img).width = width ∧
        (linePlot width height c q.1 q.2 img).height = height := by
      unfold linePlot
      split
      · exact ⟨by rw [Set_width, hw], by rw [Set_height, hh]⟩
      · exact ⟨hw, hh⟩
    obtain ⟨r1, r2, r3⟩ := ih (linePlot width height c q.1 q.2 img) hdim.1 hdim.2
    refine ⟨r1, r2, fun x y => ?_⟩
    rw [r3]
    by_cases hin : (x, y) ∈ l ∧ 0 ≤ x ∧ x < width ∧ 0 ≤ y ∧ y < height
    · rw [if_pos hin, if_pos ⟨List.mem_cons_of_mem _ hin.1, hin.2⟩]
    · rw [if_neg hin]
      unfold linePlot
      by_cases hb : q.1 ≥ 0 ∧ q.1 < width ∧ q.2 ≥ 0 ∧ q.2 < height
      · rw [if_pos hb, Set_pix_inBounds _ _ _ _
          (by unfold Canvas.inBounds; rw [hw, hh]; omega)]
        by_cases hq : x = q.1 ∧ y = q.2
        · rw [if_pos hq, if_pos]
          refine ⟨?_, by omega⟩
          rw [hq.1, hq.2]
          exact List.mem_cons_self _ _
        · rw [if_neg hq, if_neg]
          rintro ⟨hmem, hr⟩
          rcases List.mem_cons.mp hmem with e | e
          · apply hq
            rw [Prod.ext_iff] at e
            exact e
          · exact hin ⟨e, hr⟩
      · rw [if_neg hb, if_neg]
        rintro ⟨hmem, hr⟩
        rcases List.mem_cons.mp hmem with e | e
        · apply hb
          rw [Prod.ext_iff] at e
          simp only at e
          omega
        · exact hin ⟨e, hr⟩

/-! ### Random draws and noise -/

theorem intnChecked_pos (r : Nat) (k : Int) (h : 0 < k) :
    intnChecked r k = some (intn r k) := by
  unfold intnChecked
  rw [if_pos h]

theorem intnChecked_isSome_iff (r : Nat) (k : Int) :
    (intnChecked r k).isSome = true ↔ 0 < k := by
  unfold intnChecked
  split <;> simp [*]

theorem intn_range (r : Nat) (k : Int) (h : 0 < k) : 0 ≤ intn r k ∧ intn r k < k := by
  unfold intn
  exact ⟨Int.emod_nonneg _ (by omega), Int.emod_lt_of_pos _ h⟩

theorem dotPixel_eq (width height : Int) (d : DotDraw) (hw : 0 < width) (hh : 0 < height) :
    dotPixel width height d = some (dotValue width height d) := by
  unfold dotPixel
  simp only [intnChecked_pos _ _ hw, intnChecked_pos _ _ hh,
    intnChecked_pos _ 256 (by decide)]
  rfl

theorem noiseLine_eq (width height : Int) (d : LineDraw) (hw : 0 < width)
    (hh : 0 < height) : noiseLine width height d = some (lineValue width height d) := by
  unfold noiseLine
  simp only [intnChecked_pos _ _ hw, intnChecked_pos _ _ hh,
    intnChecked_pos _ 256 (by decide), intnChecked_pos _ 100 (by decide)]
  rfl

/-- A loop in `Option` whose body succeeds at every pass. -/
theorem forRange_option {σ : Type} (n : Nat) (body : Int → Option σ → Option σ)
    (g : Int → σ → σ) (s : σ)
    (hbody : ∀ (i : Nat) (t : σ), i < n → body (i : Int) (some t) = some (g (i : Int) t)) :
    forRange n body (some s) = some (forRange n g s) := by
  induction n with
  | zero => rw [forRange_zero, forRange_zero]
  | succ k ih =>
    rw [forRange_succ, forRange_succ, ih (fun i t hi => hbody i t (Nat.lt_succ_of_lt hi))]
    exact hbody k _ (Nat.lt_succ_self k)

theorem forRange_eq_foldl_map {σ τ : Type} (n : Nat) (f : Nat → τ) (step : σ → τ → σ)
    (s : σ) :
    forRange n (fun i acc => step acc (f i.toNat)) s
      = ((List.range n).map f).foldl step s := by
  induction n with
  | zero => rw [forRange_zero]; rfl
  | succ k ih =>
    rw [forRange_succ, ih, List.range_succ, List.map_append, List.foldl_append]
    simp

theorem addDots_eq (width height : Int) (dots : Nat → DotDraw) (img : Canvas)
    (hw : 0 < width) (hh : 0 < height) :
    addDots width height dots img
      = some (((List.range 100).map (fun i => dotValue width height (dots i))).foldl
          (fun acc d => acc.Set d.1 d.2.1 d.2.2) img) := by
  unfold addDots
  rw [forRange_option 100 _
    (fun i acc => acc.Set (dotValue width height (dots i.toNat)).1
      (dotValue width height (dots i.toNat)).2.1 (dotValue width height (dots i.toNat)).2.2)
    img (fun i t _ => by
      show (dotPixel width height (dots (i : Int).toNat)).bind _ = _
      rw [dotPixel_eq width height _ hw hh]
      rfl)]
  rw [← forRange_eq_foldl_map 100 (fun i => dotValue width height (dots i))
    (fun acc d => acc.Set d.1 d.2.1 d.2.2) img]
theorem drawLine_eq (fuel : Nat) (width height : Int) (l : NoiseLine) (img : Canvas)
    (hfuel : (max |l.x2 - l.x1| |l.y2 - l.y1|).toNat < fuel) :
    drawLine fuel width height l.lineColor l.x1 l.y1 l.x2 l.y2 img
      = some (lineCanvas width height l img) := by
  unfold drawLine lineCanvas
  rw [lineLoop_result, if_pos hfuel]

theorem lineValue_range (width height : Int) (d : LineDraw) (hw : 0 < width)
    (hh : 0 < height) :
    (0 ≤ (lineValue width height d).x1 ∧ (lineValue width height d).x1 < width) ∧
    (0 ≤ (lineValue width height d).y1 ∧ (lineValue width height d).y1 < height) ∧
    (0 ≤ (lineValue width height d).x2 ∧ (lineValue width height d).x2 < width) ∧
    (0 ≤ (lineValue width height d).y2 ∧ (lineValue width height d).y2 < height) :=
  ⟨intn_range _ _ hw, intn_range _ _ hh, intn_range _ _ hw, intn_range _ _ hh⟩

theorem lineValue_extent (width height : Int) (d : LineDraw) (hw : 0 < width)
    (hh : 0 < height) (fuel : Nat) (hfuel : (max width height).toNat ≤ fuel) :
    (max |(lineValue width height d).x2 - (lineValue width height d).x1|
      |(lineValue width height d).y2 - (lineValue width height d).y1|).toNat < fuel := by
  obtain ⟨h1, h2, h3, h4⟩ := lineValue_range width height d hw hh
  generalize lineValue width height d = l at *
  have hx : |l.x2 - l.x1| < width := by
    rw [abs_lt]
    constructor <;> omega
  have hy : |l.y2 - l.y1| < height := by
    rw [abs_lt]
    constructor <;> omega
  have hm : max |l.x2 - l.x1| |l.y2 - l.y1| < max width height :=
    max_lt_max hx hy
  have hnn : 0 ≤ max |l.x2 - l.x1| |l.y2 - l.y1| := le_max_of_le_left (abs_nonneg _)
  omega

theorem addLines_eq (fuel : Nat) (width height : Int) (lines : Nat → LineDraw)
    (img : Canvas) (hw : 0 < width) (hh : 0 < height)
    (hfuel : (max width height).toNat ≤ fuel) :
    addLines fuel width height lines img
      = some (((List.range 5).map (fun i => lineValue width height (lines i))).foldl
          (fun acc l => lineCanvas width height l acc) img) := by
  unfold addLines
  rw [forRange_option 5 _
    (fun i acc => lineCanvas width height (lineValue width height (lines i.toNat)) acc)
    img (fun i t _ => by
      show (noiseLine width height (lines (i : Int).toNat)).bind _ = _
      rw [noiseLine_eq width height _ hw hh]
      exact drawLine_eq fuel width height _ t
        (lineValue_extent width height _ hw hh fuel hfuel))]
  rw [← forRange_eq_foldl_map 5 (fun i => lineValue width height (lines i))
    (fun acc l => lineCanvas width height l acc) img]

theorem layout_msv_pos (n : Nat) (width height : Int) :
    0 < (layout n width height).maxSpacingVariation := by
  simp only [layout, horizontalLayout]
  split_ifs <;> simp

theorem spacingStep_msv_pos (L : Layout) (n : Nat) (width : Int) (i : Nat)
    (st : SpacingState) (r : Nat) (h : 0 < st.maxSpacingVariation) :
    0 < (spacingStep L n width i st r).maxSpacingVariation := by
  unfold spacingStep
  simp only
  split_ifs <;> simp [h]

theorem glyphLoop_msv_pos {α : Type} [LinearOrderedField α] [FloorRing α] (cos sin : α → α)
    (pi : α) (n : Nat) (width height : Int) (glyphs : Nat → Int → Int → RGBA)
    (draws : Nat → GlyphDraw α) (img : Canvas) (k : Nat) :
    0 < (glyphLoop cos sin pi n width height glyphs draws img k).2.maxSpacingVariation := by
  induction k with
  | zero => exact layout_msv_pos n width height
  | succ k ih => exact spacingStep_msv_pos _ _ _ _ _ _ ih

theorem glyphLoopChecked_eq {α : Type} [LinearOrderedField α] [FloorRing α]
    (cos sin : α → α) (pi : α) (n : Nat) (width height : Int)
    (glyphs : Nat → Int → Int → RGBA) (draws : Nat → GlyphDraw α) (img : Canvas) (k : Nat) :
    glyphLoopChecked cos sin pi n width height glyphs draws img k
      = some (glyphLoop cos sin pi n width height glyphs draws img k) := by
  induction k with
  | zero => rfl
  | succ k ih =>
    have hpos := glyphLoop_msv_pos cos sin pi n width height glyphs draws img k
    simp only [glyphLoopChecked, ih, Option.bind_eq_bind, Option.some_bind,
      intnChecked_pos _ 11 (by decide),
      intnChecked_pos _ (2 * (glyphLoop cos sin pi n width height glyphs draws img
        k).2.maxSpacingVariation + 1) (by omega)]
    rfl

theorem glyphLoop_snd {α : Type} [LinearOrderedField α] [FloorRing α] (cos sin : α → α)
    (pi : α) (n : Nat) (width height : Int) (glyphs : Nat → Int → Int → RGBA)
    (draws : Nat → GlyphDraw α) (img : Canvas) (k : Nat) :
    (glyphLoop cos sin pi n width height glyphs draws img k).2
      = spacingAt (layout n width height) n width (fun i => (draws i).spacingRaw) k := by
  induction k with
  | zero => rfl
  | succ k ih =>
    simp only [glyphLoop, glyphIter, spacingAt]
    rw [ih]

theorem preDistortion_eq {α : Type} [LinearOrderedField α] [FloorRing α] (cos sin : α → α)
    (pi : α) (width height : Int) (bg : RGBA) (n : Nat) (glyphs : Nat → Int → Int → RGBA)
    (draws : Draws α) (fuel : Nat) (hw : 0 < width) (hh : 0 < height)
    (hfuel : (max width height).toNat ≤ fuel) :
    preDistortion cos sin pi width height bg n glyphs draws fuel
      = some (((List.range 5).map (fun i => lineValue width height (draws.line i))).foldl
          (fun acc l => lineCanvas width height l acc)
          (((List.range 100).map (fun i => dotValue width height (draws.dot i))).foldl
            (fun acc d => acc.Set d.1 d.2.1 d.2.2)
            (composeGlyphs cos sin pi n width height glyphs draws.glyph
              (backgroundCanvas width height bg)))) := by
  unfold preDistortion
  simp only [glyphLoopChecked_eq, Option.bind_eq_bind, Option.some_bind,
    addDots_eq _ _ _ _ hw hh, addLines_eq _ _ _ _ _ hw hh hfuel]
  rfl

/-! ### Canvas sizes through the drawing steps -/

theorem backgroundCanvas_spec (width height : Int) (bg : RGBA) (hw : 0 ≤ width)
    (hh : 0 ≤ height) :
    (backgroundCanvas width height bg).width = width ∧
    (backgroundCanvas width height bg).height = height ∧
    ∀ x y, 0 ≤ x → x < width → 0 ≤ y → y < height →
      (backgroundCanvas width height bg).pix x y = bg := by
  have key := forRange_fill_colMajor (fun x y img => img.Set x y bg) (fun _ _ => bg)
    (fun _ _ _ => rfl) (newRGBA width height) height.toNat (by simp [newRGBA, hh])
    width.toNat (by simp [newRGBA, hw])
  obtain ⟨k1, k2, k3⟩ := key
  refine ⟨k1, k2, fun x y hx hx' hy hy' => ?_⟩
  have := k3 x y
  rw [if_pos (by rw [Int.toNat_of_nonneg hw, Int.toNat_of_nonneg hh]; omega)] at this
  exact this

theorem applyWrite_dims (img : Canvas) (w : Option (Int × Int × RGBA)) :
    (applyWrite img w).width = img.width ∧ (applyWrite img w).height = img.height := by
  cases w with
  | none => exact ⟨rfl, rfl⟩
  | some v => exact ⟨Set_width _ _ _ _, Set_height _ _ _ _⟩

theorem drawGlyph_dims {α : Type} [LinearOrderedField α] [FloorRing α] (cos sin : α → α)
    (width height : Int) (charImg : Int → Int → RGBA) (angle : α) (posX posY : Int)
    (img : Canvas) :
    (drawGlyph cos sin width height charImg angle posX posY img).width = img.width ∧
    (drawGlyph cos sin width height charImg angle posX posY img).height = img.height := by
  unfold drawGlyph
  refine forRange_invariant
    (fun d : Canvas => d.width = img.width ∧ d.height = img.height) _ _ _ ⟨rfl, rfl⟩ ?_
  intro i t _ ht
  refine forRange_invariant
    (fun d : Canvas => d.width = img.width ∧ d.height = img.height) _ _ _ ht ?_
  intro j t2 _ ht2
  obtain ⟨a, b⟩ := applyWrite_dims t2
    (glyphPixelWrite width height (charImg i j) (glyphDest cos sin angle posX posY i j))
  exact ⟨a.trans ht2.1, b.trans ht2.2⟩

theorem glyphLoop_dims {α : Type} [LinearOrderedField α] [FloorRing α]
    (cos sin : α → α) (pi : α) (n : Nat) (width height : Int)
    (glyphs : Nat → Int → Int → RGBA) (draws : Nat → GlyphDraw α) (img : Canvas) (k : Nat) :
    (glyphLoop cos sin pi n width height glyphs draws img k).1.width = img.width ∧
    (glyphLoop cos sin pi n width height glyphs draws img k).1.height = img.height := by
  induction k with
  | zero => exact ⟨rfl, rfl⟩
  | succ k ih =>
    obtain ⟨a, b⟩ := drawGlyph_dims cos sin width height (glyphs k)
      (glyphAngle pi (draws k).u)
      (glyphPosX (layout n width height) k
        (glyphLoop cos sin pi n width height glyphs draws img k).2.charSpacing)
      ((layout n width height).centerY + verticalOffset (draws k).jitterRaw)
      (glyphLoop cos sin pi n width height glyphs draws img k).1
    exact ⟨a.trans ih.1, b.trans ih.2⟩

theorem composeGlyphs_dims {α : Type} [LinearOrderedField α] [FloorRing α]
    (cos sin : α → α) (pi : α) (n : Nat) (width height : Int)
    (glyphs : Nat → Int → Int → RGBA) (draws : Nat → GlyphDraw α) (img : Canvas) :
    (composeGlyphs cos sin pi n width height glyphs draws img).width = img.width ∧
    (composeGlyphs cos sin pi n width height glyphs draws img).height = img.height :=
  glyphLoop_dims cos sin pi n width height glyphs draws img n

theorem foldl_Set_dims (ds : List (Int × Int × RGBA)) (img : Canvas) :
    (ds.foldl (fun acc d => acc.Set d.1 d.2.1 d.2.2) img).width = img.width ∧
    (ds.foldl (fun acc d => acc.Set d.1 d.2.1 d.2.2) img).height = img.height := by
  induction ds generalizing img with
  | nil => exact ⟨rfl, rfl⟩
  | cons d ds ih =>
    simp only [List.foldl_cons]
    obtain ⟨a, b⟩ := ih (img.Set d.1 d.2.1 d.2.2)
    exact ⟨a.trans (Set_width _ _ _ _), b.trans (Set_height _ _ _ _)⟩

theorem lineCanvas_spec (width height : Int) (l : NoiseLine) (img : Canvas)
    (hw : img.width = width) (hh : img.height = height) :
    (lineCanvas width height l img).width = width ∧
    (lineCanvas width height l img).height = height ∧
    ∀ x y, (lineCanvas width height l img).pix x y
      = if (x, y) ∈ lineTrace (lineParams l.x1 l.y1 l.x2 l.y2)
            (max |l.x2 - l.x1| |l.y2 - l.y1|).toNat (lineStart l.x1 l.y1 l.x2 l.y2) ∧
          0 ≤ x ∧ x < width ∧ 0 ≤ y ∧ y < height then l.lineColor
        else img.pix x y :=
  foldl_linePlot width height l.lineColor _ img hw hh

theorem foldl_lineCanvas_dims (width height : Int) (ls : List NoiseLine) (img : Canvas)
    (hw : img.width = width) (hh : img.height = height) :
    (ls.foldl (fun acc l => lineCanvas width height l acc) img).width = width ∧
    (ls.foldl (fun acc l => lineCanvas width height l acc) img).height = height := by
  induction ls generalizing img with
  | nil => exact ⟨hw, hh⟩
  | cons l ls ih =>
    simp only [List.foldl_cons]
    obtain ⟨a, b, -⟩ := lineCanvas_spec width height l img hw hh
    exact ih _ a b

/-- After a sequence of noise lines, the start point of the last line has its colour. -/
theorem foldl_lineCanvas_last (width height : Int) (ls : List NoiseLine) (l : NoiseLine)
    (img : Canvas) (hw : img.width = width) (hh : img.height = height)
    (hx : 0 ≤ l.x1 ∧ l.x1 < width) (hy : 0 ≤ l.y1 ∧ l.y1 < height) :
    ((ls ++ [l]).foldl (fun acc l => lineCanvas width height l acc) img).At l.x1 l.y1
      = l.lineColor := by
  rw [List.foldl_append]
  simp only [List.foldl_cons, List.foldl_nil]
  obtain ⟨a, b⟩ := foldl_lineCanvas_dims width height ls img hw hh
  obtain ⟨c, d, e⟩ := lineCanvas_spec width height l _ a b
  rw [At_of_inBounds _ _ _ (by rw [c, d]; omega), e,
    if_pos ⟨(lineTrace_endpoints l.x1 l.y1 l.x2 l.y2).1, hx.1, hx.2, hy.1, hy.2⟩]

/-! ### Accessed coordinates -/

/-- A property of every recorded coordinate is kept by a loop whose body keeps it. -/
theorem forRange_list_invariant (P : Int × Int → Prop) (n : Nat)
    (body : Int → List (Int × Int) → List (Int × Int)) (s : List (Int × Int))
    (h0 : ∀ p ∈ s, P p)
    (hstep : ∀ (i : Nat) (t : List (Int × Int)), i < n → (∀ p ∈ t, P p) →
      ∀ p ∈ body (i : Int) t, P p) :
    ∀ p ∈ forRange n body s, P p :=
  forRange_invariant (fun t : List (Int × Int) => ∀ p ∈ t, P p) n body s h0 hstep

theorem backgroundAccesses_inRange (width height : Int) :
    ∀ p ∈ backgroundAccesses width height,
      0 ≤ p.1 ∧ p.1 < width ∧ 0 ≤ p.2 ∧ p.2 < height := by
  unfold backgroundAccesses
  refine forRange_list_invariant _ _ _ _ (by simp) ?_
  intro i t hi ht
  refine forRange_list_invariant _ _ _ _ ht ?_
  intro j t2 hj ht2 p hp
  rcases List.mem_append.mp hp with h | h
  · exact ht2 p h
  · rw [List.mem_singleton] at h
    subst h
    simp only
    omega

theorem glyphAccesses_inRange {α : Type} [LinearOrderedField α] [FloorRing α]
    (cos sin : α → α) (width height : Int) (charImg : Int → Int → RGBA) (angle : α)
    (posX posY : Int) :
    ∀ p ∈ glyphAccesses cos sin width height charImg angle posX posY,
      0 ≤ p.1 ∧ p.1 < width ∧ 0 ≤ p.2 ∧ p.2 < height := by
  unfold glyphAccesses
  refine forRange_list_invariant _ _ _ _ (by simp) ?_
  intro i t hi ht
  refine forRange_list_invariant _ _ _ _ ht ?_
  intro j t2 hj ht2 p hp
  cases hw : glyphPixelWrite width height (charImg i j)
      (glyphDest cos sin angle posX posY i j) with
  | none =>
    simp only [hw] at hp
    exact ht2 p hp
  | some w =>
    simp only [hw] at hp
    rcases List.mem_append.mp hp with h | h
    · exact ht2 p h
    · rw [List.mem_singleton] at h
      subst h
      obtain ⟨e1, e2, b1, b2, b3, b4⟩ := glyphPixelWrite_some_dest _ _ _ _ w hw
      simp only
      omega

theorem composeAccesses_inRange {α : Type} [LinearOrderedField α] [FloorRing α]
    (cos sin : α → α) (pi : α) (n : Nat) (width height : Int)
    (glyphs : Nat → Int → Int → RGBA) (draws : Nat → GlyphDraw α) (k : Nat) :
    ∀ p ∈ composeAccesses cos sin pi n width height glyphs draws k,
      0 ≤ p.1 ∧ p.1 < width ∧ 0 ≤ p.2 ∧ p.2 < height := by
  induction k with
  | zero => simp [composeAccesses]
  | succ k ih =>
    intro p hp
    simp only [composeAccesses] at hp
    rcases List.mem_append.mp hp with h | h
    · exact ih p h
    · exact glyphAccesses_inRange cos sin width height _ _ _ _ p h

theorem dotAccesses_inRange (width height : Int) (dots : Nat → DotDraw) (hw : 0 < width)
    (hh : 0 < height) :
    ∃ l, dotAccesses width height dots = some l ∧
      ∀ p ∈ l, 0 ≤ p.1 ∧ p.1 < width ∧ 0 ≤ p.2 ∧ p.2 < height := by
  refine ⟨forRange 100 (fun i a => a ++ [((dotValue width height (dots i.toNat)).1,
    (dotValue width height (dots i.toNat)).2.1)]) [], ?_, ?_⟩
  · unfold dotAccesses
    exact forRange_option 100 _ _ [] (fun i t _ => by
      show (dotPixel width height (dots (i : Int).toNat)).bind _ = _
      rw [dotPixel_eq width height _ hw hh]
      rfl)
  · refine forRange_list_invariant _ _ _ _ (by simp) ?_
    intro i t _ ht p hp
    rcases List.mem_append.mp hp with h | h
    · exact ht p h
    · rw [List.mem_singleton] at h
      subst h
      obtain ⟨a1, a2⟩ := intn_range (dots (i : Int).toNat).xRaw width hw
      obtain ⟨b1, b2⟩ := intn_range (dots (i : Int).toNat).yRaw height hh
      exact ⟨a1, a2, b1, b2⟩

theorem foldl_linePlotAccess_inRange (width height : Int) (l : List (Int × Int)) :
    ∀ acc : List (Int × Int),
      (∀ p ∈ acc, 0 ≤ p.1 ∧ p.1 < width ∧ 0 ≤ p.2 ∧ p.2 < height) →
      ∀ p ∈ l.foldl (fun a q => linePlotAccess width height q.1 q.2 a) acc,
        0 ≤ p.1 ∧ p.1 < width ∧ 0 ≤ p.2 ∧ p.2 < height := by
  induction l with
  | nil =>
    intro acc hacc
    exact hacc
  | cons q l ih =>
    intro acc hacc
    simp only [List.foldl_cons]
    apply ih
    intro p hp
    unfold linePlotAccess at hp
    split at hp
    · rcases List.mem_append.mp hp with h | h
      · exact hacc p h
      · rw [List.mem_singleton] at h
        subst h
        simp only
        omega
    · exact hacc p hp

theorem lineAccesses_inRange (fuel : Nat) (width height : Int) (lines : Nat → LineDraw)
    (hw : 0 < width) (hh : 0 < height) (hfuel : (max width height).toNat ≤ fuel) :
    ∃ l, lineAccesses fuel width height lines = some l ∧
      ∀ p ∈ l, 0 ≤ p.1 ∧ p.1 < width ∧ 0 ≤ p.2 ∧ p.2 < height := by
  refine ⟨forRange 5 (fun i a =>
    (lineTrace (lineParams (lineValue width height (lines i.toNat)).x1
        (lineValue width height (lines i.toNat)).y1
        (lineValue width height (lines i.toNat)).x2
        (lineValue width height (lines i.toNat)).y2)
      (max |(lineValue width height (lines i.toNat)).x2
            - (lineValue width height (lines i.toNat)).x1|
        |(lineValue width height (lines i.toNat)).y2
            - (lineValue width height (lines i.toNat)).y1|).toNat
      (lineStart (lineValue width height (lines i.toNat)).x1
        (lineValue width height (lines i.toNat)).y1
        (lineValue width height (lines i.toNat)).x2
        (lineValue width height (lines i.toNat)).y2)).foldl
      (fun a q => linePlotAccess width height q.1 q.2 a) a) [], ?_, ?_⟩
  · unfold lineAccesses
    exact forRange_option 5 _ _ [] (fun i t _ => by
      show (noiseLine width height (lines (i : Int).toNat)).bind _ = _
      rw [noiseLine_eq width height _ hw hh]
      show lineLoop _ _ _ _ _ = _
      rw [lineLoop_result, if_pos (lineValue_extent width height _ hw hh fuel hfuel)])
  · refine forRange_list_invariant _ _ _ _ (by simp) ?_
    intro i t _ ht
    exact foldl_linePlotAccess_inRange width height _ t ht

theorem verticalPassAccesses_inRange (v : Int → Int) (width height : Int) :
    ∀ p ∈ verticalPassAccesses v width height,
      0 ≤ p.1 ∧ p.1 < width ∧ 0 ≤ p.2 ∧ p.2 < height := by
  unfold verticalPassAccesses
  refine forRange_list_invariant _ _ _ _ (by simp) ?_
  intro i t hi ht
  refine forRange_list_invariant _ _ _ _ ht ?_
  intro j t2 hj ht2 p hp
  simp only at hp
  split at hp
  · rcases List.mem_append.mp hp with h | h
    · exact ht2 p h
    · simp only [List.mem_cons, List.mem_singleton, List.not_mem_nil, or_false] at h
      rcases h with h | h <;> subst h <;> simp only <;> omega
  · rcases List.mem_append.mp hp with h | h
    · exact ht2 p h
    · rw [List.mem_singleton] at h
      subst h
      simp only
      omega

theorem horizontalPassAccesses_inRange (h : Int → Int) (width height : Int) :
    ∀ p ∈ horizontalPassAccesses h width height,
      0 ≤ p.1 ∧ p.1 < width ∧ 0 ≤ p.2 ∧ p.2 < height := by
  unfold horizontalPassAccesses
  refine forRange_list_invariant _ _ _ _ (by simp) ?_
  intro i t hi ht
  refine forRange_list_invariant _ _ _ _ ht ?_
  intro j t2 hj ht2 p hp
  simp only at hp
  split at hp
  · rcases List.mem_append.mp hp with h' | h'
    · exact ht2 p h'
    · simp only [List.mem_cons, List.mem_singleton, List.not_mem_nil, or_false] at h'
      rcases h' with h' | h' <;> subst h' <;> simp only <;> omega
  · rcases List.mem_append.mp hp with h' | h'
    · exact ht2 p h'
    · rw [List.mem_singleton] at h'
      subst h'
      simp only
      omega

/-! ### Closed form of the layout -/

theorem totalWidthWithRotation_wide (n : Nat) :
    totalWidthWithRotation n 25 5 = 65 * (n : Int) + 8 := by
  unfold totalWidthWithRotation maxTotalWidth maxRotationOffset charWidth
  ring

theorem totalWidthWithRotation_tight (n : Nat) :
    totalWidthWithRotation n 20 3 = 58 * (n : Int) + 15 := by
  unfold totalWidthWithRotation maxTotalWidth maxRotationOffset charWidth
  ring

theorem centeredStartX_eq_max (width total : Int) :
    centeredStartX width total = max (goDiv (width - total) 2) 29 := by
  unfold centeredStartX maxRotationOffset
  simp only
  split_ifs <;> omega

/-- The right-edge overflow check of line 91 fires exactly when `width < 65*n + 47`, and
then the shifted start position is below the minimum margin. -/
theorem overflow_check_iff (n : Nat) (width : Int) :
    (centeredStartX width (totalWidthWithRotation n 25 5) + totalWidthWithRotation n 25 5
        > width - 10 ↔ width < 65 * (n : Int) + 47) ∧
    (width < 65 * (n : Int) + 47 →
      width - totalWidthWithRotation n 25 5 - 10 < maxRotationOffset + 10) := by
  rw [centeredStartX_eq_max, totalWidthWithRotation_wide]
  have g := goDiv_two (width - (65 * (n : Int) + 8))
  generalize goDiv (width - (65 * (n : Int) + 8)) 2 = a at *
  unfold maxRotationOffset
  constructor
  · constructor
    · intro h
      split_ifs at g <;> omega
    · intro h
      split_ifs at g <;> omega
  · intro h
    omega

theorem horizontalLayout_eq (n : Nat) (width : Int) :
    horizontalLayout n width
      = if width < 65 * (n : Int) + 47 then
          (max (goDiv (width - (58 * (n : Int) + 15)) 2) 29, 20, 3)
        else (max (goDiv (width - (65 * (n : Int) + 8)) 2) 29, 25, 5) := by
  obtain ⟨h1, h2⟩ := overflow_check_iff n width
  unfold horizontalLayout
  simp only
  by_cases hlt : width < 65 * (n : Int) + 47
  · rw [if_pos (h1.mpr hlt), if_pos (h2 hlt), if_pos hlt, centeredStartX_eq_max,
      totalWidthWithRotation_tight]
  · rw [if_neg (fun h => hlt (h1.mp h)), if_neg hlt, centeredStartX_eq_max,
      totalWidthWithRotation_wide]

/-! ### Rotated destinations on a canvas of sufficient size -/

theorem goInt_bounds {α : Type} [LinearOrderedField α] [FloorRing α] (v : α) (k : Int)
    (h : |v| < (k : α)) : -k < goInt v ∧ goInt v < k := by
  have ht := (goInt_isTruncationOf v).1
  have h1 : |((goInt v : Int) : α)| < (k : α) := lt_of_le_of_lt ht h
  rw [abs_lt] at h1
  constructor
  · have : ((-k : Int) : α) < ((goInt v : Int) : α) := by
      push_cast
      exact h1.1
    exact_mod_cast this
  · exact_mod_cast h1.2

/-- For an angle of at most `0.35` radians in absolute value, a cell pixel lands within
24 columns and 27 rows of the point `(posX + 17, posY)`. -/
theorem glyphDest_bounds (θ : ℝ) (hθ : |θ| ≤ 0.35) (posX posY x y : Int)
    (hx : 0 ≤ x ∧ x < 35) (hy : 0 ≤ y ∧ y < 45) :
    posX - 7 ≤ (glyphDest Real.cos Real.sin θ posX posY x y).1 ∧
    (glyphDest Real.cos Real.sin θ posX posY x y).1 ≤ posX + 41 ∧
    posY - 27 ≤ (glyphDest Real.cos Real.sin θ posX posY x y).2 ∧
    (glyphDest Real.cos Real.sin θ posX posY x y).2 ≤ posY + 27 := by
  unfold glyphDest
  simp only [goDiv_charWidth, goDiv_charHeight]
  have ha : |((x - 17 : Int) : ℝ)| ≤ 17 := by
    have h : |x - 17| ≤ 17 := by
      rw [abs_le]
      constructor <;> omega
    exact_mod_cast h
  have hb : |((y - 22 : Int) : ℝ)| ≤ 22 := by
    have h : |y - 22| ≤ 22 := by
      rw [abs_le]
      constructor <;> omega
    exact_mod_cast h
  have hc : |Real.cos θ| ≤ 1 := Real.abs_cos_le_one θ
  have hs : |Real.sin θ| ≤ 0.35 := le_trans Real.abs_sin_le_abs hθ
  have h1 : |((x - 17 : Int) : ℝ) * Real.cos θ| ≤ 17 := by
    rw [abs_mul]
    calc |((x - 17 : Int) : ℝ)| * |Real.cos θ| ≤ 17 * 1 :=
          mul_le_mul ha hc (abs_nonneg _) (by norm_num)
      _ = 17 := by norm_num
  have h2 : |((y - 22 : Int) : ℝ) * Real.sin θ| ≤ 7.7 := by
    rw [abs_mul]
    calc |((y - 22 : Int) : ℝ)| * |Real.sin θ| ≤ 22 * 0.35 :=
          mul_le_mul hb hs (abs_nonneg _) (by norm_num)
      _ = 7.7 := by norm_num
  have h3 : |((x - 17 : Int) : ℝ) * Real.sin θ| ≤ 5.95 := by
    rw [abs_mul]
    calc |((x - 17 : Int) : ℝ)| * |Real.sin θ| ≤ 17 * 0.35 :=
          mul_le_mul ha hs (abs_nonneg _) (by norm_num)
      _ = 5.95 := by norm_num
  have h4 : |((y - 22 : Int) : ℝ) * Real.cos θ| ≤ 22 := by
    rw [abs_mul]
    calc |((y - 22 : Int) : ℝ)| * |Real.cos θ| ≤ 22 * 1 :=
          mul_le_mul hb hc (abs_nonneg _) (by norm_num)
      _ = 22 := by norm_num
  have hX : |((x - 17 : Int) : ℝ) * Real.cos θ - ((y - 22 : Int) : ℝ) * Real.sin θ|
      < ((25 : Int) : ℝ) := by
    have := abs_sub (((x - 17 : Int) : ℝ) * Real.cos θ) (((y - 22 : Int) : ℝ) * Real.sin θ)
    push_cast at h1 h2 this ⊢
    norm_num at h1 h2 this ⊢
    linarith
  have hY : |((x - 17 : Int) : ℝ) * Real.sin θ + ((y - 22 : Int) : ℝ) * Real.cos θ|
      < ((28 : Int) : ℝ) := by
    have := abs_add (((x - 17 : Int) : ℝ) * Real.sin θ) (((y - 22 : Int) : ℝ) * Real.cos θ)
    push_cast at h3 h4 this ⊢
    norm_num at h3 h4 this ⊢
    linarith
  obtain ⟨x1, x2⟩ := goInt_bounds _ 25 hX
  obtain ⟨y1, y2⟩ := goInt_bounds _ 28 hY
  refine ⟨by omega, by omega, by omega, by omega⟩

/-- In the 25/5 profile the spacing in force at any glyph lies between 15 and 30. -/
theorem spacingAt_wide_bounds (L : Layout) (n : Nat) (width : Int) (spacingRaw : Nat → Nat)
    (hb : L.baseCharSpacing = 25) (hm : L.maxSpacingVariation = 5) (k : Nat) :
    15 ≤ (spacingAt L n width spacingRaw k).charSpacing ∧
    (spacingAt L n width spacingRaw k).charSpacing ≤ 30 ∧
    0 < (spacingAt L n width spacingRaw k).maxSpacingVariation ∧
    (spacingAt L n width spacingRaw k).maxSpacingVariation ≤ 5 := by
  induction k with
  | zero =>
    simp only [spacingAt, hb, hm]
    omega
  | succ k ih =>
    obtain ⟨i1, i2, i3, i4⟩ := ih
    obtain ⟨r1, r2⟩ := intn_range (spacingRaw k)
      (2 * (spacingAt L n width spacingRaw k).maxSpacingVariation + 1) (by omega)
    simp only [spacingAt, spacingStep, hb]
    split_ifs <;> dsimp only <;> omega

/-! ## Claims -/

/-- C1 (failing input). On the 40x25 canvas of the `minimal_image` case with a one-glyph
code, for every rasterised cell and every outcome of the random draws (rotation over exact
real arithmetic), no cell pixel passes the compositor's check, its destination column being
at least 41 while the check asks for less than 38; compositing therefore leaves the canvas
exactly as it was, and the glyph is dropped whole instead of being fully visible. -/
theorem minimal_image_glyph_dropped (glyphs : Nat → Int → Int → RGBA)
    (draws : Nat → GlyphDraw ℝ) (img : Canvas)
    (hu : 0 ≤ (draws 0).u ∧ (draws 0).u < 1) :
    (∀ x y : Int, 0 ≤ x → x < 35 → 0 ≤ y → y < 45 →
      glyphPixelWrite 40 25 (glyphs 0 x y)
        (glyphDest Real.cos Real.sin (glyphAngle Real.pi (draws 0).u)
          (posXAt 1 40 25 (fun k => (draws k).spacingRaw) 0)
          ((layout 1 40 25).centerY + verticalOffset (draws 0).jitterRaw) x y) = none) ∧
    composeGlyphs Real.cos Real.sin Real.pi 1 40 25 glyphs draws img = img := by
  have hθ := glyphAngle_abs_le _ hu.1 hu.2
  constructor
  · intro x y hx hx' hy hy'
    rw [posXAt_minimal_image]
    have hd := glyphDest_fst_ge _ hθ 48
      ((layout 1 40 25).centerY + verticalOffset (draws 0).jitterRaw) x y ⟨hx, hx'⟩ ⟨hy, hy'⟩
    exact glyphPixelWrite_eq_none 40 25 _ _ (by omega)
  · have hpos : glyphPosX (layout 1 40 25) 0 (layout 1 40 25).baseCharSpacing = 48 := by
      decide
    show drawGlyph Real.cos Real.sin 40 25 (glyphs 0) (glyphAngle Real.pi (draws 0).u)
      (glyphPosX (layout 1 40 25) 0 (layout 1 40 25).baseCharSpacing)
      ((layout 1 40 25).centerY + verticalOffset (draws 0).jitterRaw) img = img
    rw [hpos]
    exact drawGlyph_minimal_image _ _ hθ _ _

theorem minimal_image_glyph_dropped_witness :
    (0 ≤ (1 / 2 : ℝ) ∧ (1 / 2 : ℝ) < 1) ∧
    composeGlyphs Real.cos Real.sin Real.pi 1 40 25 (fun _ _ _ => ⟨0, 0, 0, 255⟩)
        (fun _ => ⟨1 / 2, 5, 0⟩) (backgroundCanvas 40 25 ⟨255, 255, 255, 255⟩)
      = backgroundCanvas 40 25 ⟨255, 255, 255, 255⟩ :=
  ⟨by norm_num,
    (minimal_image_glyph_dropped (fun _ _ _ => ⟨0, 0, 0, 255⟩) (fun _ => ⟨1 / 2, 5, 0⟩)
      (backgroundCanvas 40 25 ⟨255, 255, 255, 255⟩) (by norm_num)).2⟩

/-- C2 (failing input). Code of 5 glyphs on a 1000x100 canvas, the spacing draw after
glyph 2 being `+5` (raw value 10) and all others `-5` (raw value 0): glyph 3 is placed at
`posX = 442` and glyph 4 to its left at `posX = 432`, so the positions are not increasing
in the character index. -/
theorem posX_not_increasing :
    posXAt 5 1000 100 (fun k => if k = 2 then 10 else 0) 3 = 442 ∧
    posXAt 5 1000 100 (fun k => if k = 2 then 10 else 0) 4 = 432 ∧
    ¬ (∀ (n : Nat) (width height : Int) (spacingRaw : Nat → Nat) (i j : Nat),
        i < j → j < n →
        posXAt n width height spacingRaw i < posXAt n width height spacingRaw j) := by
  refine ⟨by decide, by decide, fun h => ?_⟩
  have h1 := h 5 1000 100 (fun k => if k = 2 then 10 else 0) 3 4 (by decide) (by decide)
  revert h1
  decide

/-- C3. The glyph compositor issues a write, and then at `(destX, destY)`, if and only if
the source cell pixel is opaque (alpha > 0) and `2 ≤ destX < width-2`, `2 ≤ destY < height-2`;
when the check passes, the pixel `(destX, destY)` of the `width x height` canvas becomes the
source colour; a pixel failing the check leaves the canvas unchanged; and, for every code,
canvas size and random draws, neither a single write nor the compositing of all glyphs
changes a pixel of the 2-pixel border band. -/
theorem compositor_writes_only_inside_margin {α : Type} [LinearOrderedField α] [FloorRing α]
    (cos sin : α → α) (pi : α) (n : Nat) (width height : Int)
    (glyphs : Nat → Int → Int → RGBA) (draws : Nat → GlyphDraw α) (img : Canvas)
    (src : RGBA) (dest : Int × Int) :
    ((∃ c, glyphPixelWrite width height src dest = some (dest.1, dest.2, c)) ↔
      (src.a > 0 ∧ 2 ≤ dest.1 ∧ dest.1 < width - 2 ∧ 2 ≤ dest.2 ∧ dest.2 < height - 2)) ∧
    ((src.a > 0 ∧ 2 ≤ dest.1 ∧ dest.1 < width - 2 ∧ 2 ≤ dest.2 ∧ dest.2 < height - 2) →
      img.width = width → img.height = height →
      src.r < 256 → src.g < 256 → src.b < 256 → src.a < 256 →
      (applyWrite img (glyphPixelWrite width height src dest)).pix dest.1 dest.2 = src) ∧
    (¬ (src.a > 0 ∧ 2 ≤ dest.1 ∧ dest.1 < width - 2 ∧ 2 ≤ dest.2 ∧ dest.2 < height - 2) →
      applyWrite img (glyphPixelWrite width height src dest) = img) ∧
    (∀ x y : Int, inBorderBand width height x y →
      (applyWrite img (glyphPixelWrite width height src dest)).pix x y = img.pix x y) ∧
    (∀ x y : Int, inBorderBand width height x y →
      (composeGlyphs cos sin pi n width height glyphs draws img).pix x y = img.pix x y) := by
  refine ⟨glyphPixelWrite_eq_some_iff width height src dest, ?_, ?_, ?_, ?_⟩
  · intro hcond hw hh hr hg hb ha
    obtain ⟨c, hc⟩ := (glyphPixelWrite_eq_some_iff width height src dest).mpr hcond
    have hcol := glyphPixelWrite_colour width height src dest _ hc hr hg hb ha
    simp only at hcol
    rw [hc, hcol]
    show (img.Set dest.1 dest.2 src).pix dest.1 dest.2 = src
    rw [Set_pix_inBounds img dest.1 dest.2 src
      (by unfold Canvas.inBounds; rw [hw, hh]; omega)]
    simp
  · intro hcond
    rw [glyphPixelWrite_eq_none width height src dest hcond]
    rfl
  · intro x y hb
    exact applyWrite_pix_band width height src dest img x y hb
  · intro x y hb
    exact glyphLoop_pix_band cos sin pi n width height glyphs draws img x y hb n

/-- C4. Layout fallback selection: whenever the initial worst-case width
`n*35 + (n-1)*(25+5)`, taken without or with the rotation slack `2*maxRotationOffset`,
exceeds `width - 20`, the layout ends with the tightened profile
`baseCharSpacing = 20`, `maxSpacingVariation = 3`. -/
theorem layout_fallback_selected (n : Nat) (width height : Int)
    (h : maxTotalWidth n 25 5 > width - 20 ∨ totalWidthWithRotation n 25 5 > width - 20) :
    (layout n width height).baseCharSpacing = 20 ∧
      (layout n width height).maxSpacingVariation = 3 := by
  have hT : totalWidthWithRotation n 25 5 > width - 20 := by
    rcases h with h | h
    · unfold totalWidthWithRotation maxRotationOffset
      omega
    · exact h
  simp only [layout, horizontalLayout, centeredStartX, goDiv_two]
  unfold totalWidthWithRotation maxTotalWidth maxRotationOffset charWidth at *
  constructor <;> (split_ifs <;> first | rfl | omega)

theorem layout_fallback_selected_witness :
    (maxTotalWidth 5 25 5 > 200 - 20 ∨ totalWidthWithRotation 5 25 5 > 200 - 20) ∧
      (layout 5 200 60).baseCharSpacing = 20 ∧ (layout 5 200 60).maxSpacingVariation = 3 :=
  ⟨by decide, layout_fallback_selected 5 200 60 (by decide)⟩

/-- C5 (counterexample). On the 40x25 canvas of the `minimal_image` case the interval is
empty and the clamped centre line `41` lies above `maxY = -16`. -/
theorem centerY_interval_counterexample :
    ¬ (minY ≤ centerY 25 ∧ centerY 25 ≤ maxY 25) := by decide

/-- C5 (amended). For every canvas height the centre line satisfies `minY ≤ centerY`, and
`centerY ≤ maxY` holds exactly for the heights of at least 82, the heights for which the
interval `[minY, maxY]` is not empty. -/
theorem centerY_interval (height : Int) :
    minY ≤ centerY height ∧ (centerY height ≤ maxY height ↔ 82 ≤ height) := by
  simp only [centerY, maxY, minY_eq, goDiv_charHeight]
  simp only [goDiv_two]
  unfold maxRotationOffset
  constructor
  · split_ifs <;> omega
  · split_ifs <;> omega

/-- C6. Minimum left margin: the `startX` the layout hands to the compositor is at least
`maxRotationOffset + 10`, for every canvas size and code length. -/
theorem layout_startX_min_margin (n : Nat) (width height : Int) :
    (layout n width height).startX ≥ maxRotationOffset + 10 := by
  simp only [layout, horizontalLayout, centeredStartX]
  split_ifs <;> simp only [] <;> omega

/-- C7 (failing input). Code of 5 glyphs on a 210x100 canvas, spacing draws `+3, +3, +3`
and then `-2`: the look-ahead check fires after glyph 2 and glyph 3 is placed with spacing
15, but the check after glyph 3 does not fire, the spacing is redrawn as `20 - 2 = 18` and
glyph 4 is placed at `29 + 19 + 4*18 = 120`, not at `29 + 19 + 4*15 = 108`; the variation
stays 2. -/
theorem lookAhead_tightening_not_permanent :
    lookAheadFires 5 210 100 (fun k => if k = 3 then 0 else 6) 2 = true ∧
    posXAt 5 210 100 (fun k => if k = 3 then 0 else 6) 3
      = (layout 5 210 100).startX + maxRotationOffset + 3 * 15 ∧
    lookAheadFires 5 210 100 (fun k => if k = 3 then 0 else 6) 3 = false ∧
    spacingAt (layout 5 210 100) 5 210 (fun k => if k = 3 then 0 else 6) 4
      = { charSpacing := 18, maxSpacingVariation := 2 } ∧
    posXAt 5 210 100 (fun k => if k = 3 then 0 else 6) 4 = 120 ∧
    posXAt 5 210 100 (fun k => if k = 3 then 0 else 6) 4
      ≠ (layout 5 210 100).startX + maxRotationOffset + 4 * 15 := by
  decide

/-- C8. Two-pass wave distortion matches closed-form per-pixel sampling: with `v` the
column offsets of the vertical pass and `h` the row offsets of the horizontal pass, the
final canvas has size `width x height` and its pixel `(x, y)` is
`P(x + h y, y + v (x + h y))` when `0 ≤ x + h y < width` and `0 ≤ y + v (x + h y) < height`,
and the background colour otherwise. -/
theorem wave_two_pass_closed_form (v h : Int → Int) (width height : Int) (bg : RGBA)
    (P : Canvas) (x y : Int) (hx : 0 ≤ x ∧ x < width) (hy : 0 ≤ y ∧ y < height) :
    (waveDistort v h width height bg P).width = width ∧
    (waveDistort v h width height bg P).height = height ∧
    (waveDistort v h width height bg P).At x y = waveSample v h width height bg P x y := by
  have hw : 0 ≤ width := by omega
  have hh : 0 ≤ height := by omega
  obtain ⟨v1, v2, v3⟩ := verticalPass_spec v width height bg P hw hh
  obtain ⟨h1, h2, h3⟩ := horizontalPass_spec h width height bg
    (verticalPass v width height bg P) hw hh
  unfold waveDistort
  refine ⟨h1, h2, ?_⟩
  rw [At_of_inBounds _ _ _ (by rw [h1, h2]; omega), h3 x y hx.1 hx.2 hy.1 hy.2]
  unfold waveSample
  by_cases c1 : 0 ≤ x + h y ∧ x + h y < width
  · rw [if_pos c1, At_of_inBounds _ _ _ (by rw [v1, v2]; omega),
      v3 (x + h y) y c1.1 c1.2 hy.1 hy.2]
    by_cases c2 : 0 ≤ y + v (x + h y) ∧ y + v (x + h y) < height
    · rw [if_pos c2, if_pos ⟨c1.1, c1.2, c2.1, c2.2⟩]
    · rw [if_neg c2, if_neg (fun hc => c2 ⟨hc.2.2.1, hc.2.2.2⟩)]
  · rw [if_neg c1, if_neg (fun hc => c1 ⟨hc.1, hc.2.1⟩)]

theorem wave_two_pass_closed_form_witness :
    (0 ≤ (1 : Int) ∧ (1 : Int) < 4) ∧ (0 ≤ (2 : Int) ∧ (2 : Int) < 3) ∧
    (waveDistort (fun x => x - 1) (fun y => 1 - y) 4 3 RGBA.zero
        { width := 4, height := 3, pix := fun a b => ⟨a.toNat, b.toNat, 7, 255⟩ }).At 1 2
      = waveSample (fun x => x - 1) (fun y => 1 - y) 4 3 RGBA.zero
        { width := 4, height := 3, pix := fun a b => ⟨a.toNat, b.toNat, 7, 255⟩ } 1 2 :=
  ⟨by decide, by decide,
    (wave_two_pass_closed_form (fun x => x - 1) (fun y => 1 - y) 4 3 RGBA.zero
      { width := 4, height := 3, pix := fun a b => ⟨a.toNat, b.toNat, 7, 255⟩ } 1 2
      (by decide) (by decide)).2.2⟩

/-- C9 (counterexample). At column `x = 0` the code computes
`int(3*sin 0) + int(2*sin 1.5) = 0 + 1 = 1`, while the sum rounded once is
`round(2*sin 1.5) = round(1.99...) = 2`. -/
theorem waveOffsetV_not_rounded_sum :
    waveOffsetV Real.sin 0 = 1 ∧ specWaveOffsetV Real.sin 0 = 2 ∧
    ¬ (∀ width x : Int, 0 ≤ x → x < width →
        waveOffsetV Real.sin x = specWaveOffsetV Real.sin x) := by
  refine ⟨waveOffsetV_zero, specWaveOffsetV_zero, fun h => ?_⟩
  have h1 := h 1 0 le_rfl (by decide)
  rw [waveOffsetV_zero, specWaveOffsetV_zero] at h1
  exact absurd h1 (by decide)

/-- C9 (amended). For every column `x` the row offset of the vertical pass is the sum
`o1 + o2` of the two sinusoids each truncated toward zero on its own:
`o1` is `3*sin(0.08*x)` and `o2` is `2*sin(0.15*x + 1.5)` with the fraction discarded, so
`|o1| ≤ 3` and `|o2| ≤ 2` (over exact real arithmetic). -/
theorem waveOffsetV_truncated_terms (x : Int) :
    ∃ o1 o2 : Int, waveOffsetV Real.sin x = o1 + o2 ∧
      IsTruncationOf o1 (3 * Real.sin (0.08 * (x : ℝ))) ∧
      IsTruncationOf o2 (2 * Real.sin (0.15 * (x : ℝ) + 1.5)) ∧
      |o1| ≤ 3 ∧ |o2| ≤ 2 := by
  refine ⟨goInt (3 * Real.sin ((x : ℝ) * 0.08)), goInt (2 * Real.sin ((x : ℝ) * 0.15 + 1.5)),
    rfl, ?_, ?_, ?_, ?_⟩
  · rw [mul_comm (0.08 : ℝ)]
    exact goInt_isTruncationOf _
  · rw [mul_comm (0.15 : ℝ)]
    exact goInt_isTruncationOf _
  · apply goInt_abs_le _ 3
    rw [abs_mul]
    have := Real.abs_sin_le_one ((x : ℝ) * 0.08)
    norm_num
    linarith
  · apply goInt_abs_le _ 2
    rw [abs_mul]
    have := Real.abs_sin_le_one ((x : ℝ) * 0.15 + 1.5)
    norm_num
    linarith

/-- C10 (counterexample). At row `y = 5` the code computes `int(2*sin 0.5) = int(0.95...) = 0`,
while rounding to the nearest integer gives `1`. -/
theorem waveOffsetH_not_rounded :
    waveOffsetH Real.sin 5 = 0 ∧ specWaveOffsetH Real.sin 5 = 1 ∧
    ¬ (∀ height y : Int, 0 ≤ y → y < height →
        waveOffsetH Real.sin y = specWaveOffsetH Real.sin y) := by
  refine ⟨waveOffsetH_five, specWaveOffsetH_five, fun h => ?_⟩
  have h1 := h 6 5 (by decide) (by decide)
  rw [waveOffsetH_five, specWaveOffsetH_five] at h1
  exact absurd h1 (by decide)

/-- C10 (amended). For every row `y` the column offset of the horizontal pass is
`2*sin(0.1*y)` truncated toward zero (the fraction discarded), an integer of absolute value
at most 2 (over exact real arithmetic). -/
theorem waveOffsetH_truncated (y : Int) :
    IsTruncationOf (waveOffsetH Real.sin y) (2 * Real.sin (0.1 * (y : ℝ))) ∧
      |waveOffsetH Real.sin y| ≤ 2 := by
  unfold waveOffsetH
  constructor
  · rw [mul_comm (0.1 : ℝ)]
    exact goInt_isTruncationOf _
  · apply goInt_abs_le _ 2
    rw [abs_mul]
    have := Real.abs_sin_le_one ((y : ℝ) * 0.1)
    norm_num
    linarith

/-- C11. Horizontal noise line: for every row `y` and columns `a`, `b` inside the canvas,
the line walk from `(a, y)` to `(b, y)` ends (given more than `|b - a|` passes of fuel),
visits exactly the points `(x, y)` with `min a b ≤ x ≤ max a b`, once each, and the canvas
it leaves has the line colour at exactly these pixels and is unchanged elsewhere; the line
from `(0,0)` to `(4,0)` visits exactly `(0,0), (1,0), (2,0), (3,0), (4,0)`. -/
theorem horizontal_line_pixels (width height a b y : Int) (fuel : Nat) (lineColor : RGBA)
    (img : Canvas) (ha : 0 ≤ a ∧ a < width) (hb : 0 ≤ b ∧ b < width)
    (hy : 0 ≤ y ∧ y < height) (hw : img.width = width) (hh : img.height = height)
    (hfuel : (|b - a|).toNat < fuel) :
    (∃ l, lineVisited fuel a y b y = some l ∧ l.length = (|b - a|).toNat + 1 ∧
      ∀ q : Int × Int, q ∈ l ↔ (q.2 = y ∧ min a b ≤ q.1 ∧ q.1 ≤ max a b)) ∧
    (∃ img', drawLine fuel width height lineColor a y b y img = some img' ∧
      ∀ x' y', img'.pix x' y'
        = if y' = y ∧ min a b ≤ x' ∧ x' ≤ max a b then lineColor else img.pix x' y') ∧
    lineVisited 5 0 0 4 0 = some [(0, 0), (1, 0), (2, 0), (3, 0), (4, 0)] := by
  have hmm : max |b - a| |y - y| = |b - a| := by simp
  refine ⟨?_, ?_, by decide⟩
  · refine ⟨lineTrace (lineParams a y b y) (|b - a|).toNat (lineStart a y b y), ?_, ?_, ?_⟩
    · unfold lineVisited
      rw [lineLoop_result, hmm, if_pos hfuel, foldl_append_singleton, List.nil_append]
    · exact length_lineTrace _ _ _
    · intro q
      rw [← hmm]
      exact lineTrace_horizontal_mem a b y q
  · refine ⟨(lineTrace (lineParams a y b y) (|b - a|).toNat (lineStart a y b y)).foldl
      (fun acc q => linePlot width height lineColor q.1 q.2 acc) img, ?_, ?_⟩
    · unfold drawLine
      rw [lineLoop_result, hmm, if_pos hfuel]
    · intro x' y'
      obtain ⟨-, -, hp⟩ := foldl_linePlot width height lineColor
        (lineTrace (lineParams a y b y) (|b - a|).toNat (lineStart a y b y)) img hw hh
      rw [hp]
      have hmem := lineTrace_horizontal_mem a b y (x', y')
      rw [hmm] at hmem
      simp only at hmem
      by_cases hc : y' = y ∧ min a b ≤ x' ∧ x' ≤ max a b
      · rw [if_pos hc, if_pos]
        refine ⟨hmem.mpr hc, ?_⟩
        obtain ⟨h1, h2, h3⟩ := hc
        rcases le_total a b with h | h
        · rw [min_eq_left h] at h2
          rw [max_eq_right h] at h3
          omega
        · rw [min_eq_right h] at h2
          rw [max_eq_left h] at h3
          omega
      · rw [if_neg hc, if_neg]
        rintro ⟨hm, -⟩
        exact hc (hmem.mp hm)

theorem horizontal_line_pixels_witness :
    ((0 : Int) ≤ 6 ∧ (6 : Int) < 10) ∧ ((0 : Int) ≤ 2 ∧ (2 : Int) < 10) ∧
    ((0 : Int) ≤ 3 ∧ (3 : Int) < 8) ∧ (|(2 : Int) - 6|).toNat < 5 ∧
    (∃ l, lineVisited 5 6 3 2 3 = some l ∧ l.length = (|(2 : Int) - 6|).toNat + 1 ∧
      ∀ q : Int × Int, q ∈ l ↔ (q.2 = 3 ∧ min 6 2 ≤ q.1 ∧ q.1 ≤ max 6 2)) :=
  ⟨by decide, by decide, by decide, by decide,
    (horizontal_line_pixels 10 8 6 2 3 5 ⟨255, 0, 0, 150⟩ (newRGBA 10 8) (by decide)
      (by decide) (by decide) rfl rfl (by decide)).1⟩

/-- C12. The noise line walk is a Bresenham rasterization: for every pair of integer
endpoints, the walk (given more than `max |x2-x1| |y2-y1|` passes of fuel) ends, every point
`(x, y)` it visits satisfies
`2 * |(x2-x1)*(y-y1) - (y2-y1)*(x-x1)| ≤ max |x2-x1| |y2-y1|`, and both endpoints are
visited. -/
theorem line_walk_is_bresenham (x1 y1 x2 y2 : Int) (fuel : Nat)
    (hfuel : (max |x2 - x1| |y2 - y1|).toNat < fuel) :
    ∃ l, lineVisited fuel x1 y1 x2 y2 = some l ∧
      (∀ q ∈ l, 2 * |(x2 - x1) * (q.2 - y1) - (y2 - y1) * (q.1 - x1)|
        ≤ max |x2 - x1| |y2 - y1|) ∧
      (x1, y1) ∈ l ∧ (x2, y2) ∈ l := by
  refine ⟨lineTrace (lineParams x1 y1 x2 y2) (max |x2 - x1| |y2 - y1|).toNat
    (lineStart x1 y1 x2 y2), ?_, ?_, ?_⟩
  · unfold lineVisited
    rw [lineLoop_result, if_pos hfuel, foldl_append_singleton, List.nil_append]
  · intro q hq
    exact (lineTrace_point x1 y1 x2 y2 q hq).2.2.2.2
  · exact lineTrace_endpoints x1 y1 x2 y2

theorem line_walk_is_bresenham_witness :
    (max |(7 : Int) - 0| |(3 : Int) - 0|).toNat < 8 ∧
    ∃ l, lineVisited 8 0 0 7 3 = some l ∧
      (∀ q ∈ l, 2 * |((7 : Int) - 0) * (q.2 - 0) - (3 - 0) * (q.1 - 0)|
        ≤ max |(7 : Int) - 0| |(3 : Int) - 0|) ∧
      ((0 : Int), (0 : Int)) ∈ l ∧ ((7 : Int), (3 : Int)) ∈ l :=
  ⟨by decide, line_walk_is_bresenham 0 0 7 3 8 (by decide)⟩

/-- C13. The noise line walk always terminates: for every pair of integer endpoints, the
state after `k ≤ max |x2-x1| |y2-y1|` steps satisfies the break condition
`x1 == x2 && y1 == y2` exactly when `k = max |x2-x1| |y2-y1|`; so the loop, on the trace and
on the canvas alike, ends if and only if it is given more than that many passes, and it has
then visited `max |x2-x1| |y2-y1| + 1` points. -/
theorem line_walk_terminates (x1 y1 x2 y2 : Int) (fuel : Nat) (width height : Int)
    (lineColor : RGBA) (img : Canvas) :
    (∀ k : Nat, (k : Int) ≤ max |x2 - x1| |y2 - y1| →
      (((lineIter (lineParams x1 y1 x2 y2) k (lineStart x1 y1 x2 y2)).x1 = x2 ∧
        (lineIter (lineParams x1 y1 x2 y2) k (lineStart x1 y1 x2 y2)).y1 = y2) ↔
       (k : Int) = max |x2 - x1| |y2 - y1|)) ∧
    ((lineVisited fuel x1 y1 x2 y2).isSome ↔ (max |x2 - x1| |y2 - y1|).toNat < fuel) ∧
    (∀ l, lineVisited fuel x1 y1 x2 y2 = some l →
      l.length = (max |x2 - x1| |y2 - y1|).toNat + 1) ∧
    ((drawLine fuel width height lineColor x1 y1 x2 y2 img).isSome ↔
      (max |x2 - x1| |y2 - y1|).toNat < fuel) := by
  refine ⟨?_, ?_, ?_, ?_⟩
  · intro k hk
    have h := lineIter_target_iff x1 y1 x2 y2 k (by rw [lineParams_max]; exact hk)
    rw [lineParams_max] at h
    obtain ⟨-, -, -, -, -, -, e2x, e2y⟩ := lineParams_facts x1 y1 x2 y2
    rw [e2x, e2y] at h
    exact h
  · unfold lineVisited
    rw [lineLoop_result]
    split <;> simp [*]
  · intro l hl
    unfold lineVisited at hl
    rw [lineLoop_result] at hl
    split at hl
    · rw [foldl_append_singleton, List.nil_append] at hl
      simp only [Option.some.injEq] at hl
      rw [← hl]
      exact length_lineTrace _ _ _
    · exact Option.noConfusion hl
  · unfold drawLine
    rw [lineLoop_result]
    split <;> simp [*]

/-- C19. Noise injection draws exactly 100 dots and then exactly 5 line segments per
`Generate` call on a canvas of at least 1x1, for every outcome of the random source: the
canvas before the distortion is the composited canvas with the 100 dots set one pixel
each, then the 5 lines walked; each dot lies at in-canvas coordinates and has alpha 255;
each line has both endpoints in `[0,width) x [0,height)` and an alpha equal to
`rand.Intn(100) + 100`, in `[100, 199]`, unchanged by the conversion to 8 bits. -/
theorem noise_injection_counts {α : Type} [LinearOrderedField α] [FloorRing α]
    (cos sin : α → α) (pi : α) (width height : Int) (bg : RGBA) (n : Nat)
    (glyphs : Nat → Int → Int → RGBA) (draws : Draws α) (fuel : Nat)
    (hw : 1 ≤ width) (hh : 1 ≤ height) (hfuel : (max width height).toNat ≤ fuel) :
    ((List.range 100).map (fun i => dotValue width height (draws.dot i))).length = 100 ∧
    ((List.range 5).map (fun i => lineValue width height (draws.line i))).length = 5 ∧
    preDistortion cos sin pi width height bg n glyphs draws fuel
      = some (((List.range 5).map (fun i => lineValue width height (draws.line i))).foldl
          (fun acc l => lineCanvas width height l acc)
          (((List.range 100).map (fun i => dotValue width height (draws.dot i))).foldl
            (fun acc d => acc.Set d.1 d.2.1 d.2.2)
            (composeGlyphs cos sin pi n width height glyphs draws.glyph
              (backgroundCanvas width height bg)))) ∧
    (∀ d : DotDraw, dotPixel width height d = some (dotValue width height d) ∧
      0 ≤ (dotValue width height d).1 ∧ (dotValue width height d).1 < width ∧
      0 ≤ (dotValue width height d).2.1 ∧ (dotValue width height d).2.1 < height ∧
      (dotValue width height d).2.2.a = 255) ∧
    (∀ d : LineDraw, noiseLine width height d = some (lineValue width height d) ∧
      (0 ≤ (lineValue width height d).x1 ∧ (lineValue width height d).x1 < width) ∧
      (0 ≤ (lineValue width height d).y1 ∧ (lineValue width height d).y1 < height) ∧
      (0 ≤ (lineValue width height d).x2 ∧ (lineValue width height d).x2 < width) ∧
      (0 ≤ (lineValue width height d).y2 ∧ (lineValue width height d).y2 < height) ∧
      ((lineValue width height d).lineColor.a : Int) = intn d.aRaw 100 + 100 ∧
      100 ≤ (lineValue width height d).lineColor.a ∧
      (lineValue width height d).lineColor.a ≤ 199) := by
  have hw' : 0 < width := by omega
  have hh' : 0 < height := by omega
  refine ⟨by simp, by simp,
    preDistortion_eq cos sin pi width height bg n glyphs draws fuel hw' hh' hfuel, ?_, ?_⟩
  · intro d
    obtain ⟨x1, x2⟩ := intn_range d.xRaw width hw'
    obtain ⟨y1, y2⟩ := intn_range d.yRaw height hh'
    exact ⟨dotPixel_eq width height d hw' hh', x1, x2, y1, y2, rfl⟩
  · intro d
    obtain ⟨a1, a2⟩ := intn_range d.aRaw 100 (by decide)
    have ha : ((lineValue width height d).lineColor.a : Int) = intn d.aRaw 100 + 100 := by
      show ((uint8 (intn d.aRaw 100 + 100).toNat : Nat) : Int) = _
      unfold uint8
      omega
    obtain ⟨r1, r2, r3, r4⟩ := lineValue_range width height d hw' hh'
    exact ⟨noiseLine_eq width height d hw' hh', r1, r2, r3, r4, ha, by omega, by omega⟩

theorem noise_injection_counts_witness :
    (1 : Int) ≤ 40 ∧ (1 : Int) ≤ 25 ∧ (max (40 : Int) 25).toNat ≤ 40 ∧
    ((List.range 100).map (fun i => dotValue 40 25
      ((⟨fun _ => ⟨0, 5, 0⟩, fun i => ⟨i, 2 * i, 7, 8, 9⟩,
        fun i => ⟨i, 3, 39 - i, 20, 1, 2, 3, 250⟩⟩ : Draws ℚ).dot i))).length = 100 :=
  ⟨by decide, by decide, by decide,
    (noise_injection_counts (fun _ => (1 : ℚ)) (fun _ => (0 : ℚ)) 3 40 25
      ⟨255, 255, 255, 255⟩ 1 (fun _ _ _ => ⟨0, 0, 0, 255⟩)
      ⟨fun _ => ⟨0, 5, 0⟩, fun i => ⟨i, 2 * i, 7, 8, 9⟩,
        fun i => ⟨i, 3, 39 - i, 20, 1, 2, 3, 250⟩⟩ 40
      (by decide) (by decide) (by decide)).1⟩

/-- C18 (counterexample). On the 40x25 canvas with a one-glyph code and a white background,
when every raw random value of the noise is 0 the dots and the lines are drawn at `(0, 0)`,
a pixel of the border band, and the canvas before the wave passes has the colour
`(0, 0, 0, 100)` of the last line there, not the background. -/
theorem border_band_overwritten_by_noise :
    (preDistortion Real.cos Real.sin Real.pi 40 25 ⟨255, 255, 255, 255⟩ 1
        (fun _ _ _ => RGBA.zero)
        ⟨fun _ => ⟨1 / 2, 5, 0⟩, fun _ => ⟨0, 0, 0, 0, 0⟩, fun _ => ⟨0, 0, 0, 0, 0, 0, 0, 0⟩⟩
        40).map (fun img => img.At 0 0) = some ⟨0, 0, 0, 100⟩ ∧
    inBorderBand 40 25 0 0 ∧
    (⟨0, 0, 0, 100⟩ : RGBA) ≠ ⟨255, 255, 255, 255⟩ := by
  refine ⟨?_, Or.inl (by decide), by decide⟩
  rw [preDistortion_eq Real.cos Real.sin Real.pi 40 25 _ 1 _ _ 40 (by decide) (by decide)
    (by decide)]
  simp only [Option.map_some']
  refine congrArg some ?_
  obtain ⟨b1, b2, -⟩ := backgroundCanvas_spec 40 25 ⟨255, 255, 255, 255⟩ (by decide)
    (by decide)
  obtain ⟨c1, c2⟩ := composeGlyphs_dims Real.cos Real.sin Real.pi 1 40 25
    (fun _ _ _ => RGBA.zero) (fun _ => (⟨1 / 2, 5, 0⟩ : GlyphDraw ℝ))
    (backgroundCanvas 40 25 ⟨255, 255, 255, 255⟩)
  obtain ⟨d1, d2⟩ := foldl_Set_dims
    ((List.range 100).map (fun _ => dotValue 40 25 ⟨0, 0, 0, 0, 0⟩))
    (composeGlyphs Real.cos Real.sin Real.pi 1 40 25 (fun _ _ _ => RGBA.zero)
      (fun _ => (⟨1 / 2, 5, 0⟩ : GlyphDraw ℝ))
      (backgroundCanvas 40 25 ⟨255, 255, 255, 255⟩))
  have hlast := foldl_lineCanvas_last 40 25
    ((List.range 4).map (fun _ => lineValue 40 25 ⟨0, 0, 0, 0, 0, 0, 0, 0⟩))
    (lineValue 40 25 ⟨0, 0, 0, 0, 0, 0, 0, 0⟩) _
    (d1.trans (c1.trans b1)) (d2.trans (c2.trans b2)) (by decide) (by decide)
  have hr : (List.range 5).map (fun _ => lineValue 40 25 ⟨0, 0, 0, 0, 0, 0, 0, 0⟩)
      = (List.range 4).map (fun _ => lineValue 40 25 ⟨0, 0, 0, 0, 0, 0, 0, 0⟩)
        ++ [lineValue 40 25 ⟨0, 0, 0, 0, 0, 0, 0, 0⟩] := rfl
  rw [hr]
  exact hlast

/-- C18 (amended). For every code, canvas size and outcome of the random draws, after glyph
compositing and before noise injection every canvas pixel in the border band of width 2
equals the configured background colour: the compositor never touches the band.  (The noise
dots and lines drawn afterwards are placed anywhere on the canvas.) -/
theorem border_band_background_after_compositing {α : Type} [LinearOrderedField α]
    [FloorRing α] (cos sin : α → α) (pi : α) (n : Nat) (width height : Int) (bg : RGBA)
    (glyphs : Nat → Int → Int → RGBA) (draws : Nat → GlyphDraw α) (x y : Int)
    (hx : 0 ≤ x ∧ x < width) (hy : 0 ≤ y ∧ y < height)
    (hb : inBorderBand width height x y) :
    (composeGlyphs cos sin pi n width height glyphs draws
      (backgroundCanvas width height bg)).At x y = bg := by
  obtain ⟨b1, b2, b3⟩ := backgroundCanvas_spec width height bg (by omega) (by omega)
  obtain ⟨c1, c2⟩ := composeGlyphs_dims cos sin pi n width height glyphs draws
    (backgroundCanvas width height bg)
  rw [At_of_inBounds _ _ _ (by rw [c1, c2, b1, b2]; omega)]
  unfold composeGlyphs
  rw [glyphLoop_pix_band cos sin pi n width height glyphs draws _ x y hb n]
  exact b3 x y hx.1 hx.2 hy.1 hy.2

theorem border_band_background_after_compositing_witness :
    ((0 : Int) ≤ 39 ∧ (39 : Int) < 40) ∧ ((0 : Int) ≤ 12 ∧ (12 : Int) < 25) ∧
    inBorderBand 40 25 39 12 ∧
    (composeGlyphs (fun _ => (1 : ℚ)) (fun _ => (0 : ℚ)) 3 1 40 25
      (fun _ _ _ => ⟨0, 0, 0, 255⟩) (fun _ => ⟨1 / 2, 5, 0⟩)
      (backgroundCanvas 40 25 ⟨255, 255, 255, 255⟩)).At 39 12 = ⟨255, 255, 255, 255⟩ :=
  ⟨by decide, by decide, Or.inr (Or.inl (by decide)),
    border_band_background_after_compositing (fun _ => (1 : ℚ)) (fun _ => (0 : ℚ)) 3 1 40 25
      ⟨255, 255, 255, 255⟩ (fun _ _ _ => ⟨0, 0, 0, 255⟩) (fun _ => ⟨1 / 2, 5, 0⟩) 39 12
      (by decide) (by decide) (Or.inr (Or.inl (by decide)))⟩

/-- C16 (counterexample). Over exact real arithmetic the code's
`int(diagonal * sin(maxRotationRad))` is 19, while the ceiling of the same product
(about 19.498) is 20. -/
theorem maxRotationOffset_not_ceiling :
    maxRotationOffsetOf Real.sqrt Real.sin Real.pi = 19 ∧
    specMaxRotationOffset Real.sqrt Real.sin Real.pi = 20 ∧
    maxRotationOffsetOf Real.sqrt Real.sin Real.pi
      ≠ specMaxRotationOffset Real.sqrt Real.sin Real.pi := by
  obtain ⟨s1, s2⟩ := sqrt_3250_bounds
  obtain ⟨t1, t2⟩ := sin_twenty_degrees_bounds
  have h19 : maxRotationOffsetOf Real.sqrt Real.sin Real.pi = 19 := maxRotationOffsetOf_real
  have h20 : specMaxRotationOffset Real.sqrt Real.sin Real.pi = 20 := by
    unfold specMaxRotationOffset
    have e : (((charWidth ^ 2 + charHeight ^ 2 : Int) : ℝ)) = 3250 := by
      unfold charWidth charHeight
      norm_num
    rw [e, Int.ceil_eq_iff]
    constructor
    · push_cast
      nlinarith
    · push_cast
      nlinarith
  refine ⟨h19, h20, ?_⟩
  rw [h19, h20]
  decide

/-- C16 (amended). The maximum rotation offset used by the layout equals
`floor(sqrt(35^2 + 45^2) * sin(20 degrees))`, the worst-case corner displacement of a 35x45
cell with its fraction discarded, which is 19 (stated over exact real arithmetic). -/
theorem maxRotationOffset_is_floor :
    maxRotationOffsetOf Real.sqrt Real.sin Real.pi
      = Int.floor (Real.sqrt (35 ^ 2 + 45 ^ 2) * Real.sin (20 * Real.pi / 180)) ∧
    maxRotationOffsetOf Real.sqrt Real.sin Real.pi = maxRotationOffset ∧
    maxRotationOffset = 19 := by
  obtain ⟨s1, s2⟩ := sqrt_3250_bounds
  obtain ⟨t1, t2⟩ := sin_twenty_degrees_bounds
  refine ⟨?_, maxRotationOffsetOf_real, rfl⟩
  rw [maxRotationOffsetOf_real]
  have e : ((35 : ℝ) ^ 2 + 45 ^ 2) = 3250 := by norm_num
  rw [e]
  symm
  rw [Int.floor_eq_iff]
  unfold maxRotationOffset
  constructor
  · push_cast
    nlinarith
  · push_cast
    nlinarith

/-- C17 (failing input). Code of 2 glyphs on a 300x100 canvas: `startX = (300 - 138) / 2 = 81`
is neither clamped nor recomputed and the 25/5 profile is kept, yet for every outcome of the
spacing draws the first cell starts at `posX = 100` and the last cell ends between 155 and
165, so the right gap (135 to 145) exceeds the left gap (100) by at least 35 pixels, more
than the `1 + (2-1)*5 = 6` of the claim. -/
theorem two_glyphs_not_centered (spacingRaw : Nat → Nat) :
    (layout 2 300 100).startX = goDiv (300 - totalWidthWithRotation 2 25 5) 2 ∧
    (layout 2 300 100).baseCharSpacing = 25 ∧
    (layout 2 300 100).maxSpacingVariation = 5 ∧
    posXAt 2 300 100 spacingRaw 0 = 100 ∧
    120 ≤ posXAt 2 300 100 spacingRaw 1 ∧ posXAt 2 300 100 spacingRaw 1 ≤ 130 ∧
    (300 - (posXAt 2 300 100 spacingRaw 1 + charWidth)) - posXAt 2 300 100 spacingRaw 0 ≥ 35 ∧
    ¬ (|(300 - (posXAt 2 300 100 spacingRaw 1 + charWidth)) - posXAt 2 300 100 spacingRaw 0|
        ≤ 1 + ((2 : Int) - 1) * (layout 2 300 100).maxSpacingVariation) := by
  have hL : layout 2 300 100
      = { startX := 81, baseCharSpacing := 25, maxSpacingVariation := 5, centerY := 50 } := by
    decide
  have h0 : posXAt 2 300 100 spacingRaw 0 = 100 := by
    simp only [posXAt, spacingAt, hL, glyphPosX, maxRotationOffset]
    decide
  have hr := intn_range (spacingRaw 0) 11 (by decide)
  have h1 : 120 ≤ posXAt 2 300 100 spacingRaw 1 ∧ posXAt 2 300 100 spacingRaw 1 ≤ 130 := by
    simp only [posXAt, spacingAt, spacingStep, hL, glyphPosX, maxRotationOffset, charWidth]
    norm_num
    split_ifs <;> dsimp only <;> omega
  refine ⟨by decide, by decide, by decide, h0, h1.1, h1.2, ?_, ?_⟩
  · rw [h0]
    unfold charWidth
    omega
  · rw [h0, hL]
    unfold charWidth
    dsimp only
    intro h
    rw [abs_le] at h
    omega

/-- C20. Per-glyph transform parameters stay in their bounds: for every value `u` in `[0,1)`
of the uniform draw the rotation angle is `deg * pi / 180` with `deg = u*40 - 20` in
`[-20, 20]`, and for every raw value of the integer draw `rand.Intn(11)` is some `k` in
`{0,...,10}` and the vertical jitter is `k - 5`, in `[-5, 5]`; iteration `i` of the glyph
loop composites glyph `i` with the angle and the jitter of its own draws `draws i`, so the
parameters are drawn afresh for each glyph. -/
theorem glyph_transform_bounds {α : Type} [LinearOrderedField α] [FloorRing α]
    (cos sin : α → α) (pi : α) (n : Nat) (width height : Int)
    (glyphs : Nat → Int → Int → RGBA) (draws : Nat → GlyphDraw α) (img : Canvas)
    (u : α) (jitterRaw : Nat) (i : Nat) (h0 : 0 ≤ u) (h1 : u < 1) :
    (glyphAngle pi u = (u * 40 - 20) * pi / 180 ∧ -20 ≤ u * 40 - 20 ∧ u * 40 - 20 ≤ 20) ∧
    (∃ k : Int, 0 ≤ k ∧ k ≤ 10 ∧ intn jitterRaw 11 = k ∧ verticalOffset jitterRaw = k - 5 ∧
      -5 ≤ verticalOffset jitterRaw ∧ verticalOffset jitterRaw ≤ 5) ∧
    (glyphLoop cos sin pi n width height glyphs draws img (i + 1)).1
      = drawGlyph cos sin width height (glyphs i) (glyphAngle pi (draws i).u)
          (glyphPosX (layout n width height) i
            (glyphLoop cos sin pi n width height glyphs draws img i).2.charSpacing)
          ((layout n width height).centerY + verticalOffset (draws i).jitterRaw)
          (glyphLoop cos sin pi n width height glyphs draws img i).1 := by
  refine ⟨⟨rfl, by linarith, by linarith⟩, ?_, rfl⟩
  obtain ⟨a, b⟩ := intn_range jitterRaw 11 (by decide)
  refine ⟨intn jitterRaw 11, a, by omega, rfl, rfl, ?_, ?_⟩
  · unfold verticalOffset
    omega
  · unfold verticalOffset
    omega

theorem glyph_transform_bounds_witness :
    (0 : ℚ) ≤ 3 / 4 ∧ (3 / 4 : ℚ) < 1 ∧
    (glyphAngle (3 : ℚ) (3 / 4) = ((3 / 4 : ℚ) * 40 - 20) * 3 / 180 ∧
      -20 ≤ (3 / 4 : ℚ) * 40 - 20 ∧ (3 / 4 : ℚ) * 40 - 20 ≤ 20) :=
  ⟨by norm_num, by norm_num,
    (glyph_transform_bounds (fun _ => (1 : ℚ)) (fun _ => (0 : ℚ)) 3 2 100 50
      (fun _ _ _ => ⟨0, 0, 0, 255⟩) (fun _ => ⟨3 / 4, 7, 2⟩) (newRGBA 100 50) (3 / 4) 7 0
      (by norm_num) (by norm_num)).1⟩

/-- C14. Canvas coordinate invariant: for every configuration with `width ≥ 1` and
`height ≥ 1`, every code and every outcome of the random draws, `Generate` runs through all
its phases (each line walk being given at least `max width height` passes), and every
coordinate it passes to `Set` or `At` on a `width x height` canvas (background fill, glyph
compositing, noise dots, noise lines, reads and writes of the two wave passes) satisfies
`0 ≤ x < width` and `0 ≤ y < height`; the 35x45 glyph cell, a canvas of its own, is
accessed inside its own rectangle. -/
theorem generate_accesses_in_range {α : Type} [LinearOrderedField α] [FloorRing α]
    (cos sin : α → α) (pi : α) (width height : Int) (n : Nat)
    (glyphs : Nat → Int → Int → RGBA) (draws : Draws α) (fuel : Nat)
    (hw : 1 ≤ width) (hh : 1 ≤ height) (hfuel : (max width height).toNat ≤ fuel) :
    (∃ l, generateAccesses cos sin pi width height n glyphs draws fuel = some l ∧
      ∀ p ∈ l, 0 ≤ p.1 ∧ p.1 < width ∧ 0 ≤ p.2 ∧ p.2 < height) ∧
    (∀ p ∈ cellAccesses, 0 ≤ p.1 ∧ p.1 < charWidth ∧ 0 ≤ p.2 ∧ p.2 < charHeight) := by
  obtain ⟨ld, hd, hdr⟩ := dotAccesses_inRange width height draws.dot (by omega) (by omega)
  obtain ⟨ll, hl, hlr⟩ := lineAccesses_inRange fuel width height draws.line (by omega)
    (by omega) hfuel
  refine ⟨⟨backgroundAccesses width height ++
    composeAccesses cos sin pi n width height glyphs draws.glyph n ++
    ld ++ ll ++ verticalPassAccesses (waveOffsetV sin) width height ++
    horizontalPassAccesses (waveOffsetH sin) width height, ?_, ?_⟩,
    backgroundAccesses_inRange charWidth charHeight⟩
  · unfold generateAccesses
    rw [hd, hl]
    rfl
  · intro p hp
    simp only [List.mem_append] at hp
    rcases hp with ((((h | h) | h) | h) | h) | h
    · exact backgroundAccesses_inRange width height p h
    · exact composeAccesses_inRange cos sin pi n width height glyphs draws.glyph n p h
    · exact hdr p h
    · exact hlr p h
    · exact verticalPassAccesses_inRange _ width height p h
    · exact horizontalPassAccesses_inRange _ width height p h

theorem generate_accesses_in_range_witness :
    (1 : Int) ≤ 30 ∧ (1 : Int) ≤ 30 ∧ (max (30 : Int) 30).toNat ≤ 30 ∧
    ∃ l, generateAccesses (fun _ => (1 : ℚ)) (fun _ => (0 : ℚ)) 3 30 30 2
        (fun _ _ _ => ⟨0, 0, 0, 255⟩)
        ⟨fun _ => ⟨1 / 2, 5, 0⟩, fun i => ⟨i, 2 * i, 7, 8, 9⟩,
          fun i => ⟨i, 3, 29 - i, 20, 1, 2, 3, 250⟩⟩ 30 = some l ∧
      ∀ p ∈ l, 0 ≤ p.1 ∧ p.1 < 30 ∧ 0 ≤ p.2 ∧ p.2 < 30 :=
  ⟨by decide, by decide, by decide,
    (generate_accesses_in_range (fun _ => (1 : ℚ)) (fun _ => (0 : ℚ)) 3 30 30 2
      (fun _ _ _ => ⟨0, 0, 0, 255⟩)
      ⟨fun _ => ⟨1 / 2, 5, 0⟩, fun i => ⟨i, 2 * i, 7, 8, 9⟩,
        fun i => ⟨i, 3, 29 - i, 20, 1, 2, 3, 250⟩⟩ 30 (by decide) (by decide)
      (by decide)).1⟩

/-- C15. `Generate` fails only through the encoder: for every configuration with
`width ≥ 1` and `height ≥ 1`, every code and every outcome of the random draws, layout,
compositing, noise and distortion complete (no `rand.Intn` precondition is violated, every
bound `2*maxSpacingVariation+1` of the glyph loop being positive, and every line walk ends
within `max width height` passes), the final canvas handed to the encoder has size
`width x height`, and `Generate` returns the encoder's error when the encoder fails and the
encoder's bytes otherwise. -/
theorem generate_fails_only_through_encoder {α β ε : Type} [LinearOrderedField α]
    [FloorRing α] (cos sin : α → α) (pi : α) (encode : Canvas → Except ε β)
    (width height : Int) (bg : RGBA) (n : Nat) (glyphs : Nat → Int → Int → RGBA)
    (draws : Draws α) (fuel : Nat)
    (hw : 1 ≤ width) (hh : 1 ≤ height) (hfuel : (max width height).toNat ≤ fuel) :
    ∃ img finalImage : Canvas,
      preDistortion cos sin pi width height bg n glyphs draws fuel = some img ∧
      finalImage = waveDistort (waveOffsetV sin) (waveOffsetH sin) width height bg img ∧
      finalImage.width = width ∧ finalImage.height = height ∧
      (∀ k, 0 < 2 * (spacingAt (layout n width height) n width
        (fun i => (draws.glyph i).spacingRaw) k).maxSpacingVariation + 1) ∧
      Generate cos sin pi encode width height bg n glyphs draws fuel
        = some (encode finalImage) ∧
      (∀ err, encode finalImage = Except.error err →
        Generate cos sin pi encode width height bg n glyphs draws fuel
          = some (Except.error err)) ∧
      (∀ buf, encode finalImage = Except.ok buf →
        Generate cos sin pi encode width height bg n glyphs draws fuel
          = some (Except.ok buf)) := by
  have hpre := preDistortion_eq cos sin pi width height bg n glyphs draws fuel (by omega)
    (by omega) hfuel
  obtain ⟨d1, d2, -⟩ := horizontalPass_spec (waveOffsetH sin) width height bg
    (verticalPass (waveOffsetV sin) width height bg
      (((List.range 5).map (fun i => lineValue width height (draws.line i))).foldl
          (fun acc l => lineCanvas width height l acc)
          (((List.range 100).map (fun i => dotValue width height (draws.dot i))).foldl
            (fun acc d => acc.Set d.1 d.2.1 d.2.2)
            (composeGlyphs cos sin pi n width height glyphs draws.glyph
              (backgroundCanvas width height bg))))) (by omega) (by omega)
  have hgen : Generate cos sin pi encode width height bg n glyphs draws fuel
      = some (encode (waveDistort (waveOffsetV sin) (waveOffsetH sin) width height bg
        (((List.range 5).map (fun i => lineValue width height (draws.line i))).foldl
          (fun acc l => lineCanvas width height l acc)
          (((List.range 100).map (fun i => dotValue width height (draws.dot i))).foldl
            (fun acc d => acc.Set d.1 d.2.1 d.2.2)
            (composeGlyphs cos sin pi n width height glyphs draws.glyph
              (backgroundCanvas width height bg)))))) := by
    unfold Generate
    rw [hpre]
    simp only [Option.bind_eq_bind, Option.some_bind]
    split <;> simp [*]
  refine ⟨_, _, hpre, rfl, d1, d2, ?_, hgen, ?_, ?_⟩
  · intro k
    have h := glyphLoop_msv_pos cos sin pi n width height glyphs draws.glyph
      (newRGBA width height) k
    rw [glyphLoop_snd] at h
    omega
  · intro err he
    rw [hgen, he]
  · intro buf he
    rw [hgen, he]

theorem generate_fails_only_through_encoder_witness :
    (1 : Int) ≤ 40 ∧ (1 : Int) ≤ 25 ∧ (max (40 : Int) 25).toNat ≤ 40 ∧
    ∃ img finalImage : Canvas,
      preDistortion (fun _ => (1 : ℚ)) (fun _ => (0 : ℚ)) 3 40 25 ⟨255, 255, 255, 255⟩ 1
        (fun _ _ _ => ⟨0, 0, 0, 255⟩)
        ⟨fun _ => ⟨1 / 2, 5, 0⟩, fun i => ⟨i, 2 * i, 7, 8, 9⟩,
          fun i => ⟨i, 3, 39 - i, 20, 1, 2, 3, 250⟩⟩ 40 = some img ∧
      finalImage = waveDistort (waveOffsetV (fun _ => (0 : ℚ)))
        (waveOffsetH (fun _ => (0 : ℚ))) 40 25 ⟨255, 255, 255, 255⟩ img ∧
      finalImage.width = 40 ∧ finalImage.height = 25 :=
  ⟨by decide, by decide, by decide,
    (generate_fails_only_through_encoder (fun _ => (1 : ℚ)) (fun _ => (0 : ℚ)) 3
      (fun c => (Except.ok (c.width, c.height) : Except String (Int × Int))) 40 25
      ⟨255, 255, 255, 255⟩ 1 (fun _ _ _ => ⟨0, 0, 0, 255⟩)
      ⟨fun _ => ⟨1 / 2, 5, 0⟩, fun i => ⟨i, 2 * i, 7, 8, 9⟩,
        fun i => ⟨i, 3, 39 - i, 20, 1, 2, 3, 250⟩⟩ 40
      (by decide) (by decide) (by decide)).imp
      (fun _ h => h.imp (fun _ h2 => ⟨h2.1, h2.2.1, h2.2.2.1, h2.2.2.2.1⟩))⟩

/-- C21. The shift-left adjustment is never the final start position: for every canvas
width and code length, whenever the right-edge overflow check fires the shifted
`startX = width - total - 10` is below the minimum margin, so the tighter profile is taken;
the 20/3 profile is selected if and only if `width < 65*n + 47`, and then
`startX = max((width - 58*n - 15)/2, 29)`; otherwise the 25/5 profile is kept with
`startX = max((width - 65*n - 8)/2, 29)` (truncating division). -/
theorem shift_left_never_final (n : Nat) (width height : Int) :
    (centeredStartX width (totalWidthWithRotation n 25 5) + totalWidthWithRotation n 25 5
        > width - 10 →
      width - totalWidthWithRotation n 25 5 - 10 < maxRotationOffset + 10) ∧
    (((layout n width height).baseCharSpacing = 20 ∧
        (layout n width height).maxSpacingVariation = 3) ↔ width < 65 * (n : Int) + 47) ∧
    (width < 65 * (n : Int) + 47 →
      (layout n width height).startX = max (goDiv (width - 58 * (n : Int) - 15) 2) 29) ∧
    (¬ width < 65 * (n : Int) + 47 →
      (layout n width height).baseCharSpacing = 25 ∧
      (layout n width height).maxSpacingVariation = 5 ∧
      (layout n width height).startX = max (goDiv (width - 65 * (n : Int) - 8) 2) 29) := by
  obtain ⟨h1, h2⟩ := overflow_check_iff n width
  have e1 : width - 58 * (n : Int) - 15 = width - (58 * (n : Int) + 15) := by ring
  have e2 : width - 65 * (n : Int) - 8 = width - (65 * (n : Int) + 8) := by ring
  rw [e1, e2]
  simp only [layout, horizontalLayout_eq]
  refine ⟨fun h => h2 (h1.mp h), ?_, ?_, ?_⟩
  · constructor
    · intro h
      by_contra hlt
      rw [if_neg hlt] at h
      have h25 : (25 : Int) = 20 := h.1
      exact absurd h25 (by decide)
    · intro hlt
      rw [if_pos hlt]
      exact ⟨rfl, rfl⟩
  · intro hlt
    rw [if_pos hlt]
  · intro hlt
    rw [if_neg hlt]
    exact ⟨rfl, rfl, rfl⟩

/-- C23. The upper vertical clamp is dead code: for every canvas height the branch
`centerY > maxY` is never reached with its condition true, the centre line is
`max(height/2, 41)` (truncating division), it is 41 for every height below 82 and exactly
`height/2` from 82 on. -/
theorem upper_vertical_clamp_dead (height : Int) :
    ¬ (¬ goDiv height 2 < minY ∧ goDiv height 2 > maxY height) ∧
    centerY height = max (goDiv height 2) 41 ∧
    (height < 82 → centerY height = 41) ∧
    (82 ≤ height → centerY height = goDiv height 2) := by
  simp only [centerY, maxY, minY_eq, goDiv_charHeight]
  have g := goDiv_two height
  generalize goDiv height 2 = a at *
  unfold maxRotationOffset
  refine ⟨?_, ?_, ?_, ?_⟩
  · split_ifs at g <;> omega
  · split_ifs at g ⊢ <;> omega
  · intro h
    split_ifs at g ⊢ <;> omega
  · intro h
    split_ifs at g ⊢ <;> omega

/-- C24. The bounds check inside the noise line walk never fails: for every pair of
endpoints with `0 ≤ x1, x2 < width` and `0 ≤ y1, y2 < height`, the walk ends (given more
than `max |x2-x1| |y2-y1|` passes), every point `(x, y)` it visits satisfies
`min x1 x2 ≤ x ≤ max x1 x2` and `min y1 y2 ≤ y ≤ max y1 y2`, hence passes the bounds check,
so that the loop body performs `img.Set(x, y, lineColor)` there, and the canvas left by the
walk has the line colour at every visited point. -/
theorem line_walk_bounds_check_never_fails (width height x1 y1 x2 y2 : Int) (fuel : Nat)
    (lineColor : RGBA) (img : Canvas)
    (hx1 : 0 ≤ x1 ∧ x1 < width) (hy1 : 0 ≤ y1 ∧ y1 < height)
    (hx2 : 0 ≤ x2 ∧ x2 < width) (hy2 : 0 ≤ y2 ∧ y2 < height)
    (hw : img.width = width) (hh : img.height = height)
    (hfuel : (max |x2 - x1| |y2 - y1|).toNat < fuel) :
    ∃ l img', lineVisited fuel x1 y1 x2 y2 = some l ∧
      drawLine fuel width height lineColor x1 y1 x2 y2 img = some img' ∧
      ∀ q ∈ l,
        (min x1 x2 ≤ q.1 ∧ q.1 ≤ max x1 x2 ∧ min y1 y2 ≤ q.2 ∧ q.2 ≤ max y1 y2) ∧
        (q.1 ≥ 0 ∧ q.1 < width ∧ q.2 ≥ 0 ∧ q.2 < height) ∧
        (∀ d : Canvas, linePlot width height lineColor q.1 q.2 d = d.Set q.1 q.2 lineColor) ∧
        img'.pix q.1 q.2 = lineColor := by
  refine ⟨lineTrace (lineParams x1 y1 x2 y2) (max |x2 - x1| |y2 - y1|).toNat
      (lineStart x1 y1 x2 y2),
    (lineTrace (lineParams x1 y1 x2 y2) (max |x2 - x1| |y2 - y1|).toNat
      (lineStart x1 y1 x2 y2)).foldl
      (fun acc q => linePlot width height lineColor q.1 q.2 acc) img, ?_, ?_, ?_⟩
  · unfold lineVisited
    rw [lineLoop_result, if_pos hfuel, foldl_append_singleton, List.nil_append]
  · unfold drawLine
    rw [lineLoop_result, if_pos hfuel]
  · intro q hq
    obtain ⟨b1, b2, b3, b4, -⟩ := lineTrace_point x1 y1 x2 y2 q hq
    have hin : q.1 ≥ 0 ∧ q.1 < width ∧ q.2 ≥ 0 ∧ q.2 < height := by
      rcases le_total x1 x2 with hx | hx <;> rcases le_total y1 y2 with hy | hy <;>
        simp only [min_eq_left, min_eq_right, max_eq_left, max_eq_right, hx, hy]
          at b1 b2 b3 b4 <;> omega
    refine ⟨⟨b1, b2, b3, b4⟩, hin, ?_, ?_⟩
    · intro d
      unfold linePlot
      rw [if_pos hin]
    · obtain ⟨-, -, hp⟩ := foldl_linePlot width height lineColor
        (lineTrace (lineParams x1 y1 x2 y2) (max |x2 - x1| |y2 - y1|).toNat
          (lineStart x1 y1 x2 y2)) img hw hh
      rw [hp, if_pos ⟨hq, hin.1, hin.2.1, hin.2.2.1, hin.2.2.2⟩]

theorem line_walk_bounds_check_never_fails_witness :
    ((0 : Int) ≤ 9 ∧ (9 : Int) < 10) ∧ ((0 : Int) ≤ 0 ∧ (0 : Int) < 8) ∧
    ((0 : Int) ≤ 2 ∧ (2 : Int) < 10) ∧ ((0 : Int) ≤ 7 ∧ (7 : Int) < 8) ∧
    (max |(2 : Int) - 9| |(7 : Int) - 0|).toNat < 8 ∧
    ∃ l img', lineVisited 8 9 0 2 7 = some l ∧
      drawLine 8 10 8 ⟨1, 2, 3, 150⟩ 9 0 2 7 (newRGBA 10 8) = some img' ∧
      ∀ q ∈ l,
        (min 9 2 ≤ q.1 ∧ q.1 ≤ max 9 2 ∧ min 0 7 ≤ q.2 ∧ q.2 ≤ max 0 7) ∧
        (q.1 ≥ 0 ∧ q.1 < 10 ∧ q.2 ≥ 0 ∧ q.2 < 8) ∧
        (∀ d : Canvas, linePlot 10 8 ⟨1, 2, 3, 150⟩ q.1 q.2 d = d.Set q.1 q.2 ⟨1, 2, 3, 150⟩) ∧
        img'.pix q.1 q.2 = ⟨1, 2, 3, 150⟩ :=
  ⟨by decide, by decide, by decide, by decide, by decide,
    line_walk_bounds_check_never_fails 10 8 9 0 2 7 8 ⟨1, 2, 3, 150⟩ (newRGBA 10 8)
      (by decide) (by decide) (by decide) (by decide) rfl rfl (by decide)⟩

/-- C22. Sufficient canvas size prevents clipping: for every code of `n ≥ 1` glyphs, every
canvas with `width ≥ 65*n + 47` and `height ≥ 82`, every glyph raster and every outcome of
the random draws (rotation over exact real arithmetic), the spacing in force at any glyph is
at most 30, the jitter is within ±5, the angle is within ±0.35 rad (±20 degrees), and every
opaque pixel of every 35x45 glyph cell has its rotated destination inside the 2-pixel
safety margin, so the compositor writes it: no glyph pixel is dropped. -/
theorem sufficient_canvas_prevents_clipping (n : Nat) (width height : Int)
    (glyphs : Nat → Int → Int → RGBA) (draws : Nat → GlyphDraw ℝ) (i : Nat) (x y : Int)
    (hw : 65 * (n : Int) + 47 ≤ width) (hh : 82 ≤ height) (hi : i < n)
    (hu : 0 ≤ (draws i).u ∧ (draws i).u < 1)
    (hx : 0 ≤ x ∧ x < 35) (hy : 0 ≤ y ∧ y < 45) (hop : (glyphs i x y).a > 0) :
    (spacingAt (layout n width height) n width (fun k => (draws k).spacingRaw) i).charSpacing
      ≤ 30 ∧
    (-5 ≤ verticalOffset (draws i).jitterRaw ∧ verticalOffset (draws i).jitterRaw ≤ 5) ∧
    |glyphAngle Real.pi (draws i).u| ≤ 0.35 ∧
    (2 ≤ (glyphDest Real.cos Real.sin (glyphAngle Real.pi (draws i).u)
        (posXAt n width height (fun k => (draws k).spacingRaw) i)
        ((layout n width height).centerY + verticalOffset (draws i).jitterRaw) x y).1 ∧
      (glyphDest Real.cos Real.sin (glyphAngle Real.pi (draws i).u)
        (posXAt n width height (fun k => (draws k).spacingRaw) i)
        ((layout n width height).centerY + verticalOffset (draws i).jitterRaw) x y).1
        < width - 2 ∧
      2 ≤ (glyphDest Real.cos Real.sin (glyphAngle Real.pi (draws i).u)
        (posXAt n width height (fun k => (draws k).spacingRaw) i)
        ((layout n width height).centerY + verticalOffset (draws i).jitterRaw) x y).2 ∧
      (glyphDest Real.cos Real.sin (glyphAngle Real.pi (draws i).u)
        (posXAt n width height (fun k => (draws k).spacingRaw) i)
        ((layout n width height).centerY + verticalOffset (draws i).jitterRaw) x y).2
        < height - 2) ∧
    ∃ c, glyphPixelWrite width height (glyphs i x y)
        (glyphDest Real.cos Real.sin (glyphAngle Real.pi (draws i).u)
          (posXAt n width height (fun k => (draws k).spacingRaw) i)
          ((layout n width height).centerY + verticalOffset (draws i).jitterRaw) x y)
      = some ((glyphDest Real.cos Real.sin (glyphAngle Real.pi (draws i).u)
          (posXAt n width height (fun k => (draws k).spacingRaw) i)
          ((layout n width height).centerY + verticalOffset (draws i).jitterRaw) x y).1,
        (glyphDest Real.cos Real.sin (glyphAngle Real.pi (draws i).u)
          (posXAt n width height (fun k => (draws k).spacingRaw) i)
          ((layout n width height).centerY + verticalOffset (draws i).jitterRaw) x y).2,
        c) := by
  have hθ := glyphAngle_abs_le _ hu.1 hu.2
  -- the layout on a canvas of this size
  have hnlt : ¬ width < 65 * (n : Int) + 47 := by omega
  have hbase : (layout n width height).baseCharSpacing = 25 := by
    simp only [layout, horizontalLayout_eq, if_neg hnlt]
  have hmsv : (layout n width height).maxSpacingVariation = 5 := by
    simp only [layout, horizontalLayout_eq, if_neg hnlt]
  have hstart : (layout n width height).startX
      = max (goDiv (width - (65 * (n : Int) + 8)) 2) 29 := by
    simp only [layout, horizontalLayout_eq, if_neg hnlt]
  have hcy : (layout n width height).centerY = goDiv height 2 := by
    show centerY height = _
    simp only [centerY, maxY, minY_eq, goDiv_charHeight]
    have g := goDiv_two height
    generalize goDiv height 2 = a at *
    unfold maxRotationOffset
    split_ifs at g ⊢ <;> omega
  obtain ⟨s1, s2, -, -⟩ := spacingAt_wide_bounds (layout n width height) n width
    (fun k => (draws k).spacingRaw) hbase hmsv i
  obtain ⟨j1, j2⟩ := intn_range (draws i).jitterRaw 11 (by decide)
  have hvo : -5 ≤ verticalOffset (draws i).jitterRaw ∧
      verticalOffset (draws i).jitterRaw ≤ 5 := by
    unfold verticalOffset
    constructor <;> omega
  -- the base position of glyph `i`
  have hpos : (layout n width height).startX + 19 ≤
        posXAt n width height (fun k => (draws k).spacingRaw) i ∧
      posXAt n width height (fun k => (draws k).spacingRaw) i
        ≤ (layout n width height).startX + 19 + 30 * ((n : Int) - 1) := by
    simp only [posXAt, glyphPosX, maxRotationOffset]
    generalize (spacingAt (layout n width height) n width
      (fun k => (draws k).spacingRaw) i).charSpacing = c at *
    have hi' : (i : Int) ≤ (n : Int) - 1 := by omega
    have m1 : 0 ≤ (i : Int) * c := mul_nonneg (by omega) (by omega)
    have m2 : (i : Int) * c ≤ (i : Int) * 30 :=
      Int.mul_le_mul_of_nonneg_left s2 (by omega)
    constructor <;> omega
  obtain ⟨d1, d2, d3, d4⟩ := glyphDest_bounds (glyphAngle Real.pi (draws i).u) hθ
    (posXAt n width height (fun k => (draws k).spacingRaw) i)
    ((layout n width height).centerY + verticalOffset (draws i).jitterRaw) x y hx hy
  have g1 := goDiv_two (width - (65 * (n : Int) + 8))
  have g2 := goDiv_two height
  have hn1 : (1 : Int) ≤ (n : Int) := by omega
  have hmargin :
      2 ≤ (glyphDest Real.cos Real.sin (glyphAngle Real.pi (draws i).u)
        (posXAt n width height (fun k => (draws k).spacingRaw) i)
        ((layout n width height).centerY + verticalOffset (draws i).jitterRaw) x y).1 ∧
      (glyphDest Real.cos Real.sin (glyphAngle Real.pi (draws i).u)
        (posXAt n width height (fun k => (draws k).spacingRaw) i)
        ((layout n width height).centerY + verticalOffset (draws i).jitterRaw) x y).1
        < width - 2 ∧
      2 ≤ (glyphDest Real.cos Real.sin (glyphAngle Real.pi (draws i).u)
        (posXAt n width height (fun k => (draws k).spacingRaw) i)
        ((layout n width height).centerY + verticalOffset (draws i).jitterRaw) x y).2 ∧
      (glyphDest Real.cos Real.sin (glyphAngle Real.pi (draws i).u)
        (posXAt n width height (fun k => (draws k).spacingRaw) i)
        ((layout n width height).centerY + verticalOffset (draws i).jitterRaw) x y).2
        < height - 2 := by
    rw [hcy] at d1 d2 d3 d4 ⊢
    rw [hstart] at hpos
    generalize goDiv (width - (65 * (n : Int) + 8)) 2 = a at *
    generalize goDiv height 2 = b at *
    rw [if_pos (by omega)] at g1 g2
    refine ⟨?_, ?_, ?_, ?_⟩ <;> omega
  exact ⟨s2, hvo, hθ, hmargin,
    (glyphPixelWrite_eq_some_iff width height _ _).mpr ⟨hop, hmargin⟩⟩

theorem sufficient_canvas_prevents_clipping_witness :
    65 * ((1 : Nat) : Int) + 47 ≤ 112 ∧ (82 : Int) ≤ 82 ∧ 0 < 1 ∧
    (0 ≤ (1 / 2 : ℝ) ∧ (1 / 2 : ℝ) < 1) ∧ ((0 : Int) ≤ 34 ∧ (34 : Int) < 35) ∧
    ((0 : Int) ≤ 44 ∧ (44 : Int) < 45) ∧ (⟨0, 0, 0, 255⟩ : RGBA).a > 0 ∧
    ∃ c, glyphPixelWrite 112 82 ⟨0, 0, 0, 255⟩
        (glyphDest Real.cos Real.sin (glyphAngle Real.pi (1 / 2))
          (posXAt 1 112 82 (fun _ => 0) 0)
          ((layout 1 112 82).centerY + verticalOffset 5) 34 44)
      = some ((glyphDest Real.cos Real.sin (glyphAngle Real.pi (1 / 2))
          (posXAt 1 112 82 (fun _ => 0) 0)
          ((layout 1 112 82).centerY + verticalOffset 5) 34 44).1,
        (glyphDest Real.cos Real.sin (glyphAngle Real.pi (1 / 2))
          (posXAt 1 112 82 (fun _ => 0) 0)
          ((layout 1 112 82).centerY + verticalOffset 5) 34 44).2,
        c) :=
  ⟨by decide, by decide, by decide, by norm_num, by decide, by decide, by decide,
    (sufficient_canvas_prevents_clipping 1 112 82 (fun _ _ _ => ⟨0, 0, 0, 255⟩)
      (fun _ => ⟨1 / 2, 5, 0⟩) 0 34 44 (by decide) (by decide) (by decide) (by norm_num)
      (by decide) (by decide) (by decide)).2.2.2.2⟩

end Captcha
